import Mathlib

/-!
Verification development for the `umm_malloc` embedded-systems memory
allocator (src/umm_malloc.c).

The heap is an array of 8-byte cells (`umm_block`): two 16-bit header
words (`next`/`prev` physical links, with bit 15 of `next` acting as the
free flag) and two 16-bit body words that hold the free-list links
(`NF`/`PF`) while a block is free and user data while it is used.

We model each cell as four natural numbers; every store truncates to
16 bits (`% 65536`), mirroring the C `unsigned short int` fields.  The C
bit operations only ever mask with `0x7FFF` (= keep the low 15 bits,
i.e. `% 32768`) or set bit 15 on a 15-bit block number (i.e. `+ 32768`
after masking), so they are transcribed as the equivalent arithmetic.
-/

namespace Umm

structure Cell where
  nb : Nat
  pb : Nat
  w0 : Nat
  w1 : Nat
deriving Repr, DecidableEq

def cellD : Cell := ⟨0, 0, 0, 0⟩

abbrev Heap := List Cell

/-- Read cell `i`; out-of-range reads yield the zero cell (the C code
only indexes in range under the structural invariants). -/
def cell (h : Heap) (i : Nat) : Cell := h.getD i cellD

/-- `UMM_NBLOCK(i)`: next physical block, bit 15 = free flag. -/
def NBLOCK (h : Heap) (i : Nat) : Nat := (cell h i).nb

/-- `UMM_PBLOCK(i)`: previous physical block. -/
def PBLOCK (h : Heap) (i : Nat) : Nat := (cell h i).pb

/-- `UMM_NFREE(i)`: next block in the free list (body word 0). -/
def NFREE (h : Heap) (i : Nat) : Nat := (cell h i).w0

/-- `UMM_PFREE(i)`: previous block in the free list (body word 1). -/
def PFREE (h : Heap) (i : Nat) : Nat := (cell h i).w1

def setNB (h : Heap) (i v : Nat) : Heap := h.set i { cell h i with nb := v % 65536 }
def setPB (h : Heap) (i v : Nat) : Heap := h.set i { cell h i with pb := v % 65536 }
def setNF (h : Heap) (i v : Nat) : Heap := h.set i { cell h i with w0 := v % 65536 }
def setPF (h : Heap) (i v : Nat) : Heap := h.set i { cell h i with w1 := v % 65536 }

/-- Whole-cell store; models the `memcpy` of one `umm_block`. -/
def setCell (h : Heap) (i : Nat) (c : Cell) : Heap := h.set i c

/-- `x & UMM_BLOCKNO_MASK` (`0x7FFF`): keep the low 15 bits. -/
def blockNoOf (x : Nat) : Nat := x % 32768

/-- `(x & UMM_FREELIST_MASK) != 0` (`0x8000`), for a 16-bit `x`. -/
def hasFlag (x : Nat) : Bool := decide (32768 ≤ x % 65536)

/-- `x | freemask` for `freemask ∈ {0, 0x8000}` and 16-bit `x`:
setting bit 15 of a 16-bit value is `x % 32768 + 32768`. -/
def orFlag (x freemask : Nat) : Nat := if freemask = 0 then x else x % 32768 + 32768

/-- 16-bit wraparound subtraction: the C code subtracts two
`unsigned short int` values in `int` arithmetic and stores the result
back into an `unsigned short int`. -/
def u16sub (x y : Nat) : Nat := (x % 65536 + 65536 - y % 65536) % 65536

/-- `umm_blocks(size)`: payload size in bytes to block count.  The body
of the first cell holds 4 bytes; each further cell holds 8.  The result
is truncated to `unsigned short int` on return (`% 65536`). -/
def umm_blocks (size : Nat) : Nat :=
  if size ≤ 4 then 1
  else (2 + (size - 5) / 8) % 65536

/-- `umm_make_new_block(c, blocks, freemask)`: split the block at `c`,
inserting a new physical block at `c + blocks`.  Statements are
transcribed in source order, each reading the heap produced so far. -/
def umm_make_new_block (h : Heap) (c blocks freemask : Nat) : Heap :=
  let h1 := setNB h (c + blocks) (blockNoOf (NBLOCK h c))
  let h2 := setPB h1 (c + blocks) c
  let h3 := setPB h2 (blockNoOf (NBLOCK h2 c)) (c + blocks)
  setNB h3 c (orFlag (c + blocks) freemask)

/-- `umm_disconnect_from_free_list(c)`: unlink `c` from the free list
and clear its free flag (`NB(c) &= ~0x8000`, i.e. `% 32768`). -/
def umm_disconnect_from_free_list (h : Heap) (c : Nat) : Heap :=
  let h1 := setNF h (PFREE h c) (NFREE h c)
  let h2 := setPF h1 (NFREE h1 c) (PFREE h1 c)
  setNB h2 c (blockNoOf (NBLOCK h2 c))

/-- `umm_assimilate_up(c)`: if the next physical block is free, unlink
it and absorb it into `c`. -/
def umm_assimilate_up (h : Heap) (c : Nat) : Heap :=
  if hasFlag (NBLOCK h (NBLOCK h c)) then
    let h1 := umm_disconnect_from_free_list h (NBLOCK h c)
    let h2 := setPB h1 (blockNoOf (NBLOCK h1 (NBLOCK h1 c))) c
    setNB h2 c (blockNoOf (NBLOCK h2 (NBLOCK h2 c)))
  else h

/-- `umm_assimilate_down(c, freemask)`: merge `c` into its physical
predecessor; returns the new heap and `UMM_PBLOCK(c)`. -/
def umm_assimilate_down (h : Heap) (c freemask : Nat) : Heap × Nat :=
  let h1 := setNB h (PBLOCK h c) (orFlag (NBLOCK h c) freemask)
  let h2 := setPB h1 (NBLOCK h1 c) (PBLOCK h1 c)
  (h2, PBLOCK h2 c)

/-- The body of `umm_free` after the NULL check and the pointer-to-index
conversion. -/
def umm_free_idx (h : Heap) (c : Nat) : Heap :=
  let h1 := umm_assimilate_up h c
  if hasFlag (NBLOCK h1 (PBLOCK h1 c)) then
    (umm_assimilate_down h1 c 32768).1
  else
    let h2 := setPF h1 (NFREE h1 0) c
    let h3 := setNF h2 c (NFREE h2 0)
    let h4 := setPF h3 c 0
    let h5 := setNF h4 0 c
    setNB h5 c (orFlag (NBLOCK h5 c) 32768)

/-- `umm_free(ptr)`.  Addresses are byte addresses; `base` is the
address of `umm_heap[0]`.  The C code converts
`(ptr - base) / sizeof(umm_block)` into an `unsigned short int`. -/
def umm_free (base : Nat) (h : Heap) (ptr : Nat) : Heap :=
  if ptr = 0 then h
  else umm_free_idx h (((ptr - base) / 8) % 65536)

/-- State of the free-list scan in `umm_malloc` (locals `cf`,
`blockSize`, `bestBlock`, `bestSize`). -/
structure LoopSt where
  cf : Nat
  blockSize : Nat
  bestBlock : Nat
  bestSize : Nat
deriving Repr, DecidableEq

/-- The best-fit scan `while (UMM_NFREE(cf)) ...` of `umm_malloc`.
The loop only reads the heap, so recursion on explicit fuel is a
faithful rendering; `umm_malloc_core` passes fuel `h.length`, enough
for the walk to reach the list end whenever the structural invariants
hold. -/
def mallocLoop (h : Heap) (blocks : Nat) : Nat → LoopSt → LoopSt
  | 0, s => s
  | fuel + 1, s =>
    if NFREE h s.cf ≠ 0 then
      let bs := u16sub (blockNoOf (NBLOCK h s.cf)) s.cf
      if blocks ≤ bs ∧ bs < s.bestSize then
        mallocLoop h blocks fuel ⟨NFREE h s.cf, bs, s.cf, bs⟩
      else
        mallocLoop h blocks fuel ⟨NFREE h s.cf, bs, s.bestBlock, s.bestSize⟩
    else s

/-- The scan of `umm_malloc` with its initial state: `cf = UMM_NFREE(0)`,
`bestBlock = UMM_NFREE(0)`, `bestSize = 0x7FFF`. -/
def mallocScanSt (h : Heap) (blocks : Nat) : LoopSt :=
  mallocLoop h blocks h.length ⟨NFREE h 0, 0, NFREE h 0, 32767⟩

/-- The end-of-heap extension of `umm_malloc` at `cf`: redirect the
free-list predecessor past `cf`, copy the cell at `cf` to `cf + blocks`
(the `memcpy`, preserving the trailing free-list tail), then link the
new used block into the physical chain. -/
def endAlloc (h : Heap) (cf blocks : Nat) : Heap :=
  let h2 := setNF h (PFREE h cf) (cf + blocks)
  let h3 := setCell h2 (cf + blocks) (cell h2 cf)
  let h4 := setNB h3 cf (cf + blocks)
  setPB h4 (cf + blocks) cf

/-- `umm_malloc` at block-index level: returns the new heap and the
index of the first cell of the allocated block (`none` = NULL). -/
def umm_malloc_core (h : Heap) (size : Nat) : Heap × Option Nat :=
  if size = 0 then (h, none)
  else
    let blocks := umm_blocks size
    let s := mallocScanSt h blocks
    let cf := if s.bestSize ≠ 32767 then s.bestBlock else s.cf
    let blockSize := if s.bestSize ≠ 32767 then s.bestSize else s.blockSize
    if blockNoOf (NBLOCK h cf) ≠ 0 then
      if blockSize = blocks then
        (umm_disconnect_from_free_list h cf, some cf)
      else
        let h1 := umm_make_new_block h cf (u16sub blockSize blocks) 32768
        (h1, some ((cf + u16sub blockSize blocks) % 65536))
    else
      if h.length ≤ cf + blocks + 1 then (h, none)
      else
        let hc :=
          if cf = 0 then
            let ha := setNB h 0 1
            setNF ha 0 1
          else h
        let cf1 := if cf = 0 then 1 else cf
        (endAlloc hc cf1 blocks, some cf1)

/-- Byte address of the body (`&UMM_DATA(c)`) of cell `c`. -/
def dataAddr (base c : Nat) : Nat := base + 8 * c + 4

/-- `umm_malloc(size)` returning a byte address (0 = NULL). -/
def umm_malloc (base : Nat) (h : Heap) (size : Nat) : Heap × Nat :=
  let r := umm_malloc_core h size
  (r.1, match r.2 with | none => 0 | some cf => dataAddr base cf)

/-- One step of the byte copy helper below. -/
def copyCellsFrom (src : Heap) : Heap → Nat → Nat → Nat → Heap
  | h, _, _, 0 => h
  | h, s, d, k + 1 => copyCellsFrom src (setCell h d (cell src s)) (s + 1) (d + 1) k

/-- `memmove(&UMM_DATA(d), &UMM_DATA(s), nbytes)` (also used for the
non-overlapping `memcpy`).  `memmove` copies as if through a temporary,
so reading every byte from the pre-state heap is exact.  Every call
site passes `nbytes = 8*k + 4` (`curSize = blockSize*8 - 4`), which at
this model's 2-byte-word granularity is the two body words of the first
cell followed by `k = nbytes / 8` whole cells. -/
def memmoveData (h : Heap) (d s nbytes : Nat) : Heap :=
  let h1 := setNF h d (NFREE h s)
  let h2 := setPF h1 d (PFREE h s)
  copyCellsFrom h h2 (s + 1) (d + 1) (nbytes / 8)

/-- `umm_realloc(ptr, size)`: returns the new heap and the resulting
byte address (0 = NULL).  The comparison
`blocks <= UMM_NBLOCK(c) - UMM_PBLOCK(c)` is `int` arithmetic in C, so
it is transcribed over `Int`. -/
def umm_realloc (base : Nat) (h : Heap) (ptr size : Nat) : Heap × Nat :=
  if ptr = 0 then umm_malloc base h size
  else if size = 0 then (umm_free base h ptr, 0)
  else
    let blocks := umm_blocks size
    let c := ((ptr - base) / 8) % 65536
    let blockSize := u16sub (NBLOCK h c) c
    let curSize := blockSize * 8 - 4
    if blockSize = blocks then (h, ptr)
    else
      let h1 := umm_assimilate_up h c
      if hasFlag (NBLOCK h1 (PBLOCK h1 c))
          ∧ (blocks : Int) ≤ (NBLOCK h1 c : Int) - (PBLOCK h1 c : Int) then
        let ha := umm_disconnect_from_free_list h1 (PBLOCK h1 c)
        let hb := (umm_assimilate_down ha c 0).1
        let c2 := (umm_assimilate_down ha c 0).2
        let h2 := memmoveData hb c2 c curSize
        let ptr2 := dataAddr base c2
        let blockSize2 := u16sub (NBLOCK h2 c2) c2
        if blockSize2 = blocks then (h2, ptr2)
        else if blocks < blockSize2 then
          let h3 := umm_make_new_block h2 c2 blocks 0
          (umm_free base h3 (dataAddr base (c2 + blocks)), ptr2)
        else
          let r := umm_malloc_core h2 size
          match r.2 with
          | some cfNew =>
            let h4 := memmoveData r.1 cfNew c2 curSize
            (umm_free base h4 ptr2, dataAddr base cfNew)
          | none => (r.1, 0)
      else
        let blockSize2 := u16sub (NBLOCK h1 c) c
        if blockSize2 = blocks then (h1, ptr)
        else if blocks < blockSize2 then
          let h3 := umm_make_new_block h1 c blocks 0
          (umm_free base h3 (dataAddr base (c + blocks)), ptr)
        else
          let r := umm_malloc_core h1 size
          match r.2 with
          | some cfNew =>
            let h4 := memmoveData r.1 cfNew c curSize
            (umm_free base h4 ptr, dataAddr base cfNew)
          | none => (r.1, 0)

/-- The side-channel record populated by `umm_info`. -/
structure HeapInfo where
  totalEntries : Nat
  totalBlocks : Nat
  usedEntries : Nat
  usedBlocks : Nat
  freeEntries : Nat
  freeBlocks : Nat
deriving Repr, DecidableEq

def emptyInfo : HeapInfo := ⟨0, 0, 0, 0, 0, 0⟩

/-- The physical walk of `umm_info`.  Returns the accumulated record,
the final `blockNo`, and whether the walk returned early because `ptr`
matched the header address of a free block.  The differences
`(NB & mask) - blockNo` are nonnegative whenever the structural
invariants hold, so `Nat` subtraction is exact there. -/
def infoLoop (base : Nat) (h : Heap) (ptr : Nat) :
    Nat → Nat → HeapInfo → HeapInfo × Nat × Bool
  | 0, b, acc => (acc, b, false)
  | fuel + 1, b, acc =>
    if blockNoOf (NBLOCK h b) ≠ 0 then
      let z := blockNoOf (NBLOCK h b) - b
      let acc1 := { acc with totalEntries := acc.totalEntries + 1,
                             totalBlocks := acc.totalBlocks + z }
      if hasFlag (NBLOCK h b) then
        let acc2 := { acc1 with freeEntries := acc1.freeEntries + 1,
                                freeBlocks := acc1.freeBlocks + z }
        if ptr = base + 8 * b then (acc2, b, true)
        else infoLoop base h ptr fuel (blockNoOf (NBLOCK h b)) acc2
      else
        let acc2 := { acc1 with usedEntries := acc1.usedEntries + 1,
                                usedBlocks := acc1.usedBlocks + z }
        infoLoop base h ptr fuel (blockNoOf (NBLOCK h b)) acc2
    else (acc, b, false)

/-- `umm_info(ptr, force)`: walk the physical chain, count entries and
cells, and return `ptr` (with the counts so far) if it matches the
header address of a free block.  `force` only selects logging in C and
is unused.  Fuel `h.length` suffices under the structural invariants. -/
def umm_info (base : Nat) (h : Heap) (ptr : Nat) (force : Bool) : HeapInfo × Nat :=
  let b0 := blockNoOf (NBLOCK h 0)
  let r := infoLoop base h ptr h.length b0 emptyInfo
  let _ := force
  if r.2.2 then (r.1, ptr)
  else
    ({ r.1 with totalBlocks := r.1.totalBlocks + (h.length - r.2.1),
                freeBlocks := r.1.freeBlocks + (h.length - r.2.1) }, 0)

/-- A zero-filled heap of `n` cells (the startup state). -/
def zeroHeap (n : Nat) : Heap := List.replicate n cellD

/-!
## Abstract heap description

`Abs` describes a lazily-initialized heap: the logical blocks in
physical order (start index, span in cells, free flag) and the flagged
free blocks in free-list order.  The cells from `absT` (one past the
last logical block) to the end of the heap are the untracked trailing
free region; its first cell is the tail of the free list and carries
`NB = 0`, `NF = 0`.
-/

structure Abs where
  n : Nat
  blocks : List (Nat × Nat × Bool)
  fl : List Nat
deriving Repr, DecidableEq

/-- Index of the first cell after the last logical block (the trailing
free-region marker).  Blocks start at cell 1. -/
def absT (a : Abs) : Nat := 1 + (a.blocks.map (fun p => p.2.1)).sum

/-- Start of the last logical block, 0 if there is none (the value
`PB(absT)` must hold). -/
def lastStart (a : Abs) : Nat := ((a.blocks.map (fun p => p.1)).getLast?).getD 0

/-- The physical chain: starting at start `s` with predecessor `p`,
each listed block occupies `[start, start+span)`, its `NB` is the next
start plus the free bit, and its `PB` is the previous start. -/
def physOK (h : Heap) : Nat → Nat → List (Nat × Nat × Bool) → Prop
  | _, _, [] => True
  | p, s, (st, z, f) :: r =>
    st = s ∧ 1 ≤ z ∧
    NBLOCK h st = st + z + (if f then 32768 else 0) ∧
    PBLOCK h st = p ∧
    physOK h st (s + z) r

/-- Start of the last block of `l`, or `p` if `l` is empty. -/
def blocksPrev (p : Nat) (l : List (Nat × Nat × Bool)) : Nat :=
  (l.map (fun q => q.1)).getLastD p

/-- One past the end of the blocks of `l` laid out from `s`. -/
def blocksEnd (s : Nat) (l : List (Nat × Nat × Bool)) : Nat :=
  s + (l.map (fun q => q.2.1)).sum

/-- Doubly-linked free-list constraints along a list of cell indices:
each adjacent pair `(x, y)` satisfies `NF(x) = y` and `PF(y) = x`. -/
def chainOK (h : Heap) : List Nat → Prop
  | x :: y :: r => NFREE h x = y ∧ PFREE h y = x ∧ chainOK h (y :: r)
  | _ => True

instance instDecPhysOK (h : Heap) :
    ∀ (p s : Nat) (l : List (Nat × Nat × Bool)), Decidable (physOK h p s l)
  | _, _, [] => .isTrue trivial
  | p, s, (st, z, f) :: r =>
    have : Decidable (physOK h st (s + z) r) := instDecPhysOK h st (s + z) r
    inferInstanceAs (Decidable (_ ∧ _ ∧ _ ∧ _ ∧ _))

instance instDecChainOK (h : Heap) : ∀ l : List Nat, Decidable (chainOK h l)
  | [] => .isTrue trivial
  | [_] => .isTrue trivial
  | x :: y :: r =>
    have : Decidable (chainOK h (y :: r)) := instDecChainOK h (y :: r)
    inferInstanceAs (Decidable (_ ∧ _ ∧ _))

/-- All link fields fit in 16 bits (they are `unsigned short int`). -/
def boundedCells (h : Heap) : Prop :=
  ∀ i < h.length, (cell h i).nb < 65536 ∧ (cell h i).pb < 65536 ∧
    (cell h i).w0 < 65536 ∧ (cell h i).w1 < 65536

/-- `h` realizes the abstract description `a`.  Payload words of used
blocks, interior cells of every block, and cells strictly beyond
`absT a` are unconstrained. -/
def Rep (h : Heap) (a : Abs) : Prop :=
  h.length = a.n ∧
  boundedCells h ∧
  NBLOCK h 0 = 1 ∧ PBLOCK h 0 = 0 ∧
  physOK h 0 1 a.blocks ∧
  NBLOCK h (absT a) = 0 ∧
  PBLOCK h (absT a) = lastStart a ∧
  NFREE h (absT a) = 0 ∧
  chainOK h (0 :: a.fl ++ [absT a])

instance instDecBounded (h : Heap) : Decidable (boundedCells h) := by
  unfold boundedCells; exact Nat.decidableBallLT _ _

instance instDecRep (h : Heap) (a : Abs) : Decidable (Rep h a) := by
  unfold Rep; infer_instance

/-- No two physically adjacent logical blocks are both free. -/
def noAdjFree : List (Nat × Nat × Bool) → Prop
  | (_, _, f) :: (st, z, g) :: r => ¬(f = true ∧ g = true) ∧ noAdjFree ((st, z, g) :: r)
  | _ => True

instance instDecNoAdjFree : ∀ l : List (Nat × Nat × Bool), Decidable (noAdjFree l)
  | [] => .isTrue trivial
  | [_] => .isTrue trivial
  | (s1, z1, f) :: (st, z, g) :: r =>
    have : Decidable (noAdjFree ((st, z, g) :: r)) := instDecNoAdjFree ((st, z, g) :: r)
    inferInstanceAs (Decidable (_ ∧ _))

/-- Pure well-formedness of an abstract description. -/
def WF (a : Abs) : Prop :=
  3 ≤ a.n ∧ a.n ≤ 32768 ∧ absT a < a.n ∧
  noAdjFree a.blocks ∧
  a.fl.Nodup ∧
  (∀ s ∈ a.fl, ∃ p ∈ a.blocks, p.1 = s ∧ p.2.2 = true) ∧
  (∀ p ∈ a.blocks, p.2.2 = true → p.1 ∈ a.fl)

instance instDecWF (a : Abs) : Decidable (WF a) := by
  unfold WF; infer_instance

/-!
## Specification-side functions

These restate parts of the specification in its own words, to be
compared with the transcribed code.
-/

/-- One step of the spec-side best-fit rule: a candidate with span
`≥ b` replaces the current best only if its span is strictly
smaller. -/
def bfStep (b : Nat) (acc : Option (Nat × Nat)) (p : Nat × Nat) : Option (Nat × Nat) :=
  if b ≤ p.2 then
    match acc with
    | none => some p
    | some q => if p.2 < q.2 then some p else some q
  else acc

/-- Best-fit rule as the spec words it: walk the candidates in
free-list order, keep the one with the smallest span `≥ b`, earlier
entries winning ties. -/
def bestFitChoice (b : Nat) (l : List (Nat × Nat)) : Option (Nat × Nat) :=
  l.foldl (bfStep b) none

/-- The fold the best-fit loop performs on `(bestBlock, bestSize)` over
the scanned `(start, span)` pairs. -/
def scanFold (b : Nat) : List (Nat × Nat) → Nat × Nat → Nat × Nat
  | [], st => st
  | (s, z) :: r, (bb, bsz) =>
    if b ≤ z ∧ z < bsz then scanFold b r (s, z) else scanFold b r (bb, bsz)

/-- The cells of `l` are consecutively linked by `NF` and the last one
has `NF = 0`. -/
def nfSeq (h : Heap) : List Nat → Prop
  | [] => True
  | [x] => NFREE h x = 0
  | x :: y :: r => NFREE h x = y ∧ nfSeq h (y :: r)

/-- Span of the block starting at `s` according to `a` (0 if absent). -/
def spanAt (a : Abs) (s : Nat) : Nat :=
  ((a.blocks.find? (fun p => p.1 = s)).map (fun p => p.2.1)).getD 0

/-- The free-list candidates `(start, span)` in free-list order. -/
def flSpans (a : Abs) : List (Nat × Nat) := a.fl.map (fun s => (s, spanAt a s))

/-- The cells reachable from `x` by following `NF` links, stopping
when the next link is 0 (the sentinel). -/
def nfChain (h : Heap) : Nat → Nat → List Nat
  | 0, _ => []
  | fuel + 1, x => if NFREE h x = 0 then [] else NFREE h x :: nfChain h fuel (NFREE h x)

/-- Walk the physical chain and report `false` as soon as a logical
block and its successor are both flagged free. -/
def adjWalk (h : Heap) : Nat → Nat → Bool
  | 0, _ => true
  | fuel + 1, b =>
    if blockNoOf (NBLOCK h b) = 0 then true
    else if hasFlag (NBLOCK h b) && hasFlag (NBLOCK h (blockNoOf (NBLOCK h b))) then false
    else adjWalk h fuel (blockNoOf (NBLOCK h b))

/-- Decidable check of spec invariant 2 on the concrete heap: no two
physically adjacent logical blocks are both free. -/
def noTwoAdjacentFree (h : Heap) : Bool :=
  adjWalk h h.length (blockNoOf (NBLOCK h 0))

/-- One logical block's contribution to the `umm_info` record. -/
def infoStep (acc : HeapInfo) (q : Nat × Nat × Bool) : HeapInfo :=
  let acc1 := { acc with totalEntries := acc.totalEntries + 1,
                         totalBlocks := acc.totalBlocks + q.2.1 }
  if q.2.2 then
    { acc1 with freeEntries := acc1.freeEntries + 1,
                freeBlocks := acc1.freeBlocks + q.2.1 }
  else
    { acc1 with usedEntries := acc1.usedEntries + 1,
                usedBlocks := acc1.usedBlocks + q.2.1 }

/-- Counts accumulated by the `umm_info` walk over the given blocks. -/
def infoCount (l : List (Nat × Nat × Bool)) : HeapInfo :=
  l.foldl infoStep emptyInfo

/-- The payload of the block `[s, s+z)` is unchanged between `h` and
`h2`: the two body words of the first cell and every byte of the
remaining cells. -/
def payloadEq (h h2 : Heap) (s z : Nat) : Prop :=
  (cell h2 s).w0 = (cell h s).w0 ∧ (cell h2 s).w1 = (cell h s).w1 ∧
  ∀ j < z - 1, cell h2 (s + 1 + j) = cell h (s + 1 + j)

instance instDecPayloadEq (h h2 : Heap) (s z : Nat) : Decidable (payloadEq h h2 s z) := by
  unfold payloadEq; infer_instance

/-!
## Concrete states used as witnesses

All are reached from the zero heap of 8 cells by public operations,
with the heap based at byte address 8.
-/

/-- Heap after `umm_malloc(4)` on the zero 8-cell heap: used block at
cell 1 (span 1), trailing region from cell 2. -/
def heapA : Heap := (umm_malloc_core (zeroHeap 8) 4).1

def absA : Abs := ⟨8, [(1, 1, false)], []⟩

/-- `heapA` after a second `umm_malloc(4)`: used blocks at cells 1 and
2, trailing region from cell 3. -/
def heapB : Heap := (umm_malloc_core heapA 4).1

def absB : Abs := ⟨8, [(1, 1, false), (2, 1, false)], []⟩

/-- `heapB` after `umm_free` of the first pointer (byte address
`8 + 8*1 + 4 = 20`): free block at cell 1, used block at cell 2. -/
def heapC : Heap := umm_free 8 heapB 20

def absC : Abs := ⟨8, [(1, 1, true), (2, 1, false)], [1]⟩

/-!
## Basic lemmas: cell reads over stores
-/

theorem getD_set (l : List Cell) (i j : Nat) (a d : Cell) :
    (l.set i a).getD j d = if i = j ∧ j < l.length then a else l.getD j d := by
  induction l generalizing i j with
  | nil => simp [List.getD]
  | cons x xs ih =>
    cases i with
    | zero =>
      cases j with
      | zero => simp [List.getD]
      | succ j2 => simp [List.getD]
    | succ i2 =>
      cases j with
      | zero => simp [List.getD]
      | succ j2 =>
        simp only [List.set_cons_succ, List.getD_cons_succ, List.length_cons, ih]
        by_cases hij : i2 = j2 ∧ j2 < xs.length
        · rw [if_pos hij, if_pos ⟨by omega, by omega⟩]
        · rw [if_neg hij, if_neg (by omega)]

theorem cell_set (h : Heap) (i j : Nat) (c : Cell) :
    cell (h.set i c) j = if i = j ∧ j < h.length then c else cell h j :=
  getD_set h i j c cellD

theorem length_set_cell (h : Heap) (i : Nat) (c : Cell) :
    (h.set i c).length = h.length := List.length_set h i c

@[simp] theorem length_setNB (h : Heap) (i v : Nat) : (setNB h i v).length = h.length :=
  List.length_set ..

@[simp] theorem length_setPB (h : Heap) (i v : Nat) : (setPB h i v).length = h.length :=
  List.length_set ..

@[simp] theorem length_setNF (h : Heap) (i v : Nat) : (setNF h i v).length = h.length :=
  List.length_set ..

@[simp] theorem length_setPF (h : Heap) (i v : Nat) : (setPF h i v).length = h.length :=
  List.length_set ..

@[simp] theorem length_setCell (h : Heap) (i : Nat) (c : Cell) :
    (setCell h i c).length = h.length := List.length_set ..

theorem NBLOCK_setNB (h : Heap) (i v j : Nat) :
    NBLOCK (setNB h i v) j = if i = j ∧ j < h.length then v % 65536 else NBLOCK h j := by
  unfold NBLOCK setNB; rw [cell_set]; split <;> rfl

theorem PBLOCK_setPB (h : Heap) (i v j : Nat) :
    PBLOCK (setPB h i v) j = if i = j ∧ j < h.length then v % 65536 else PBLOCK h j := by
  unfold PBLOCK setPB; rw [cell_set]; split <;> rfl

theorem NFREE_setNF (h : Heap) (i v j : Nat) :
    NFREE (setNF h i v) j = if i = j ∧ j < h.length then v % 65536 else NFREE h j := by
  unfold NFREE setNF; rw [cell_set]; split <;> rfl

theorem PFREE_setPF (h : Heap) (i v j : Nat) :
    PFREE (setPF h i v) j = if i = j ∧ j < h.length then v % 65536 else PFREE h j := by
  unfold PFREE setPF; rw [cell_set]; split <;> rfl

@[simp] theorem NBLOCK_setPB (h : Heap) (i v j : Nat) :
    NBLOCK (setPB h i v) j = NBLOCK h j := by
  unfold NBLOCK setPB; rw [cell_set]
  split
  · rename_i hc; rw [hc.1]
  · rfl

@[simp] theorem NBLOCK_setNF (h : Heap) (i v j : Nat) :
    NBLOCK (setNF h i v) j = NBLOCK h j := by
  unfold NBLOCK setNF; rw [cell_set]
  split
  · rename_i hc; rw [hc.1]
  · rfl

@[simp] theorem NBLOCK_setPF (h : Heap) (i v j : Nat) :
    NBLOCK (setPF h i v) j = NBLOCK h j := by
  unfold NBLOCK setPF; rw [cell_set]
  split
  · rename_i hc; rw [hc.1]
  · rfl

@[simp] theorem PBLOCK_setNB (h : Heap) (i v j : Nat) :
    PBLOCK (setNB h i v) j = PBLOCK h j := by
  unfold PBLOCK setNB; rw [cell_set]
  split
  · rename_i hc; rw [hc.1]
  · rfl

@[simp] theorem PBLOCK_setNF (h : Heap) (i v j : Nat) :
    PBLOCK (setNF h i v) j = PBLOCK h j := by
  unfold PBLOCK setNF; rw [cell_set]
  split
  · rename_i hc; rw [hc.1]
  · rfl

@[simp] theorem PBLOCK_setPF (h : Heap) (i v j : Nat) :
    PBLOCK (setPF h i v) j = PBLOCK h j := by
  unfold PBLOCK setPF; rw [cell_set]
  split
  · rename_i hc; rw [hc.1]
  · rfl

@[simp] theorem NFREE_setNB (h : Heap) (i v j : Nat) :
    NFREE (setNB h i v) j = NFREE h j := by
  unfold NFREE setNB; rw [cell_set]
  split
  · rename_i hc; rw [hc.1]
  · rfl

@[simp] theorem NFREE_setPB (h : Heap) (i v j : Nat) :
    NFREE (setPB h i v) j = NFREE h j := by
  unfold NFREE setPB; rw [cell_set]
  split
  · rename_i hc; rw [hc.1]
  · rfl

@[simp] theorem NFREE_setPF (h : Heap) (i v j : Nat) :
    NFREE (setPF h i v) j = NFREE h j := by
  unfold NFREE setPF; rw [cell_set]
  split
  · rename_i hc; rw [hc.1]
  · rfl

@[simp] theorem PFREE_setNB (h : Heap) (i v j : Nat) :
    PFREE (setNB h i v) j = PFREE h j := by
  unfold PFREE setNB; rw [cell_set]
  split
  · rename_i hc; rw [hc.1]
  · rfl

@[simp] theorem PFREE_setPB (h : Heap) (i v j : Nat) :
    PFREE (setPB h i v) j = PFREE h j := by
  unfold PFREE setPB; rw [cell_set]
  split
  · rename_i hc; rw [hc.1]
  · rfl

@[simp] theorem PFREE_setNF (h : Heap) (i v j : Nat) :
    PFREE (setNF h i v) j = PFREE h j := by
  unfold PFREE setNF; rw [cell_set]
  split
  · rename_i hc; rw [hc.1]
  · rfl

theorem cell_zeroHeap (n i : Nat) : cell (zeroHeap n) i = cellD := by
  unfold cell zeroHeap
  induction n generalizing i with
  | zero => rfl
  | succ k ih =>
    cases i with
    | zero => rfl
    | succ j =>
      rw [List.replicate_succ, List.getD_cons_succ]
      exact ih j

/-!
## Arithmetic facts about the 16-bit helpers
-/

theorem u16sub_exact {x y : Nat} (hx : x < 65536) (hy : y ≤ x) : u16sub x y = x - y := by
  unfold u16sub; omega

theorem blockNoOf_small {x : Nat} (hx : x < 32768) : blockNoOf x = x := by
  unfold blockNoOf; omega

theorem blockNoOf_flagged {x : Nat} (hx : x < 32768) : blockNoOf (x + 32768) = x := by
  unfold blockNoOf; omega

theorem hasFlag_small {x : Nat} (hx : x < 32768) : hasFlag x = false := by
  unfold hasFlag; rw [decide_eq_false_iff_not]; omega

theorem hasFlag_flagged {x : Nat} (hx : x < 32768) : hasFlag (x + 32768) = true := by
  unfold hasFlag; rw [decide_eq_true_eq]; omega

theorem orFlag_zero (x : Nat) : orFlag x 0 = x := rfl

theorem orFlag_flag {x : Nat} (hx : x < 32768) : orFlag x 32768 = x + 32768 := by
  unfold orFlag; rw [if_neg (by omega)]; omega

/-- Read a block header of the shape produced by `Rep`. -/
theorem nb_split {v s z : Nat} {f : Bool}
    (hv : v = s + z + (if f then 32768 else 0)) (hsz : s + z < 32768) :
    blockNoOf v = s + z ∧ hasFlag v = f := by
  subst hv
  cases f with
  | false =>
    rw [if_neg (by simp), Nat.add_zero]
    exact ⟨blockNoOf_small hsz, hasFlag_small hsz⟩
  | true =>
    rw [if_pos rfl]
    exact ⟨blockNoOf_flagged hsz, hasFlag_flagged hsz⟩

/-!
## Facts derived from the representation
-/

theorem rep_len {h : Heap} {a : Abs} (hr : Rep h a) : h.length = a.n := hr.1

theorem rep_bounded {h : Heap} {a : Abs} (hr : Rep h a) : boundedCells h := hr.2.1

theorem rep_NB0 {h : Heap} {a : Abs} (hr : Rep h a) : NBLOCK h 0 = 1 := hr.2.2.1

theorem rep_PB0 {h : Heap} {a : Abs} (hr : Rep h a) : PBLOCK h 0 = 0 := hr.2.2.2.1

theorem rep_physOK {h : Heap} {a : Abs} (hr : Rep h a) : physOK h 0 1 a.blocks :=
  hr.2.2.2.2.1

theorem rep_NBT {h : Heap} {a : Abs} (hr : Rep h a) : NBLOCK h (absT a) = 0 :=
  hr.2.2.2.2.2.1

theorem rep_PBT {h : Heap} {a : Abs} (hr : Rep h a) : PBLOCK h (absT a) = lastStart a :=
  hr.2.2.2.2.2.2.1

theorem rep_NFT {h : Heap} {a : Abs} (hr : Rep h a) : NFREE h (absT a) = 0 :=
  hr.2.2.2.2.2.2.2.1

theorem rep_chainOK {h : Heap} {a : Abs} (hr : Rep h a) :
    chainOK h (0 :: a.fl ++ [absT a]) := hr.2.2.2.2.2.2.2.2

theorem nfSeq_tail {h : Heap} : ∀ {l : List Nat} {x : Nat}, nfSeq h (x :: l) → nfSeq h l := by
  intro l x hs
  match l with
  | [] => trivial
  | y :: r => exact hs.2

theorem absT_pos (a : Abs) : 1 ≤ absT a := by
  unfold absT; omega

theorem physOK_mem {h : Heap} :
    ∀ {p s : Nat} {l : List (Nat × Nat × Bool)}, physOK h p s l →
      ∀ q ∈ l, s ≤ q.1 ∧ 1 ≤ q.2.1 ∧
        q.1 + q.2.1 ≤ s + (l.map (fun r => r.2.1)).sum ∧
        NBLOCK h q.1 = q.1 + q.2.1 + (if q.2.2 then 32768 else 0) := by
  intro p s l
  induction l generalizing p s with
  | nil => intro _ q hq; cases hq
  | cons hd tl ih =>
    obtain ⟨st, z, f⟩ := hd
    rintro ⟨hst, hz, hnb, hpb, hrest⟩ q hq
    rcases List.mem_cons.mp hq with hq | hq
    · subst hq
      refine ⟨by omega, hz, by simp; omega, hnb⟩
    · obtain ⟨h1, h2, h3, h4⟩ := ih hrest q hq
      refine ⟨by omega, h2, by simp; omega, h4⟩

theorem physOK_find {h : Heap} :
    ∀ {p s : Nat} {l : List (Nat × Nat × Bool)}, physOK h p s l →
      ∀ {st z f}, (st, z, f) ∈ l → l.find? (fun q => q.1 = st) = some (st, z, f) := by
  intro p s l
  induction l generalizing p s with
  | nil => intro _ st z f hm; cases hm
  | cons hd tl ih =>
    obtain ⟨st0, z0, f0⟩ := hd
    rintro ⟨hst, hz, hnb, hpb, hrest⟩ st z f hm
    rcases List.mem_cons.mp hm with hm | hm
    · injection hm with e1 e2
      injection e2 with e2 e3
      subst e1 e2 e3
      exact List.find?_cons_of_pos _ (by simp)
    · have hgt := (physOK_mem hrest (st, z, f) hm).1
      have hne : st0 ≠ st := by omega
      rw [List.find?_cons_of_neg _ (by simp [hne])]
      exact ih hrest hm

theorem spanAt_eq {h : Heap} {a : Abs} (hphys : physOK h 0 1 a.blocks)
    {s z : Nat} {f : Bool} (hm : (s, z, f) ∈ a.blocks) : spanAt a s = z := by
  unfold spanAt
  rw [physOK_find hphys hm]
  rfl

theorem getLastD_append_single (l : List Nat) (t d : Nat) :
    (l ++ [t]).getLastD d = t := by
  induction l generalizing d with
  | nil => rfl
  | cons x r ih => rw [List.cons_append, List.getLastD_cons, ih]

theorem chainOK_nfSeq {h : Heap} :
    ∀ (l : List Nat) (x : Nat), chainOK h (x :: l) →
      NFREE h (l.getLastD x) = 0 → nfSeq h (x :: l) := by
  intro l
  induction l with
  | nil => intro x _ hlast; exact hlast
  | cons y r ih =>
    intro x hch hlast
    obtain ⟨h1, _, h3⟩ := hch
    exact ⟨h1, ih y h3 (by rwa [List.getLastD_cons] at hlast)⟩

/-- The block whose start is `s ∈ a.fl`, together with the facts the
best-fit scan needs about it. -/
theorem rep_fl_facts {h : Heap} {a : Abs} (hr : Rep h a) (hw : WF a) :
    ∀ s ∈ a.fl, ∃ z, (s, z, true) ∈ a.blocks ∧ spanAt a s = z ∧
      1 ≤ s ∧ 1 ≤ z ∧ s + z ≤ absT a ∧
      blockNoOf (NBLOCK h s) = s + z ∧ hasFlag (NBLOCK h s) = true ∧
      u16sub (blockNoOf (NBLOCK h s)) s = z := by
  intro s hs
  have hphys : physOK h 0 1 a.blocks := hr.2.2.2.2.1
  have hTn : absT a < a.n := hw.2.2.1
  have hn32 : a.n ≤ 32768 := hw.2.1
  obtain ⟨pq, hpq, hpq1, hpq2⟩ := hw.2.2.2.2.2.1 s hs
  obtain ⟨s2, z, f⟩ := pq
  simp only at hpq1 hpq2
  subst hpq2
  rw [hpq1] at hpq
  obtain ⟨hge1, hz1, hbound, hnb⟩ := physOK_mem hphys _ hpq
  simp only at hge1 hz1 hbound
  have hnb2 : NBLOCK h s = s + z + 32768 := by simpa using hnb
  have hT : s + z ≤ absT a := by
    have habs : absT a = 1 + (a.blocks.map (fun r => r.2.1)).sum := rfl
    omega
  have hlt : s + z < 32768 := by omega
  have hbn : blockNoOf (NBLOCK h s) = s + z := by rw [hnb2]; exact blockNoOf_flagged hlt
  have hfl : hasFlag (NBLOCK h s) = true := by rw [hnb2]; exact hasFlag_flagged hlt
  refine ⟨z, hpq, spanAt_eq hphys hpq, hge1, hz1, hT, hbn, hfl, ?_⟩
  rw [hbn, u16sub_exact (by omega) (by omega)]
  omega

theorem fl_length_absT {h : Heap} {a : Abs} (hr : Rep h a) (hw : WF a) :
    a.fl.length + 1 ≤ absT a := by
  have hnd : a.fl.Nodup := hw.2.2.2.2.1
  have hsub : a.fl.toFinset ⊆ Finset.Ico 1 (absT a) := by
    intro s hs
    rw [List.mem_toFinset] at hs
    obtain ⟨z, hm, -, hs1, hz1, hT, -⟩ := rep_fl_facts hr hw s hs
    rw [Finset.mem_Ico]
    omega
  have hcard := Finset.card_le_card hsub
  rw [List.toFinset_card_of_nodup hnd, Nat.card_Ico] at hcard
  have := absT_pos a
  omega

theorem fl_length_lt {h : Heap} {a : Abs} (hr : Rep h a) (hw : WF a) :
    a.fl.length < h.length := by
  have := fl_length_absT hr hw
  have hTn : absT a < a.n := hw.2.2.1
  have hlen : h.length = a.n := hr.1
  omega

/-!
## List and layout helpers for the structural surgeries
-/

theorem getLastD_irrel {α : Type} :
    ∀ (l : List α) (d1 d2 : α), l ≠ [] → l.getLastD d1 = l.getLastD d2 := by
  intro l d1 d2 hne
  cases l with
  | nil => exact absurd rfl hne
  | cons x r => rfl

theorem getLastD_mem {α : Type} :
    ∀ (l : List α) (d : α), l = [] ∨ l.getLastD d ∈ l := by
  intro l
  induction l with
  | nil => intro _; exact Or.inl rfl
  | cons x r ih =>
    intro d
    right
    rw [List.getLastD_cons]
    rcases ih x with hr | hr
    · subst hr
      exact List.mem_cons_self x []
    · exact List.mem_cons_of_mem x hr

theorem headD_mem {α : Type} (l : List α) (d : α) (hne : l ≠ []) : l.headD d ∈ l := by
  cases l with
  | nil => exact absurd rfl hne
  | cons x r => exact List.mem_cons_self x r

theorem blocksPrev_nil (p : Nat) : blocksPrev p [] = p := rfl

theorem blocksPrev_cons (p : Nat) (q : Nat × Nat × Bool) (l : List (Nat × Nat × Bool)) :
    blocksPrev p (q :: l) = blocksPrev q.1 l := by
  unfold blocksPrev
  rw [List.map_cons, List.getLastD_cons]

theorem blocksPrev_irrel (l : List (Nat × Nat × Bool)) (p p2 : Nat) (hne : l ≠ []) :
    blocksPrev p l = blocksPrev p2 l := by
  unfold blocksPrev
  refine getLastD_irrel _ p p2 ?_
  simpa using hne

theorem blocksEnd_nil (s : Nat) : blocksEnd s [] = s := by
  unfold blocksEnd; simp

theorem blocksEnd_cons (s : Nat) (q : Nat × Nat × Bool) (l : List (Nat × Nat × Bool)) :
    blocksEnd s (q :: l) = blocksEnd (s + q.2.1) l := by
  unfold blocksEnd
  rw [List.map_cons, List.sum_cons]
  omega

theorem blocksEnd_append :
    ∀ (l1 l2 : List (Nat × Nat × Bool)) (s : Nat),
      blocksEnd s (l1 ++ l2) = blocksEnd (blocksEnd s l1) l2 := by
  intro l1
  induction l1 with
  | nil => intro l2 s; rw [List.nil_append, blocksEnd_nil]
  | cons q r ih =>
    intro l2 s
    rw [List.cons_append, blocksEnd_cons, blocksEnd_cons, ih]

theorem blocksPrev_append :
    ∀ (l1 l2 : List (Nat × Nat × Bool)) (p : Nat),
      blocksPrev p (l1 ++ l2) = blocksPrev (blocksPrev p l1) l2 := by
  intro l1
  induction l1 with
  | nil => intro l2 p; rw [List.nil_append, blocksPrev_nil]
  | cons q r ih =>
    intro l2 p
    rw [List.cons_append, blocksPrev_cons, blocksPrev_cons, ih]

theorem absT_blocksEnd (a : Abs) : absT a = blocksEnd 1 a.blocks := rfl

theorem lastStart_blocksPrev (a : Abs) : lastStart a = blocksPrev 0 a.blocks := by
  unfold lastStart blocksPrev
  rw [List.getLastD_eq_getLast?]

/-!
## Surgery lemmas for the physical chain
-/

theorem physOK_congr2 {h h2 : Heap} :
    ∀ (l : List (Nat × Nat × Bool)) {p p2 s : Nat}, physOK h p s l →
      (∀ q ∈ l, NBLOCK h2 q.1 = NBLOCK h q.1) →
      (∀ q ∈ l.tail, PBLOCK h2 q.1 = PBLOCK h q.1) →
      (∀ q ∈ l.head?, PBLOCK h2 q.1 = p2) →
      physOK h2 p2 s l := by
  intro l
  induction l with
  | nil => intro p p2 s _ _ _ _; trivial
  | cons q r ih =>
    intro p p2 s hp hnb hpbt hpbh
    obtain ⟨st, z, f⟩ := q
    obtain ⟨hst, hz, hnbv, hpbv, hrest⟩ := hp
    refine ⟨hst, hz, ?_, hpbh _ rfl, ?_⟩
    · rw [hnb _ (List.mem_cons_self _ _)]
      exact hnbv
    · refine ih hrest ?_ ?_ ?_
      · intro q2 hq2
        exact hnb q2 (List.mem_cons_of_mem _ hq2)
      · intro q2 hq2
        exact hpbt q2 (List.mem_of_mem_tail hq2)
      · intro q2 hq2
        cases r with
        | nil => exact absurd hq2 (by simp)
        | cons q3 r2 =>
          obtain ⟨st3, z3, f3⟩ := q3
          have he : (st3, z3, f3) = q2 := by injection hq2
          subst he
          obtain ⟨hst3, hz3, hnb3, hpb3, hrest2⟩ := hrest
          show PBLOCK h2 st3 = st
          rw [hpbt _ (List.mem_cons_self _ _)]
          exact hpb3

theorem physOK_append {h : Heap} :
    ∀ (l1 l2 : List (Nat × Nat × Bool)) (p s : Nat),
      physOK h p s (l1 ++ l2) ↔
        physOK h p s l1 ∧ physOK h (blocksPrev p l1) (blocksEnd s l1) l2 := by
  intro l1
  induction l1 with
  | nil =>
    intro l2 p s
    rw [List.nil_append, blocksPrev_nil, blocksEnd_nil]
    exact ⟨fun hp => ⟨trivial, hp⟩, fun hp => hp.2⟩
  | cons q r ih =>
    intro l2 p s
    obtain ⟨st, z, f⟩ := q
    rw [List.cons_append]
    constructor
    · rintro ⟨h1, h2, h3, h4, h5⟩
      obtain ⟨h6, h7⟩ := (ih l2 st (s + z)).mp h5
      refine ⟨⟨h1, h2, h3, h4, h6⟩, ?_⟩
      rw [blocksPrev_cons, blocksEnd_cons]
      exact h7
    · rintro ⟨⟨h1, h2, h3, h4, h5⟩, h6⟩
      refine ⟨h1, h2, h3, h4, (ih l2 st (s + z)).mpr ⟨h5, ?_⟩⟩
      rw [blocksPrev_cons, blocksEnd_cons] at h6
      exact h6

theorem physOK_set_flag {h h2 : Heap} :
    ∀ (L : List (Nat × Nat × Bool)) {p s : Nat} (c zc : Nat) (f f2 : Bool)
      (R : List (Nat × Nat × Bool)),
      physOK h p s (L ++ (c, zc, f) :: R) →
      (∀ j, j ≠ c → NBLOCK h2 j = NBLOCK h j) →
      (∀ j, PBLOCK h2 j = PBLOCK h j) →
      NBLOCK h2 c = c + zc + (if f2 then 32768 else 0) →
      physOK h2 p s (L ++ (c, zc, f2) :: R) := by
  intro L
  induction L with
  | nil =>
    intro p s c zc f f2 R hp hnb hpb hnbc
    rw [List.nil_append] at hp ⊢
    obtain ⟨hst, hz, hnbv, hpbv, hrest⟩ := hp
    refine ⟨hst, hz, hnbc, by rw [hpb]; exact hpbv, ?_⟩
    refine physOK_congr2 R hrest ?_ ?_ ?_
    · intro q hq
      have hge := (physOK_mem hrest q hq).1
      exact hnb q.1 (by omega)
    · intro q hq
      rw [hpb]
    · intro q hq
      cases R with
      | nil => exact absurd hq (by simp)
      | cons q3 r2 =>
        obtain ⟨st3, z3, f3⟩ := q3
        have he : (st3, z3, f3) = q := by injection hq
        subst he
        obtain ⟨-, -, -, hpb3, -⟩ := hrest
        show PBLOCK h2 st3 = c
        rw [hpb]
        exact hpb3
  | cons q r ih =>
    intro p s c zc f f2 R hp hnb hpb hnbc
    obtain ⟨st, z, fq⟩ := q
    rw [List.cons_append] at hp ⊢
    obtain ⟨hst, hz, hnbv, hpbv, hrest⟩ := hp
    have hm : (c, zc, f) ∈ r ++ (c, zc, f) :: R :=
      List.mem_append.mpr (Or.inr (List.mem_cons_self _ _))
    have hge := (physOK_mem hrest _ hm).1
    have hne : st ≠ c := by omega
    refine ⟨hst, hz, ?_, by rw [hpb]; exact hpbv, ih c zc f f2 R hrest hnb hpb hnbc⟩
    rw [hnb st hne]
    exact hnbv

theorem physOK_merge {h h2 : Heap} :
    ∀ (L : List (Nat × Nat × Bool)) {p s : Nat} (c zc : Nat) (f1 : Bool)
      (nst nz : Nat) (f2 : Bool) (R : List (Nat × Nat × Bool)) (f3 : Bool),
      physOK h p s (L ++ (c, zc, f1) :: (nst, nz, f2) :: R) →
      (∀ q ∈ L, NBLOCK h2 q.1 = NBLOCK h q.1) →
      (∀ q ∈ L, PBLOCK h2 q.1 = PBLOCK h q.1) →
      NBLOCK h2 c = c + (zc + nz) + (if f3 then 32768 else 0) →
      PBLOCK h2 c = PBLOCK h c →
      (∀ q ∈ R, NBLOCK h2 q.1 = NBLOCK h q.1) →
      (∀ q ∈ R.tail, PBLOCK h2 q.1 = PBLOCK h q.1) →
      (∀ q ∈ R.head?, PBLOCK h2 q.1 = c) →
      physOK h2 p s (L ++ (c, zc + nz, f3) :: R) := by
  intro L
  induction L with
  | nil =>
    intro p s c zc f1 nst nz f2 R f3 hp hLnb hLpb hnbc hpbc hRnb hRpbt hRpbh
    rw [List.nil_append] at hp ⊢
    obtain ⟨hst, hz, hnbv, hpbv, hst2, hz2, hnb2, hpb2, hrest⟩ := hp
    refine ⟨hst, by omega, hnbc, by rw [hpbc]; exact hpbv, ?_⟩
    have hpos : s + zc + nz = s + (zc + nz) := by omega
    rw [← hpos]
    exact physOK_congr2 R hrest hRnb hRpbt hRpbh
  | cons q r ih =>
    intro p s c zc f1 nst nz f2 R f3 hp hLnb hLpb hnbc hpbc hRnb hRpbt hRpbh
    obtain ⟨st, z, fq⟩ := q
    rw [List.cons_append] at hp ⊢
    obtain ⟨hst, hz, hnbv, hpbv, hrest⟩ := hp
    refine ⟨hst, hz, ?_, ?_, ?_⟩
    · rw [hLnb _ (List.mem_cons_self _ _)]
      exact hnbv
    · rw [hLpb _ (List.mem_cons_self _ _)]
      exact hpbv
    · refine ih c zc f1 nst nz f2 R f3 hrest ?_ ?_ hnbc hpbc hRnb hRpbt hRpbh
      · intro q2 hq2; exact hLnb q2 (List.mem_cons_of_mem _ hq2)
      · intro q2 hq2; exact hLpb q2 (List.mem_cons_of_mem _ hq2)

theorem physOK_disjoint {h : Heap} :
    ∀ {p s : Nat} {l : List (Nat × Nat × Bool)}, physOK h p s l →
      ∀ q1 ∈ l, ∀ q2 ∈ l, q1.1 ≠ q2.1 →
        q1.1 + q1.2.1 ≤ q2.1 ∨ q2.1 + q2.2.1 ≤ q1.1 := by
  intro p s l
  induction l generalizing p s with
  | nil => intro _ q1 hq1; cases hq1
  | cons hd tl ih =>
    obtain ⟨st, z, f⟩ := hd
    rintro ⟨hst, hz, hnb, hpb, hrest⟩ q1 hq1 q2 hq2 hne
    rcases List.mem_cons.mp hq1 with hq1 | hq1 <;>
      rcases List.mem_cons.mp hq2 with hq2 | hq2
    · rw [hq1, hq2] at hne
      exact absurd rfl hne
    · have h2 := (physOK_mem hrest q2 hq2).1
      rw [hq1]
      left
      simp only
      omega
    · have h1 := (physOK_mem hrest q1 hq1).1
      rw [hq2]
      right
      simp only
      omega
    · exact ih hrest q1 hq1 q2 hq2 hne

theorem physOK_start_inj {h : Heap} {p s : Nat} {l : List (Nat × Nat × Bool)}
    (hp : physOK h p s l) {st z1 z2 : Nat} {f1 f2 : Bool}
    (h1 : (st, z1, f1) ∈ l) (h2 : (st, z2, f2) ∈ l) : z1 = z2 ∧ f1 = f2 := by
  have e1 := physOK_find hp h1
  have e2 := physOK_find hp h2
  rw [e1] at e2
  injection e2 with e3
  injection e3 with e4 e5
  injection e5 with e6 e7
  exact ⟨e6, e7⟩

/-- Every block's start keeps clear of the payload of any other block:
it is at or before the other block's start, or past its end. -/
theorem blocks_start_safe {h : Heap} {a : Abs} (hr : Rep h a)
    {s z : Nat} {f : Bool} (hm : (s, z, f) ∈ a.blocks) :
    ∀ st z2 f2, (st, z2, f2) ∈ a.blocks → st ≤ s ∨ s + z ≤ st := by
  intro st z2 f2 hm2
  by_cases he : st = s
  · left; omega
  · have hd := physOK_disjoint (rep_physOK hr) _ hm2 _ hm (by simpa using he)
    rcases hd with hd | hd
    · left
      simp only at hd
      omega
    · right
      simpa using hd

/-- The end of any block is the start of the next block or the trailing
cell, so it also keeps clear of every block's payload. -/
theorem block_end_start_safe {h : Heap} {a : Abs} (hr : Rep h a) (hw : WF a)
    {b zb : Nat} {f : Bool} (hmb : (b, zb, f) ∈ a.blocks)
    {s z : Nat} {f2 : Bool} (hm : (s, z, f2) ∈ a.blocks) :
    b + zb ≤ s ∨ s + z ≤ b + zb := by
  obtain ⟨L2, R2, hd2⟩ := List.append_of_mem hmb
  have hphys := rep_physOK hr
  rw [hd2] at hphys
  have hsp := (physOK_append L2 _ 0 1).mp hphys
  obtain ⟨hbpos, -, -, -, hphysR2⟩ := hsp.2
  have hbe2 : blocksEnd 1 L2 = 1 + (L2.map (fun r => r.2.1)).sum := rfl
  cases R2 with
  | nil =>
    right
    have hb2' := physOK_mem (rep_physOK hr) _ hm
    simp only at hb2'
    have habs : absT a = blocksEnd (blocksEnd 1 L2 + zb) [] := by
      rw [absT_blocksEnd, hd2, blocksEnd_append, blocksEnd_cons]
    rw [blocksEnd_nil] at habs
    have habs2 : absT a = 1 + (a.blocks.map (fun r => r.2.1)).sum := rfl
    omega
  | cons r1 R3 =>
    obtain ⟨r1s, r1z, r1f⟩ := r1
    obtain ⟨hr1st, -, -, -, -⟩ := hphysR2
    have hmem1 : (r1s, r1z, r1f) ∈ a.blocks := by
      rw [hd2]
      exact List.mem_append.mpr (Or.inr (List.mem_cons_of_mem _ (List.mem_cons_self _ _)))
    have := blocks_start_safe hr hm r1s r1z r1f hmem1
    omega

/-!
## Surgery lemmas for the free list
-/

theorem chainOK_congr2 {h h2 : Heap} :
    ∀ (l : List Nat), chainOK h l →
      (∀ x ∈ l, NFREE h2 x = NFREE h x) →
      (∀ x ∈ l.tail, PFREE h2 x = PFREE h x) →
      chainOK h2 l := by
  intro l
  induction l with
  | nil => intro _ _ _; trivial
  | cons x r ih =>
    intro hch hnf hpf
    cases r with
    | nil => trivial
    | cons y r2 =>
      obtain ⟨h1, h2a, h3⟩ := hch
      refine ⟨?_, ?_, ?_⟩
      · rw [hnf x (List.mem_cons_self _ _)]
        exact h1
      · rw [hpf y (List.mem_cons_self _ _)]
        exact h2a
      · refine ih h3 ?_ ?_
        · intro q hq
          exact hnf q (List.mem_cons_of_mem _ hq)
        · intro q hq
          exact hpf q (List.mem_cons_of_mem _ hq)

/-- Neighbour links of the element `u` inside a `chainOK` list. -/
theorem chainOK_at {h : Heap} :
    ∀ (C1 : List Nat) (u : Nat) (C2 : List Nat),
      chainOK h (C1 ++ u :: C2) →
      (C1 ≠ [] → NFREE h (C1.getLastD 0) = u ∧ PFREE h u = C1.getLastD 0) ∧
      (C2 ≠ [] → NFREE h u = C2.headD 0 ∧ PFREE h (C2.headD 0) = u) ∧
      chainOK h (u :: C2) := by
  intro C1
  induction C1 with
  | nil =>
    intro u C2 hch
    rw [List.nil_append] at hch
    refine ⟨fun hne => absurd rfl hne, ?_, hch⟩
    intro hne
    cases C2 with
    | nil => exact absurd rfl hne
    | cons y r => exact ⟨hch.1, hch.2.1⟩
  | cons a C1x ih =>
    intro u C2 hch
    cases C1x with
    | nil =>
      obtain ⟨h1, h2, h3⟩ := hch
      obtain ⟨-, hnext, hchain⟩ := ih u C2 h3
      exact ⟨fun _ => ⟨h1, h2⟩, hnext, hchain⟩
    | cons b C1y =>
      obtain ⟨h1, h2, h3⟩ := hch
      obtain ⟨hprev, hnext, hchain⟩ := ih u C2 h3
      exact ⟨fun _ => hprev (by simp), hnext, hchain⟩

/-- Removing an interior element from a doubly-linked chain, given that
the writes bridged its neighbours and touched no other link. -/
theorem chainOK_remove {h h2 : Heap} :
    ∀ (C1 : List Nat) (u : Nat) (C2 : List Nat),
      C1 ≠ [] → C2 ≠ [] →
      chainOK h (C1 ++ u :: C2) →
      (C1 ++ u :: C2).Nodup →
      NFREE h2 (C1.getLastD 0) = C2.headD 0 →
      PFREE h2 (C2.headD 0) = C1.getLastD 0 →
      (∀ x ∈ C1 ++ C2, x ≠ C1.getLastD 0 → NFREE h2 x = NFREE h x) →
      (∀ x ∈ C1 ++ C2, x ≠ C2.headD 0 → PFREE h2 x = PFREE h x) →
      chainOK h2 (C1 ++ C2) := by
  intro C1
  induction C1 with
  | nil => intro u C2 hne; exact absurd rfl hne
  | cons a C1x ih =>
    intro u C2 _ hC2 hch hnd hNFp hPFn hNF hPF
    cases C1x with
    | nil =>
      cases C2 with
      | nil => exact absurd rfl hC2
      | cons c2 C2x =>
        obtain ⟨hNFa, hPFu, hNFu, hPFc2, hchain⟩ := hch
        refine ⟨hNFp, hPFn, ?_⟩
        refine chainOK_congr2 (c2 :: C2x) hchain ?_ ?_
        · intro x hx
          refine hNF x (List.mem_append.mpr (Or.inr hx)) ?_
          intro he
          subst he
          simp only [List.getLastD] at hnd hx ⊢
          have := List.nodup_cons.mp hnd
          exact this.1 (List.mem_cons_of_mem _ hx)
        · intro x hx
          refine hPF x (List.mem_append.mpr (Or.inr (List.mem_cons_of_mem _ hx))) ?_
          intro he
          subst he
          have hnd2 := (List.nodup_cons.mp ((List.nodup_cons.mp hnd).2)).2
          exact (List.nodup_cons.mp hnd2).1 hx
    | cons b C1y =>
      obtain ⟨hNFa, hPFb, hch2⟩ := hch
      have hnd2 := (List.nodup_cons.mp hnd).2
      have hanotin := (List.nodup_cons.mp hnd).1
      refine ⟨?_, ?_, ?_⟩
      · refine (hNF a (List.mem_append.mpr (Or.inl (List.mem_cons_self _ _))) ?_).trans hNFa
        intro he
        rcases getLastD_mem (b :: C1y) 0 with hcon | hmem
        · cases hcon
        · have hmem3 : a ∈ b :: C1y := by rw [he]; exact hmem
          exact hanotin (List.mem_append.mpr (Or.inl hmem3))
      · refine (hPF b (List.mem_append.mpr
            (Or.inl (List.mem_cons_of_mem a (List.mem_cons_self _ _)))) ?_).trans hPFb
        intro he
        have hdis := List.disjoint_of_nodup_append hnd2
        have hhd : C2.headD 0 ∈ C2 := headD_mem C2 0 hC2
        refine hdis (List.mem_cons_self _ _) ?_
        rw [he]
        exact List.mem_cons_of_mem _ hhd
      · exact ih u C2 (by simp) hC2 hch2 hnd2 hNFp hPFn
          (fun x hx hne => hNF x (List.mem_cons_of_mem _ hx) hne)
          (fun x hx hne => hPF x (List.mem_cons_of_mem _ hx) hne)

/-- Inserting a fresh element `c` right after the root `0` of a chain. -/
theorem chainOK_insert {h h2 : Heap} (c : Nat) :
    ∀ (C2 : List Nat), C2 ≠ [] →
      chainOK h (0 :: C2) →
      (0 :: C2).Nodup → c ∉ 0 :: C2 →
      NFREE h2 0 = c → PFREE h2 c = 0 →
      NFREE h2 c = C2.headD 0 → PFREE h2 (C2.headD 0) = c →
      (∀ x ∈ C2, x ≠ 0 → x ≠ c → NFREE h2 x = NFREE h x) →
      (∀ x ∈ C2.tail, PFREE h2 x = PFREE h x) →
      chainOK h2 (0 :: c :: C2) := by
  intro C2 hC2 hch hnd hcnot hNF0 hPFc hNFc hPFh hNF hPF
  cases C2 with
  | nil => exact absurd rfl hC2
  | cons y r =>
    obtain ⟨hNFy, hPFy, hchain⟩ := hch
    refine ⟨hNF0, hPFc, hNFc, hPFh, ?_⟩
    refine chainOK_congr2 (y :: r) hchain ?_ ?_
    · intro x hx
      refine hNF x hx ?_ ?_
      · intro he
        subst he
        exact (List.nodup_cons.mp hnd).1 hx
      · intro he
        subst he
        exact hcnot (List.mem_cons_of_mem _ hx)
    · intro x hx
      exact hPF x hx

/-- The full free-list chain of a represented heap has no duplicates. -/
theorem chain_nodup {h : Heap} {a : Abs} (hr : Rep h a) (hw : WF a) :
    (0 :: a.fl ++ [absT a]).Nodup := by
  have hfl : a.fl.Nodup := hw.2.2.2.2.1
  have hbound : ∀ s ∈ a.fl, 1 ≤ s ∧ s < absT a := by
    intro s hs
    obtain ⟨z, -, -, hs1, hz1, hT2, -⟩ := rep_fl_facts hr hw s hs
    exact ⟨hs1, by omega⟩
  have hT := absT_pos a
  refine List.nodup_cons.mpr ⟨?_, ?_⟩
  · intro hc
    rcases List.mem_append.mp hc with hc | hc
    · have := (hbound 0 hc).1
      omega
    · have := List.mem_singleton.mp hc
      omega
  · refine List.Nodup.append hfl (by simp) ?_
    intro s hs hsT
    have := (hbound s hs).2
    have he := List.mem_singleton.mp hsT
    omega

/-- Chain cells are inside the heap and at or before the trailing cell. -/
theorem chain_mem_le {h : Heap} {a : Abs} (hr : Rep h a) (hw : WF a) :
    ∀ x ∈ 0 :: a.fl ++ [absT a], x < h.length ∧ x ≤ absT a := by
  intro x hx
  have hlen : h.length = a.n := hr.1
  have hTn : absT a < a.n := hw.2.2.1
  rcases List.mem_cons.mp hx with hx | hx
  · subst hx
    constructor <;> omega
  · rcases List.mem_append.mp hx with hx | hx
    · obtain ⟨z, -, -, hs1, hz1, hT2, -⟩ := rep_fl_facts hr hw x hx
      constructor <;> omega
    · have := List.mem_singleton.mp hx
      subst this
      constructor <;> omega

/-- The root link `NF(0)` is the first element of `fl ++ [absT]`. -/
theorem chain_NF0 {h : Heap} {a : Abs} (hr : Rep h a) :
    NFREE h 0 = (a.fl ++ [absT a]).headD 0 := by
  have hch := rep_chainOK hr
  cases hfl : a.fl with
  | nil =>
    rw [hfl] at hch
    exact hch.1
  | cons y r =>
    rw [hfl] at hch
    exact hch.1

/-- Chain cells stay clear of the payload of every used block. -/
theorem chain_safe {h : Heap} {a : Abs} (hr : Rep h a) (hw : WF a)
    {s z : Nat} (hm : (s, z, false) ∈ a.blocks) :
    ∀ x ∈ 0 :: a.fl ++ [absT a], x < s ∨ s + z ≤ x := by
  intro x hx
  have hphys := rep_physOK hr
  have hsb := physOK_mem hphys _ hm
  simp only at hsb
  rcases List.mem_cons.mp hx with hx | hx
  · subst hx
    left
    omega
  · rcases List.mem_append.mp hx with hx | hx
    · obtain ⟨zx, hmx, -, hx1, hzx1, hxT, -⟩ := rep_fl_facts hr hw x hx
      have hne : x ≠ s := by
        intro he
        subst he
        have := (physOK_start_inj hphys hmx hm).2
        cases this
      have hd := physOK_disjoint hphys _ hmx _ hm (by simpa using hne)
      simp only at hd
      rcases hd with hd | hd
      · left; omega
      · right; omega
    · have := List.mem_singleton.mp hx
      subst this
      right
      have habs : absT a = 1 + (a.blocks.map (fun r => r.2.1)).sum := rfl
      omega

/-!
## Preservation of the cell-field bounds by the stores
-/

theorem cell_setNB (h : Heap) (i v j : Nat) :
    cell (setNB h i v) j =
      if i = j ∧ j < h.length then { cell h i with nb := v % 65536 } else cell h j :=
  cell_set ..

theorem cell_setPB (h : Heap) (i v j : Nat) :
    cell (setPB h i v) j =
      if i = j ∧ j < h.length then { cell h i with pb := v % 65536 } else cell h j :=
  cell_set ..

theorem cell_setNF (h : Heap) (i v j : Nat) :
    cell (setNF h i v) j =
      if i = j ∧ j < h.length then { cell h i with w0 := v % 65536 } else cell h j :=
  cell_set ..

theorem cell_setPF (h : Heap) (i v j : Nat) :
    cell (setPF h i v) j =
      if i = j ∧ j < h.length then { cell h i with w1 := v % 65536 } else cell h j :=
  cell_set ..

theorem boundedCells_setNB {h : Heap} (hb : boundedCells h) (i v : Nat) :
    boundedCells (setNB h i v) := by
  intro j hj
  rw [length_setNB] at hj
  rw [cell_setNB]
  by_cases hc : i = j ∧ j < h.length
  · rw [if_pos hc]
    obtain ⟨hb1, hb2, hb3, hb4⟩ := hb i (by omega)
    exact ⟨Nat.mod_lt v (by omega), hb2, hb3, hb4⟩
  · rw [if_neg hc]
    exact hb j hj

theorem boundedCells_setPB {h : Heap} (hb : boundedCells h) (i v : Nat) :
    boundedCells (setPB h i v) := by
  intro j hj
  rw [length_setPB] at hj
  rw [cell_setPB]
  by_cases hc : i = j ∧ j < h.length
  · rw [if_pos hc]
    obtain ⟨hb1, hb2, hb3, hb4⟩ := hb i (by omega)
    exact ⟨hb1, Nat.mod_lt v (by omega), hb3, hb4⟩
  · rw [if_neg hc]
    exact hb j hj

theorem boundedCells_setNF {h : Heap} (hb : boundedCells h) (i v : Nat) :
    boundedCells (setNF h i v) := by
  intro j hj
  rw [length_setNF] at hj
  rw [cell_setNF]
  by_cases hc : i = j ∧ j < h.length
  · rw [if_pos hc]
    obtain ⟨hb1, hb2, hb3, hb4⟩ := hb i (by omega)
    exact ⟨hb1, hb2, Nat.mod_lt v (by omega), hb4⟩
  · rw [if_neg hc]
    exact hb j hj

theorem boundedCells_setPF {h : Heap} (hb : boundedCells h) (i v : Nat) :
    boundedCells (setPF h i v) := by
  intro j hj
  rw [length_setPF] at hj
  rw [cell_setPF]
  by_cases hc : i = j ∧ j < h.length
  · rw [if_pos hc]
    obtain ⟨hb1, hb2, hb3, hb4⟩ := hb i (by omega)
    exact ⟨hb1, hb2, hb3, Nat.mod_lt v (by omega)⟩
  · rw [if_neg hc]
    exact hb j hj

/-!
## Surgery lemmas for the no-adjacent-free invariant
-/

theorem noAdjFree_at :
    ∀ (L : List (Nat × Nat × Bool)) (mid : Nat × Nat × Bool) (R : List (Nat × Nat × Bool)),
      noAdjFree (L ++ mid :: R) →
      (∀ q ∈ L.getLast?, ¬(q.2.2 = true ∧ mid.2.2 = true)) ∧
      (∀ q ∈ R.head?, ¬(mid.2.2 = true ∧ q.2.2 = true)) := by
  intro L
  induction L with
  | nil =>
    intro mid R hp
    refine ⟨fun q hq => absurd hq (by simp), ?_⟩
    intro q hq
    cases R with
    | nil => exact absurd hq (by simp)
    | cons q3 r =>
      obtain ⟨m1, m2, m3⟩ := mid
      obtain ⟨b1, b2, b3⟩ := q3
      have he : (b1, b2, b3) = q := by injection hq
      subst he
      exact hp.1
  | cons a L2 ih =>
    intro mid R hp
    cases L2 with
    | nil =>
      obtain ⟨a1, a2, a3⟩ := a
      obtain ⟨m1, m2, m3⟩ := mid
      obtain ⟨hpair, hrest⟩ := hp
      refine ⟨?_, (ih (m1, m2, m3) R hrest).2⟩
      intro q hq
      have he : (a1, a2, a3) = q := by injection hq
      subst he
      exact hpair
    | cons b L3 =>
      obtain ⟨a1, a2, a3⟩ := a
      obtain ⟨b1, b2, b3⟩ := b
      obtain ⟨hpair, hrest⟩ := hp
      have hres := ih mid R hrest
      refine ⟨?_, hres.2⟩
      intro q hq
      rw [List.getLast?_cons_cons] at hq
      exact hres.1 q hq

theorem noAdjFree_set :
    ∀ (L : List (Nat × Nat × Bool)) (c z : Nat) (f : Bool) (R : List (Nat × Nat × Bool))
      (z2 : Nat) (f2 : Bool),
      noAdjFree (L ++ (c, z, f) :: R) →
      (f2 = true → (∀ q ∈ L.getLast?, q.2.2 = false) ∧ (∀ q ∈ R.head?, q.2.2 = false)) →
      noAdjFree (L ++ (c, z2, f2) :: R) := by
  intro L
  induction L with
  | nil =>
    intro c z f R z2 f2 hp hcond
    cases R with
    | nil => trivial
    | cons q3 r =>
      obtain ⟨b1, b2, b3⟩ := q3
      obtain ⟨hpair, hrest⟩ := hp
      refine ⟨?_, hrest⟩
      cases f2 with
      | false => simp
      | true =>
        have hb3 := (hcond rfl).2 (b1, b2, b3) rfl
        simp only at hb3
        simp [hb3]
  | cons a L2 ih =>
    intro c z f R z2 f2 hp hcond
    cases L2 with
    | nil =>
      obtain ⟨a1, a2, a3⟩ := a
      obtain ⟨hpair, hrest⟩ := hp
      refine ⟨?_, ?_⟩
      · cases f2 with
        | false => simp
        | true =>
          have ha3 := (hcond rfl).1 (a1, a2, a3) rfl
          simp only at ha3
          simp [ha3]
      · refine ih c z f R z2 f2 hrest ?_
        intro hf2
        exact ⟨fun q hq => absurd hq (by simp), (hcond hf2).2⟩
    | cons b L3 =>
      obtain ⟨a1, a2, a3⟩ := a
      obtain ⟨b1, b2, b3⟩ := b
      obtain ⟨hpair, hrest⟩ := hp
      refine ⟨hpair, ?_⟩
      refine ih c z f R z2 f2 hrest ?_
      intro hf2
      refine ⟨?_, (hcond hf2).2⟩
      intro q hq
      refine (hcond hf2).1 q ?_
      rw [List.getLast?_cons_cons]
      exact hq

theorem noAdjFree_merge :
    ∀ (L : List (Nat × Nat × Bool)) (c zc : Nat) (f : Bool) (nst nz : Nat) (g : Bool)
      (R : List (Nat × Nat × Bool)) (z2 : Nat) (f2 : Bool),
      noAdjFree (L ++ (c, zc, f) :: (nst, nz, g) :: R) →
      (f2 = true → (∀ q ∈ L.getLast?, q.2.2 = false) ∧ (∀ q ∈ R.head?, q.2.2 = false)) →
      noAdjFree (L ++ (c, z2, f2) :: R) := by
  intro L
  induction L with
  | nil =>
    intro c zc f nst nz g R z2 f2 hp hcond
    obtain ⟨hpair, hrest⟩ := hp
    cases R with
    | nil => trivial
    | cons q3 r =>
      obtain ⟨b1, b2, b3⟩ := q3
      obtain ⟨hpair2, hrest2⟩ := hrest
      refine ⟨?_, hrest2⟩
      cases f2 with
      | false => simp
      | true =>
        have hb3 := (hcond rfl).2 (b1, b2, b3) rfl
        simp only at hb3
        simp [hb3]
  | cons a L2 ih =>
    intro c zc f nst nz g R z2 f2 hp hcond
    cases L2 with
    | nil =>
      obtain ⟨a1, a2, a3⟩ := a
      obtain ⟨hpair, hrest⟩ := hp
      refine ⟨?_, ?_⟩
      · cases f2 with
        | false => simp
        | true =>
          have ha3 := (hcond rfl).1 (a1, a2, a3) rfl
          simp only at ha3
          simp [ha3]
      · refine ih c zc f nst nz g R z2 f2 hrest ?_
        intro hf2
        exact ⟨fun q hq => absurd hq (by simp), (hcond hf2).2⟩
    | cons b L3 =>
      obtain ⟨a1, a2, a3⟩ := a
      obtain ⟨b1, b2, b3⟩ := b
      obtain ⟨hpair, hrest⟩ := hp
      refine ⟨hpair, ?_⟩
      refine ih c zc f nst nz g R z2 f2 hrest ?_
      intro hf2
      refine ⟨?_, (hcond hf2).2⟩
      intro q hq
      refine (hcond hf2).1 q ?_
      rw [List.getLast?_cons_cons]
      exact hq

/-!
## Payload frame toolkit

`payloadEq h h2 s z` says the block `[s, s+z)` carries the same payload
bytes in `h2` as in `h`.  The lemmas below track it through the
individual stores: header stores (`NB`/`PB`) touch payload only inside
another block's interior, body stores (`NF`/`PF`) also at a block's
first cell, whole-cell stores likewise.
-/

theorem payloadEq_refl (h : Heap) (s z : Nat) : payloadEq h h s z :=
  ⟨rfl, rfl, fun _ _ => rfl⟩

theorem payloadEq_trans {h h2 h3 : Heap} {s z : Nat}
    (h12 : payloadEq h h2 s z) (h23 : payloadEq h2 h3 s z) : payloadEq h h3 s z := by
  obtain ⟨a1, a2, a3⟩ := h12
  obtain ⟨b1, b2, b3⟩ := h23
  exact ⟨b1.trans a1, b2.trans a2, fun j hj => (b3 j hj).trans (a3 j hj)⟩

theorem payloadEq_setNB {h : Heap} {i v s z : Nat} (hc : i ≤ s ∨ s + z ≤ i) :
    payloadEq h (setNB h i v) s z := by
  refine ⟨?_, ?_, ?_⟩
  · unfold setNB
    rw [cell_set]
    split
    · rename_i hij; rw [hij.1]
    · rfl
  · unfold setNB
    rw [cell_set]
    split
    · rename_i hij; rw [hij.1]
    · rfl
  · intro j hj
    unfold setNB
    rw [cell_set, if_neg (by omega)]

theorem payloadEq_setPB {h : Heap} {i v s z : Nat} (hc : i ≤ s ∨ s + z ≤ i) :
    payloadEq h (setPB h i v) s z := by
  refine ⟨?_, ?_, ?_⟩
  · unfold setPB
    rw [cell_set]
    split
    · rename_i hij; rw [hij.1]
    · rfl
  · unfold setPB
    rw [cell_set]
    split
    · rename_i hij; rw [hij.1]
    · rfl
  · intro j hj
    unfold setPB
    rw [cell_set, if_neg (by omega)]

theorem payloadEq_setNF {h : Heap} {i v s z : Nat} (hz : 1 ≤ z) (hc : i < s ∨ s + z ≤ i) :
    payloadEq h (setNF h i v) s z := by
  refine ⟨?_, ?_, ?_⟩
  · unfold setNF
    rw [cell_set, if_neg (by omega)]
  · unfold setNF
    rw [cell_set, if_neg (by omega)]
  · intro j hj
    unfold setNF
    rw [cell_set, if_neg (by omega)]

theorem payloadEq_setPF {h : Heap} {i v s z : Nat} (hz : 1 ≤ z) (hc : i < s ∨ s + z ≤ i) :
    payloadEq h (setPF h i v) s z := by
  refine ⟨?_, ?_, ?_⟩
  · unfold setPF
    rw [cell_set, if_neg (by omega)]
  · unfold setPF
    rw [cell_set, if_neg (by omega)]
  · intro j hj
    unfold setPF
    rw [cell_set, if_neg (by omega)]

theorem payloadEq_setCell {h : Heap} {i s z : Nat} {c : Cell} (hz : 1 ≤ z) (hc : i < s ∨ s + z ≤ i) :
    payloadEq h (setCell h i c) s z := by
  refine ⟨?_, ?_, ?_⟩
  · unfold setCell
    rw [cell_set, if_neg (by omega)]
  · unfold setCell
    rw [cell_set, if_neg (by omega)]
  · intro j hj
    unfold setCell
    rw [cell_set, if_neg (by omega)]

/-!
## Block-level facts of a represented heap
-/

theorem block_bounds {h : Heap} {a : Abs} (hr : Rep h a) (hw : WF a)
    {s z : Nat} {f : Bool} (hm : (s, z, f) ∈ a.blocks) :
    1 ≤ s ∧ 1 ≤ z ∧ s + z ≤ absT a ∧ s + z < 32768 := by
  have h1 := physOK_mem (rep_physOK hr) _ hm
  simp only at h1
  have habs : absT a = 1 + (a.blocks.map (fun r => r.2.1)).sum := rfl
  have hTn : absT a < a.n := hw.2.2.1
  have hn : a.n ≤ 32768 := hw.2.1
  refine ⟨by omega, h1.2.1, by omega, by omega⟩

theorem used_NB {h : Heap} {a : Abs} (hr : Rep h a) {s z : Nat}
    (hm : (s, z, false) ∈ a.blocks) : NBLOCK h s = s + z := by
  have := (physOK_mem (rep_physOK hr) _ hm).2.2.2
  simpa using this

theorem free_NB {h : Heap} {a : Abs} (hr : Rep h a) {s z : Nat}
    (hm : (s, z, true) ∈ a.blocks) : NBLOCK h s = s + z + 32768 := by
  have := (physOK_mem (rep_physOK hr) _ hm).2.2.2
  simpa using this

/-- A start on the free list is the start of a free block, hence never
the start of a used block. -/
theorem fl_not_used {h : Heap} {a : Abs} (hr : Rep h a) (hw : WF a)
    {s z : Nat} (hm : (s, z, false) ∈ a.blocks) : s ∉ a.fl := by
  intro hs
  obtain ⟨zx, hmx, -⟩ := rep_fl_facts hr hw s hs
  have := (physOK_start_inj (rep_physOK hr) hmx hm).2
  cases this

theorem mem_swap_mid {α : Type} {x mid mid2 : α} {L R : List α}
    (hx : x ∈ L ++ mid :: R) (hne : x ≠ mid) : x ∈ L ++ mid2 :: R := by
  rcases List.mem_append.mp hx with hx | hx
  · exact List.mem_append.mpr (Or.inl hx)
  · rcases List.mem_cons.mp hx with hx | hx
    · exact absurd hx hne
    · exact List.mem_append.mpr (Or.inr (List.mem_cons_of_mem _ hx))

theorem mem_remove_mid {α : Type} {x mid : α} {L R : List α}
    (hx : x ∈ L ++ mid :: R) (hne : x ≠ mid) : x ∈ L ++ R := by
  rcases List.mem_append.mp hx with hx | hx
  · exact List.mem_append.mpr (Or.inl hx)
  · rcases List.mem_cons.mp hx with hx | hx
    · exact absurd hx hne
    · exact List.mem_append.mpr (Or.inr hx)

theorem mem_drop_two {α : Type} {x mid nx mid2 : α} {L R : List α}
    (hx : x ∈ L ++ mid :: nx :: R) (hne1 : x ≠ mid) (hne2 : x ≠ nx) :
    x ∈ L ++ mid2 :: R := by
  rcases List.mem_append.mp hx with hx | hx
  · exact List.mem_append.mpr (Or.inl hx)
  · rcases List.mem_cons.mp hx with hx | hx
    · exact absurd hx hne1
    · rcases List.mem_cons.mp hx with hx | hx
      · exact absurd hx hne2
      · exact List.mem_append.mpr (Or.inr (List.mem_cons_of_mem _ hx))

/-!
## Reads over `umm_disconnect_from_free_list`
-/

theorem disconnect_eq (h : Heap) (u : Nat) :
    umm_disconnect_from_free_list h u =
      setNB (setPF (setNF h (PFREE h u) (NFREE h u))
          (NFREE (setNF h (PFREE h u) (NFREE h u)) u)
          (PFREE (setNF h (PFREE h u) (NFREE h u)) u)) u
        (blockNoOf (NBLOCK (setPF (setNF h (PFREE h u) (NFREE h u))
          (NFREE (setNF h (PFREE h u) (NFREE h u)) u)
          (PFREE (setNF h (PFREE h u) (NFREE h u)) u)) u)) := rfl

theorem disconnect_reads (h : Heap) (u : Nat) (hpu : PFREE h u ≠ u) :
    (∀ j, PBLOCK (umm_disconnect_from_free_list h u) j = PBLOCK h j) ∧
    (∀ j, j ≠ u → NBLOCK (umm_disconnect_from_free_list h u) j = NBLOCK h j) ∧
    (u < h.length → NBLOCK (umm_disconnect_from_free_list h u) u = blockNoOf (NBLOCK h u)) ∧
    (∀ j, j ≠ PFREE h u → NFREE (umm_disconnect_from_free_list h u) j = NFREE h j) ∧
    (PFREE h u < h.length →
      NFREE (umm_disconnect_from_free_list h u) (PFREE h u) = NFREE h u % 65536) ∧
    (∀ j, j ≠ NFREE h u → PFREE (umm_disconnect_from_free_list h u) j = PFREE h j) ∧
    (NFREE h u < h.length →
      PFREE (umm_disconnect_from_free_list h u) (NFREE h u) = PFREE h u % 65536) := by
  have hNF1 : NFREE (setNF h (PFREE h u) (NFREE h u)) u = NFREE h u := by
    rw [NFREE_setNF, if_neg (fun hc => hpu hc.1)]
  have hPF1 : PFREE (setNF h (PFREE h u) (NFREE h u)) u = PFREE h u := by
    rw [PFREE_setNF]
  rw [disconnect_eq]
  refine ⟨?_, ?_, ?_, ?_, ?_, ?_, ?_⟩
  · intro j
    simp [PBLOCK_setNB, PBLOCK_setPF, PBLOCK_setNF]
  · intro j hne
    rw [NBLOCK_setNB, if_neg (fun hc => hne hc.1.symm)]
    simp [NBLOCK_setPF, NBLOCK_setNF]
  · intro hu
    rw [NBLOCK_setNB, if_pos ⟨rfl, by simpa using hu⟩]
    have hv : NBLOCK (setPF (setNF h (PFREE h u) (NFREE h u))
        (NFREE (setNF h (PFREE h u) (NFREE h u)) u)
        (PFREE (setNF h (PFREE h u) (NFREE h u)) u)) u = NBLOCK h u := by
      simp [NBLOCK_setPF, NBLOCK_setNF]
    rw [hv]
    have : blockNoOf (NBLOCK h u) < 65536 := by
      unfold blockNoOf; omega
    omega
  · intro j hne
    simp only [NFREE_setNB, NFREE_setPF]
    rw [NFREE_setNF, if_neg (fun hc => hne hc.1.symm)]
  · intro hl
    simp only [NFREE_setNB, NFREE_setPF]
    rw [NFREE_setNF, if_pos ⟨rfl, by simpa using hl⟩]
  · intro j hne
    simp only [PFREE_setNB]
    rw [PFREE_setPF, if_neg (fun hc => hne (by rw [← hNF1]; exact hc.1.symm))]
    simp [PFREE_setNF]
  · intro hl
    simp only [PFREE_setNB]
    rw [PFREE_setPF, if_pos ⟨hNF1, by simpa using hl⟩]
    rw [hPF1]

/-- Unlinking a free-list cell leaves every used block's payload alone
(the writes hit chain cells and the unlinked cell's header only). -/
theorem disconnect_payload {h : Heap} {a : Abs} (hr : Rep h a) (hw : WF a)
    {u : Nat} (hu : u ∈ a.fl) :
    ∀ s z, (s, z, false) ∈ a.blocks → payloadEq h (umm_disconnect_from_free_list h u) s z := by
  intro s z hm
  have hz1 : 1 ≤ z := (physOK_mem (rep_physOK hr) _ hm).2.1
  have hsafe := chain_safe hr hw hm
  have huc : u ∈ 0 :: a.fl ++ [absT a] :=
    List.mem_cons_of_mem _ (List.mem_append.mpr (Or.inl hu))
  obtain ⟨F1, F2, hfl⟩ := List.append_of_mem hu
  have hch := rep_chainOK hr
  have hnd := chain_nodup hr hw
  have hsh : 0 :: a.fl ++ [absT a] = (0 :: F1) ++ u :: (F2 ++ [absT a]) := by
    rw [hfl]; simp
  rw [hsh] at hch hnd
  obtain ⟨hprev, hnext, -⟩ := chainOK_at (0 :: F1) u (F2 ++ [absT a]) hch
  obtain ⟨hNFp, hPFu⟩ := hprev (by simp)
  obtain ⟨hNFu, hPFn⟩ := hnext (by simp)
  have hdis := List.disjoint_of_nodup_append hnd
  have hunotC1 : u ∉ 0 :: F1 := fun hu2 => hdis hu2 (List.mem_cons_self _ _)
  have hpv_mem : PFREE h u ∈ 0 :: a.fl ++ [absT a] := by
    rw [hPFu, hsh]
    rcases getLastD_mem (0 :: F1) 0 with hcon | hmem
    · cases hcon
    · exact List.mem_append.mpr (Or.inl hmem)
  have hnx_mem : NFREE h u ∈ 0 :: a.fl ++ [absT a] := by
    rw [hNFu, hsh]
    have hmem := headD_mem (F2 ++ [absT a]) 0 (by simp)
    exact List.mem_append.mpr (Or.inr (List.mem_cons_of_mem _ hmem))
  have hpu : PFREE h u ≠ u := by
    rw [hPFu]
    intro he
    rcases getLastD_mem (0 :: F1) 0 with hcon | hmem
    · cases hcon
    · rw [he] at hmem
      exact hunotC1 hmem
  have hs1 := hsafe _ hpv_mem
  have hs2 := hsafe _ hnx_mem
  have hsu := hsafe _ huc
  rw [disconnect_eq]
  have hNF1 : NFREE (setNF h (PFREE h u) (NFREE h u)) u = NFREE h u := by
    rw [NFREE_setNF, if_neg (fun hc => hpu hc.1)]
  have hp1 : payloadEq h (setNF h (PFREE h u) (NFREE h u)) s z :=
    payloadEq_setNF hz1 hs1
  have hp2 : payloadEq (setNF h (PFREE h u) (NFREE h u))
      (setPF (setNF h (PFREE h u) (NFREE h u))
        (NFREE (setNF h (PFREE h u) (NFREE h u)) u)
        (PFREE (setNF h (PFREE h u) (NFREE h u)) u)) s z := by
    refine payloadEq_setPF hz1 ?_
    rw [hNF1]
    exact hs2
  have hp3 : payloadEq (setPF (setNF h (PFREE h u) (NFREE h u))
      (NFREE (setNF h (PFREE h u) (NFREE h u)) u)
      (PFREE (setNF h (PFREE h u) (NFREE h u)) u))
      (setNB (setPF (setNF h (PFREE h u) (NFREE h u))
          (NFREE (setNF h (PFREE h u) (NFREE h u)) u)
          (PFREE (setNF h (PFREE h u) (NFREE h u)) u)) u
        (blockNoOf (NBLOCK (setPF (setNF h (PFREE h u) (NFREE h u))
          (NFREE (setNF h (PFREE h u) (NFREE h u)) u)
          (PFREE (setNF h (PFREE h u) (NFREE h u)) u)) u))) s z := by
    refine payloadEq_setNB ?_
    omega
  exact payloadEq_trans (payloadEq_trans hp1 hp2) hp3

/-!
## `umm_assimilate_up` on a used block of a represented heap
-/

/-- Upward assimilation at a used block: if the next physical block is
free it is unlinked and absorbed, otherwise nothing happens.  The
result is again a represented heap whose description merely widens the
block at `c`; no used block's payload is touched. -/
theorem assimilate_up_rep {h : Heap} {a : Abs} (hr : Rep h a) (hw : WF a)
    {c zc : Nat} {L R : List (Nat × Nat × Bool)}
    (hdec : a.blocks = L ++ (c, zc, false) :: R) :
    ∃ zc1 R1 fl1,
      zc ≤ zc1 ∧
      Rep (umm_assimilate_up h c) ⟨a.n, L ++ (c, zc1, false) :: R1, fl1⟩ ∧
      WF ⟨a.n, L ++ (c, zc1, false) :: R1, fl1⟩ ∧
      absT (⟨a.n, L ++ (c, zc1, false) :: R1, fl1⟩ : Abs) = absT a ∧
      (∀ q ∈ R1.head?, q.2.2 = false) ∧
      (∀ s z, (s, z, false) ∈ a.blocks → s ≠ c →
        (s, z, false) ∈ L ++ (c, zc1, false) :: R1) ∧
      (∀ s z, (s, z, false) ∈ a.blocks → payloadEq h (umm_assimilate_up h c) s z) := by
  have hlen := rep_len hr
  have hTn : absT a < a.n := hw.2.2.1
  have hn32 : a.n ≤ 32768 := hw.2.1
  have hmemc : (c, zc, false) ∈ a.blocks := by
    rw [hdec]
    exact List.mem_append.mpr (Or.inr (List.mem_cons_self _ _))
  have hbc := block_bounds hr hw hmemc
  have hNBc : NBLOCK h c = c + zc := used_NB hr hmemc
  have hphysFull := rep_physOK hr
  rw [hdec] at hphysFull
  have hsplit := (physOK_append L _ 0 1).mp hphysFull
  have hphysL := hsplit.1
  have hbe : blocksEnd 1 L = 1 + (L.map (fun r => r.2.1)).sum := rfl
  cases R with
  | nil =>
    obtain ⟨hcpos, -, -, -, -⟩ := hsplit.2
    have habsc : absT a = c + zc := by
      rw [absT_blocksEnd, hdec, blocksEnd_append, blocksEnd_cons, blocksEnd_nil]
      show blocksEnd 1 L + zc = c + zc
      omega
    have hNBT : NBLOCK h (c + zc) = 0 := by
      rw [← habsc]
      exact rep_NBT hr
    have hflag : hasFlag (NBLOCK h (NBLOCK h c)) = false := by
      rw [hNBc, hNBT]
      exact hasFlag_small (by omega)
    have hid : umm_assimilate_up h c = h := by
      unfold umm_assimilate_up
      rw [if_neg (by simp [hflag])]
    have hae : (⟨a.n, L ++ (c, zc, false) :: [], a.fl⟩ : Abs) = a := by
      rw [← hdec]
    refine ⟨zc, [], a.fl, le_refl zc, ?_, ?_, ?_, ?_, ?_, ?_⟩
    · rw [hid, hae]
      exact hr
    · rw [hae]
      exact hw
    · rw [hae]
    · intro q hq
      exact absurd hq (by simp)
    · intro s z hm hne
      rw [← hdec]
      exact hm
    · intro s z hm
      rw [hid]
      exact payloadEq_refl h s z
  | cons q0 R2 =>
    obtain ⟨nst, nz, nf⟩ := q0
    obtain ⟨-, hmid⟩ := hsplit
    obtain ⟨hnstpos, hnz1, hnbnv, hpbnv, hphysR2⟩ := hmid.2.2.2.2
    have hcpos := hmid.1
    have hnstv : nst = c + zc := by omega
    cases nf with
    | false =>
      have hmemn : (nst, nz, false) ∈ a.blocks := by
        rw [hdec]
        exact List.mem_append.mpr (Or.inr (List.mem_cons_of_mem _ (List.mem_cons_self _ _)))
      have hbn := block_bounds hr hw hmemn
      have hNBn : NBLOCK h nst = nst + nz := used_NB hr hmemn
      have hflag : hasFlag (NBLOCK h (NBLOCK h c)) = false := by
        rw [hNBc, ← hnstv, hNBn]
        exact hasFlag_small (by omega)
      have hid : umm_assimilate_up h c = h := by
        unfold umm_assimilate_up
        rw [if_neg (by simp [hflag])]
      have hae : (⟨a.n, L ++ (c, zc, false) :: (nst, nz, false) :: R2, a.fl⟩ : Abs) = a := by
        rw [← hdec]
      refine ⟨zc, (nst, nz, false) :: R2, a.fl, le_refl zc, ?_, ?_, ?_, ?_, ?_, ?_⟩
      · rw [hid, hae]
        exact hr
      · rw [hae]
        exact hw
      · rw [hae]
      · intro q hq
        have he : (nst, nz, false) = q := by injection hq
        rw [← he]
      · intro s z hm hne
        rw [← hdec]
        exact hm
      · intro s z hm
        rw [hid]
        exact payloadEq_refl h s z
    | true =>
      -- the next physical block is free: it is unlinked and absorbed
      have hmemn : (nst, nz, true) ∈ a.blocks := by
        rw [hdec]
        exact List.mem_append.mpr (Or.inr (List.mem_cons_of_mem _ (List.mem_cons_self _ _)))
      have hbn := block_bounds hr hw hmemn
      have hNBn : NBLOCK h nst = nst + nz + 32768 := free_NB hr hmemn
      have hflag : hasFlag (NBLOCK h (NBLOCK h c)) = true := by
        rw [hNBc, ← hnstv, hNBn]
        exact hasFlag_flagged (by omega)
      have hnfl : nst ∈ a.fl := hw.2.2.2.2.2.2 _ hmemn rfl
      obtain ⟨F1, F2, hfl⟩ := List.append_of_mem hnfl
      have hch := rep_chainOK hr
      have hnd := chain_nodup hr hw
      have hsh : 0 :: a.fl ++ [absT a] = (0 :: F1) ++ nst :: (F2 ++ [absT a]) := by
        rw [hfl]; simp
      rw [hsh] at hch hnd
      obtain ⟨hprev, hnext, -⟩ := chainOK_at (0 :: F1) nst (F2 ++ [absT a]) hch
      obtain ⟨hNFpv, hPFnst⟩ := hprev (by simp)
      obtain ⟨hNFnst, hPFnx⟩ := hnext (by simp)
      have hdisj := List.disjoint_of_nodup_append hnd
      have hnstnotC1 : nst ∉ 0 :: F1 := fun hx => hdisj hx (List.mem_cons_self _ _)
      have hpv_mem_chain : PFREE h nst ∈ 0 :: a.fl ++ [absT a] := by
        rw [hPFnst, hsh]
        rcases getLastD_mem (0 :: F1) 0 with hcon | hmem
        · cases hcon
        · exact List.mem_append.mpr (Or.inl hmem)
      have hnx_mem_chain : NFREE h nst ∈ 0 :: a.fl ++ [absT a] := by
        rw [hNFnst, hsh]
        exact List.mem_append.mpr
          (Or.inr (List.mem_cons_of_mem _ (headD_mem _ 0 (by simp))))
      have hpu : PFREE h nst ≠ nst := by
        rw [hPFnst]
        intro he
        rcases getLastD_mem (0 :: F1) 0 with hcon | hmem
        · cases hcon
        · rw [he] at hmem
          exact hnstnotC1 hmem
      have hpv_lt : PFREE h nst < h.length := (chain_mem_le hr hw _ hpv_mem_chain).1
      have hnx_lt : NFREE h nst < h.length := (chain_mem_le hr hw _ hnx_mem_chain).1
      have hdr := disconnect_reads h nst hpu
      have hlend : (umm_disconnect_from_free_list h nst).length = h.length := by
        rw [disconnect_eq]; simp
      have hclen : c < h.length := by omega
      have hnstlen : nst < h.length := by omega
      have e2 : NBLOCK (umm_disconnect_from_free_list h nst) c = nst := by
        rw [hdr.2.1 c (by omega), hNBc]
        omega
      have e3 : NBLOCK (umm_disconnect_from_free_list h nst) nst = nst + nz := by
        rw [hdr.2.2.1 hnstlen, hNBn]
        exact blockNoOf_flagged (by omega)
      have e4 : blockNoOf (nst + nz) = nst + nz := blockNoOf_small (by omega)
      have hstep : umm_assimilate_up h c =
          setNB (setPB (umm_disconnect_from_free_list h nst) (nst + nz) c) c (nst + nz) := by
        unfold umm_assimilate_up
        rw [if_pos hflag]
        dsimp only
        rw [hNBc, ← hnstv, e2, e3, e4]
        simp only [NBLOCK_setPB]
        rw [e2, e3, e4]
      set hM := setNB (setPB (umm_disconnect_from_free_list h nst) (nst + nz) c) c
        (nst + nz) with hMdef
      have hlenM : hM.length = h.length := by
        rw [hMdef]
        simp [hlend]
      have rNB : ∀ j, j ≠ c → j ≠ nst → NBLOCK hM j = NBLOCK h j := by
        intro j h1 h2
        rw [hMdef, NBLOCK_setNB, if_neg (fun hcc => h1 hcc.1.symm), NBLOCK_setPB]
        exact hdr.2.1 j h2
      have rNBc : NBLOCK hM c = nst + nz := by
        rw [hMdef, NBLOCK_setNB,
          if_pos ⟨rfl, by rw [length_setPB, hlend]; exact hclen⟩]
        exact Nat.mod_eq_of_lt (by omega)
      have rPB : ∀ j, j ≠ nst + nz → PBLOCK hM j = PBLOCK h j := by
        intro j h1
        rw [hMdef]
        simp only [PBLOCK_setNB]
        rw [PBLOCK_setPB, if_neg (fun hcc => h1 hcc.1.symm)]
        exact hdr.1 j
      have rPBn : nst + nz < h.length → PBLOCK hM (nst + nz) = c := by
        intro hl
        rw [hMdef]
        simp only [PBLOCK_setNB]
        rw [PBLOCK_setPB, if_pos ⟨rfl, by rw [hlend]; exact hl⟩]
        exact Nat.mod_eq_of_lt (by omega)
      have rNF : ∀ j, j ≠ PFREE h nst → NFREE hM j = NFREE h j := by
        intro j h1
        rw [hMdef]
        simp only [NFREE_setNB, NFREE_setPB]
        exact hdr.2.2.2.1 j h1
      have rNFp : NFREE hM (PFREE h nst) = NFREE h nst := by
        rw [hMdef]
        simp only [NFREE_setNB, NFREE_setPB]
        rw [hdr.2.2.2.2.1 hpv_lt]
        have hbdd := rep_bounded hr nst (by omega)
        exact Nat.mod_eq_of_lt hbdd.2.2.1
      have rPF : ∀ j, j ≠ NFREE h nst → PFREE hM j = PFREE h j := by
        intro j h1
        rw [hMdef]
        simp only [PFREE_setNB, PFREE_setPB]
        exact hdr.2.2.2.2.2.1 j h1
      have rPFn : PFREE hM (NFREE h nst) = PFREE h nst := by
        rw [hMdef]
        simp only [PFREE_setNB, PFREE_setPB]
        rw [hdr.2.2.2.2.2.2 hnx_lt]
        have hbdd := rep_bounded hr nst (by omega)
        exact Nat.mod_eq_of_lt hbdd.2.2.2
      have hL1 : blocksEnd 1 (L ++ (c, zc + nz, false) :: R2) =
          blocksEnd (blocksEnd 1 L + (zc + nz)) R2 := by
        rw [blocksEnd_append, blocksEnd_cons]
      have hL2 : absT a = blocksEnd (blocksEnd 1 L + zc + nz) R2 := by
        rw [absT_blocksEnd, hdec, blocksEnd_append, blocksEnd_cons, blocksEnd_cons]
      have habsT : blocksEnd 1 (L ++ (c, zc + nz, false) :: R2) = absT a := by
        rw [hL1, hL2]
        exact congrArg (fun t => blocksEnd t R2) (by omega)
      have habsT2 : absT (⟨a.n, L ++ (c, zc + nz, false) :: R2, F1 ++ F2⟩ : Abs) =
          absT a := habsT
      have hRsum : blocksEnd (blocksEnd 1 L + zc + nz) R2 =
          blocksEnd 1 L + zc + nz + (R2.map (fun r => r.2.1)).sum := rfl
      have hfnd : a.fl.Nodup := hw.2.2.2.2.1
      rw [hfl] at hfnd
      have hdis2 := List.disjoint_of_nodup_append hfnd
      have hnstnot : nst ∉ F1 ++ F2 := by
        intro hx
        rcases List.mem_append.mp hx with hx | hx
        · exact hdis2 hx (List.mem_cons_self _ _)
        · exact (List.nodup_cons.mp (List.Nodup.of_append_right hfnd)).1 hx
      refine ⟨zc + nz, R2, F1 ++ F2, by omega, ?_, ?_, habsT2, ?_, ?_, ?_⟩
      · -- the assimilated heap is represented by the widened description
        rw [hstep]
        refine ⟨?_, ?_, ?_, ?_, ?_, ?_, ?_, ?_, ?_⟩
        · rw [hlenM, hlen]
        · have hbd : boundedCells (umm_disconnect_from_free_list h nst) := by
            rw [disconnect_eq]
            exact boundedCells_setNB
              (boundedCells_setPF (boundedCells_setNF (rep_bounded hr) _ _) _ _) _ _
          rw [hMdef]
          exact boundedCells_setNB (boundedCells_setPB hbd _ _) _ _
        · rw [rNB 0 (by omega) (by omega)]
          exact rep_NB0 hr
        · rw [rPB 0 (by omega)]
          exact rep_PB0 hr
        · refine physOK_merge L c zc false nst nz true R2 false hphysFull
            ?_ ?_ ?_ ?_ ?_ ?_ ?_
          · intro q hq
            obtain ⟨hq1, hq2, hq3, -⟩ := physOK_mem hphysL q hq
            exact rNB q.1 (by omega) (by omega)
          · intro q hq
            obtain ⟨hq1, hq2, hq3, -⟩ := physOK_mem hphysL q hq
            exact rPB q.1 (by omega)
          · rw [rNBc, if_neg (by simp)]
            omega
          · exact rPB c (by omega)
          · intro q hq
            obtain ⟨hq1, hq2, hq3, -⟩ := physOK_mem hphysR2 q hq
            exact rNB q.1 (by omega) (by omega)
          · intro q hq
            cases R2 with
            | nil => exact absurd hq (List.not_mem_nil q)
            | cons r1 R3 =>
              obtain ⟨r1s, r1z, r1f⟩ := r1
              obtain ⟨hr1st, hr1z, -, -, hphysR3⟩ := hphysR2
              obtain ⟨hq1, hq2, hq3, -⟩ := physOK_mem hphysR3 q hq
              exact rPB q.1 (by omega)
          · intro q hq
            cases R2 with
            | nil => exact absurd hq (by simp)
            | cons r1 R3 =>
              obtain ⟨r1s, r1z, r1f⟩ := r1
              have he : (r1s, r1z, r1f) = q := by injection hq
              obtain ⟨hr1st, hr1z, -, -, hphysR3⟩ := hphysR2
              have hmem1 : (r1s, r1z, r1f) ∈ a.blocks := by
                rw [hdec]
                exact List.mem_append.mpr (Or.inr
                  (List.mem_cons_of_mem _ (List.mem_cons_of_mem _ (List.mem_cons_self _ _))))
              have hb1 := block_bounds hr hw hmem1
              rw [← he]
              show PBLOCK hM r1s = c
              have hre : r1s = nst + nz := by omega
              rw [hre]
              exact rPBn (by omega)
        · rw [habsT2, rNB _ (by omega) (by omega)]
          exact rep_NBT hr
        · rw [habsT2]
          cases R2 with
          | nil =>
            have h5 := hL2
            rw [blocksEnd_nil] at h5
            have habsn : absT a = nst + nz := by omega
            rw [habsn, rPBn (by omega), lastStart_blocksPrev]
            show c = blocksPrev 0 (L ++ (c, zc + nz, false) :: [])
            rw [blocksPrev_append, blocksPrev_cons, blocksPrev_nil]
          | cons r1 R3 =>
            obtain ⟨r1s, r1z, r1f⟩ := r1
            obtain ⟨hr1st, hr1z, -, -, hphysR3⟩ := hphysR2
            have hmem1 : (r1s, r1z, r1f) ∈ a.blocks := by
              rw [hdec]
              exact List.mem_append.mpr (Or.inr
                (List.mem_cons_of_mem _ (List.mem_cons_of_mem _ (List.mem_cons_self _ _))))
            have hb1 := block_bounds hr hw hmem1
            rw [rPB _ (by omega), rep_PBT hr]
            have g1 : lastStart a = blocksPrev nst ((r1s, r1z, r1f) :: R3) := by
              rw [lastStart_blocksPrev, hdec, blocksPrev_append, blocksPrev_cons,
                blocksPrev_cons]
            have g2 : lastStart (⟨a.n, L ++ (c, zc + nz, false) :: (r1s, r1z, r1f) :: R3,
                F1 ++ F2⟩ : Abs) = blocksPrev c ((r1s, r1z, r1f) :: R3) := by
              rw [lastStart_blocksPrev]
              show blocksPrev 0 (L ++ (c, zc + nz, false) :: (r1s, r1z, r1f) :: R3) =
                blocksPrev c ((r1s, r1z, r1f) :: R3)
              rw [blocksPrev_append, blocksPrev_cons]
            rw [g1, g2]
            exact blocksPrev_irrel _ _ _ (by simp)
        · have hpvT : PFREE h nst ≠ absT a := by
            rw [hPFnst]
            intro he
            rcases getLastD_mem (0 :: F1) 0 with hcon | hmem
            · cases hcon
            · refine hdisj hmem ?_
              rw [he]
              exact List.mem_cons_of_mem _
                (List.mem_append.mpr (Or.inr (List.mem_singleton.mpr rfl)))
          rw [habsT2, rNF _ (fun he => hpvT he.symm)]
          exact rep_NFT hr
        · rw [habsT2]
          have hsh2 : 0 :: (F1 ++ F2) ++ [absT a] = (0 :: F1) ++ (F2 ++ [absT a]) := by
            simp
          rw [hsh2]
          refine chainOK_remove (0 :: F1) nst (F2 ++ [absT a]) (by simp) (by simp)
            hch hnd ?_ ?_ ?_ ?_
          · rw [← hPFnst, rNFp, hNFnst]
          · rw [← hNFnst, rPFn, hPFnst]
          · intro x hx hne
            exact rNF x (fun he => hne (he.trans hPFnst))
          · intro x hx hne
            exact rPF x (fun he => hne (he.trans hNFnst))
      · -- well-formedness of the widened description
        refine ⟨hw.1, hw.2.1, ?_, ?_, ?_, ?_, ?_⟩
        · rw [habsT2]
          exact hTn
        · have hnadj := hw.2.2.2.1
          rw [hdec] at hnadj
          exact noAdjFree_merge L c zc false nst nz true R2 (zc + nz) false hnadj
            (fun hf => absurd hf (by simp))
        · exact hfnd.sublist ((List.sublist_cons_self nst F2).append_left F1)
        · intro s hs
          have hsfl : s ∈ a.fl := by
            rw [hfl]
            rcases List.mem_append.mp hs with hx | hx
            · exact List.mem_append.mpr (Or.inl hx)
            · exact List.mem_append.mpr (Or.inr (List.mem_cons_of_mem _ hx))
          obtain ⟨p, hp, hps, hpf⟩ := hw.2.2.2.2.2.1 s hsfl
          rw [hdec] at hp
          refine ⟨p, ?_, hps, hpf⟩
          refine mem_drop_two hp ?_ ?_
          · intro he
            rw [he] at hpf
            simp at hpf
          · intro he
            rw [he] at hps
            simp only at hps
            rw [← hps] at hs
            exact hnstnot hs
        · intro p hp hpf
          have hpold : p ∈ a.blocks ∧ p.1 ≠ nst := by
            rcases List.mem_append.mp hp with hx | hx
            · refine ⟨by rw [hdec]; exact List.mem_append.mpr (Or.inl hx), ?_⟩
              obtain ⟨hq1, hq2, hq3, -⟩ := physOK_mem hphysL p hx
              omega
            · rcases List.mem_cons.mp hx with hx | hx
              · rw [hx] at hpf
                simp at hpf
              · refine ⟨by
                  rw [hdec]
                  exact List.mem_append.mpr (Or.inr
                    (List.mem_cons_of_mem _ (List.mem_cons_of_mem _ hx))), ?_⟩
                obtain ⟨hq1, hq2, hq3, -⟩ := physOK_mem hphysR2 p hx
                omega
          have hin := hw.2.2.2.2.2.2 p hpold.1 hpf
          rw [hfl] at hin
          exact mem_remove_mid hin hpold.2
      · -- the new physical successor of `c` is not free
        intro q hq
        have hnadj := hw.2.2.2.1
        rw [hdec] at hnadj
        have hre2 : L ++ (c, zc, false) :: (nst, nz, true) :: R2 =
            (L ++ [(c, zc, false)]) ++ (nst, nz, true) :: R2 := by simp
        rw [hre2] at hnadj
        have hpair := (noAdjFree_at _ _ _ hnadj).2 q hq
        simp only at hpair
        cases hq22 : q.2.2 with
        | false => rfl
        | true => exact absurd ⟨by trivial, hq22⟩ hpair
      · -- used blocks other than `c` survive in the description
        intro s z hm hne
        rw [hdec] at hm
        refine mem_drop_two hm ?_ ?_
        · intro he
          injection he with e1 e2
          exact hne e1
        · intro he
          injection he with e1 e2
          injection e2 with e3 e4
          cases e4
      · -- no used block's payload is touched
        intro s z hm
        rw [hstep]
        have hz1 : 1 ≤ z := (physOK_mem (rep_physOK hr) _ hm).2.1
        have hp1 : payloadEq h (umm_disconnect_from_free_list h nst) s z :=
          disconnect_payload hr hw hnfl s z hm
        have hsafe1 : nst + nz ≤ s ∨ s + z ≤ nst + nz := by
          cases R2 with
          | nil =>
            right
            have h5 := hL2
            rw [blocksEnd_nil] at h5
            have hb2 := block_bounds hr hw hm
            omega
          | cons r1 R3 =>
            obtain ⟨r1s, r1z, r1f⟩ := r1
            obtain ⟨hr1st, -, -, -, -⟩ := hphysR2
            have hmem1 : (r1s, r1z, r1f) ∈ a.blocks := by
              rw [hdec]
              exact List.mem_append.mpr (Or.inr
                (List.mem_cons_of_mem _ (List.mem_cons_of_mem _ (List.mem_cons_self _ _))))
            have := blocks_start_safe hr hm r1s r1z r1f hmem1
            omega
        have hsafe2 : c ≤ s ∨ s + z ≤ c := blocks_start_safe hr hm c zc false hmemc
        have hp2 : payloadEq (umm_disconnect_from_free_list h nst)
            (setPB (umm_disconnect_from_free_list h nst) (nst + nz) c) s z :=
          payloadEq_setPB (by omega)
        have hp3 : payloadEq (setPB (umm_disconnect_from_free_list h nst) (nst + nz) c)
            hM s z := by
          rw [hMdef]
          exact payloadEq_setNB (by omega)
        exact payloadEq_trans (payloadEq_trans hp1 hp2) hp3

/-!
## The insert branch of `umm_free`
-/

/-- The free-list insertion path of `umm_free` (no assimilation left to
do, both physical neighbours used): the block is flagged free and
becomes the new head of the free list.  `hF` is the heap after the five
stores of the branch. -/
theorem free_insert_rep {h1 : Heap} {a1 : Abs} (hr : Rep h1 a1) (hw : WF a1)
    {c zc1 : Nat} {L R1 : List (Nat × Nat × Bool)}
    (hdec : a1.blocks = L ++ (c, zc1, false) :: R1)
    (hnextf : ∀ q ∈ R1.head?, q.2.2 = false)
    (hprevf : ∀ q ∈ L.getLast?, q.2.2 = false)
    {hF : Heap}
    (hhF : hF = setNB (setNF (setPF (setNF (setPF h1 (NFREE h1 0) c) c
        (NFREE (setPF h1 (NFREE h1 0) c) 0)) c 0) 0 c) c
      (orFlag (NBLOCK (setNF (setPF (setNF (setPF h1 (NFREE h1 0) c) c
        (NFREE (setPF h1 (NFREE h1 0) c) 0)) c 0) 0 c) c) 32768)) :
    Rep hF ⟨a1.n, L ++ (c, zc1, true) :: R1, c :: a1.fl⟩ ∧
    WF ⟨a1.n, L ++ (c, zc1, true) :: R1, c :: a1.fl⟩ ∧
    ∀ s z, (s, z, false) ∈ a1.blocks → s ≠ c → payloadEq h1 hF s z := by
  have hlen := rep_len hr
  have hTn : absT a1 < a1.n := hw.2.2.1
  have hn32 : a1.n ≤ 32768 := hw.2.1
  have hmemc : (c, zc1, false) ∈ a1.blocks := by
    rw [hdec]
    exact List.mem_append.mpr (Or.inr (List.mem_cons_self _ _))
  have hbc := block_bounds hr hw hmemc
  have hNBc : NBLOCK h1 c = c + zc1 := used_NB hr hmemc
  have hclen : c < h1.length := by omega
  have h0len : 0 < h1.length := by omega
  have hnotfl : c ∉ a1.fl := fl_not_used hr hw hmemc
  have hc_chain : c ∉ 0 :: a1.fl ++ [absT a1] := by
    intro hx
    rcases List.mem_cons.mp hx with hx | hx
    · omega
    · rcases List.mem_append.mp hx with hx | hx
      · exact hnotfl hx
      · have := List.mem_singleton.mp hx
        omega
  have hnd := chain_nodup hr hw
  have hndC2 : (a1.fl ++ [absT a1]).Nodup := (List.nodup_cons.mp hnd).2
  have hhd_eq : NFREE h1 0 = (a1.fl ++ [absT a1]).headD 0 := chain_NF0 hr
  have hhd_mem : NFREE h1 0 ∈ 0 :: a1.fl ++ [absT a1] := by
    rw [hhd_eq]
    exact List.mem_cons_of_mem _ (headD_mem _ 0 (by simp))
  have hhd_lt : NFREE h1 0 < h1.length := (chain_mem_le hr hw _ hhd_mem).1
  have hhd_ne_c : NFREE h1 0 ≠ c := by
    intro he
    rw [← he] at hc_chain
    exact hc_chain hhd_mem
  subst hhF
  set q1 := setPF h1 (NFREE h1 0) c with hq1
  set q2 := setNF q1 c (NFREE q1 0) with hq2
  set q3 := setPF q2 c 0 with hq3
  set q4 := setNF q3 0 c with hq4
  set hF2 := setNB q4 c (orFlag (NBLOCK q4 c) 32768) with hF2d
  have hlq4 : q4.length = h1.length := by
    rw [hq4, hq3, hq2, hq1]; simp
  have hlF : hF2.length = h1.length := by
    rw [hF2d, length_setNB, hlq4]
  have hNBq4 : ∀ j, NBLOCK q4 j = NBLOCK h1 j := by
    intro j
    rw [hq4, hq3, hq2, hq1]
    simp
  have rNB : ∀ j, j ≠ c → NBLOCK hF2 j = NBLOCK h1 j := by
    intro j hne
    rw [hF2d, NBLOCK_setNB, if_neg (fun hc2 => hne hc2.1.symm)]
    exact hNBq4 j
  have rNBc : NBLOCK hF2 c = c + zc1 + 32768 := by
    rw [hF2d, NBLOCK_setNB, if_pos ⟨rfl, by rw [hlq4]; exact hclen⟩]
    rw [hNBq4 c, hNBc, orFlag_flag (by omega)]
    exact Nat.mod_eq_of_lt (by omega)
  have rPB : ∀ j, PBLOCK hF2 j = PBLOCK h1 j := by
    intro j
    rw [hF2d, hq4, hq3, hq2, hq1]
    simp
  have rNF : ∀ j, j ≠ 0 → j ≠ c → NFREE hF2 j = NFREE h1 j := by
    intro j h0 hcne
    rw [hF2d]
    simp only [NFREE_setNB]
    rw [hq4, NFREE_setNF, if_neg (fun hc2 => h0 hc2.1.symm)]
    rw [hq3]
    simp only [NFREE_setPF]
    rw [hq2, NFREE_setNF, if_neg (fun hc2 => hcne hc2.1.symm)]
    rw [hq1]
    simp
  have rNF0 : NFREE hF2 0 = c := by
    rw [hF2d]
    simp only [NFREE_setNB]
    rw [hq4, NFREE_setNF, if_pos ⟨rfl, by rw [hq3, hq2, hq1]; simpa using h0len⟩]
    exact Nat.mod_eq_of_lt (by omega)
  have rNFc : NFREE hF2 c = NFREE h1 0 := by
    rw [hF2d]
    simp only [NFREE_setNB]
    rw [hq4, NFREE_setNF, if_neg (fun hc2 => hhd_ne_c (by omega))]
    rw [hq3]
    simp only [NFREE_setPF]
    rw [hq2, NFREE_setNF, if_pos ⟨rfl, by rw [hq1]; simpa using hclen⟩]
    have hv : NFREE q1 0 = NFREE h1 0 := by
      rw [hq1]; simp
    rw [hv]
    have hbdd := rep_bounded hr 0 h0len
    exact Nat.mod_eq_of_lt hbdd.2.2.1
  have rPF : ∀ j, j ≠ NFREE h1 0 → j ≠ c → PFREE hF2 j = PFREE h1 j := by
    intro j hhd hcne
    rw [hF2d]
    simp only [PFREE_setNB]
    rw [hq4]
    simp only [PFREE_setNF]
    rw [hq3, PFREE_setPF, if_neg (fun hc2 => hcne hc2.1.symm)]
    rw [hq2]
    simp only [PFREE_setNF]
    rw [hq1, PFREE_setPF, if_neg (fun hc2 => hhd hc2.1.symm)]
  have rPFc : PFREE hF2 c = 0 := by
    rw [hF2d]
    simp only [PFREE_setNB]
    rw [hq4]
    simp only [PFREE_setNF]
    rw [hq3, PFREE_setPF, if_pos ⟨rfl, by rw [hq2, hq1]; simpa using hclen⟩]
  have rPFhd : PFREE hF2 (NFREE h1 0) = c := by
    rw [hF2d]
    simp only [PFREE_setNB]
    rw [hq4]
    simp only [PFREE_setNF]
    rw [hq3, PFREE_setPF, if_neg (fun hc2 => hhd_ne_c hc2.1.symm)]
    rw [hq2]
    simp only [PFREE_setNF]
    rw [hq1, PFREE_setPF, if_pos ⟨rfl, by simpa using hhd_lt⟩]
    exact Nat.mod_eq_of_lt (by omega)
  have hL1 : blocksEnd 1 (L ++ (c, zc1, true) :: R1) = blocksEnd (blocksEnd 1 L + zc1) R1 := by
    rw [blocksEnd_append, blocksEnd_cons]
  have hL2 : absT a1 = blocksEnd (blocksEnd 1 L + zc1) R1 := by
    rw [absT_blocksEnd, hdec, blocksEnd_append, blocksEnd_cons]
  have habsTr : absT (⟨a1.n, L ++ (c, zc1, true) :: R1, c :: a1.fl⟩ : Abs) = absT a1 :=
    hL1.trans hL2.symm
  have hlast : lastStart (⟨a1.n, L ++ (c, zc1, true) :: R1, c :: a1.fl⟩ : Abs) =
      lastStart a1 := by
    rw [lastStart_blocksPrev, lastStart_blocksPrev, hdec]
    show blocksPrev 0 (L ++ (c, zc1, true) :: R1) =
      blocksPrev 0 (L ++ (c, zc1, false) :: R1)
    rw [blocksPrev_append, blocksPrev_cons, blocksPrev_append, blocksPrev_cons]
  refine ⟨?_, ?_, ?_⟩
  · -- the heap after the stores realizes the freed description
    refine ⟨?_, ?_, ?_, ?_, ?_, ?_, ?_, ?_, ?_⟩
    · rw [hlF, hlen]
    · rw [hF2d, hq4, hq3, hq2, hq1]
      exact boundedCells_setNB (boundedCells_setNF (boundedCells_setPF
        (boundedCells_setNF (boundedCells_setPF (rep_bounded hr) _ _) _ _) _ _) _ _) _ _
    · rw [rNB 0 (by omega)]
      exact rep_NB0 hr
    · rw [rPB 0]
      exact rep_PB0 hr
    · have hphys := rep_physOK hr
      rw [hdec] at hphys
      refine physOK_set_flag L c zc1 false true R1 hphys rNB rPB ?_
      rw [rNBc, if_pos rfl]
    · rw [habsTr, rNB _ (by omega)]
      exact rep_NBT hr
    · rw [habsTr, rPB, rep_PBT hr, hlast]
    · rw [habsTr, rNF _ (by omega) (by omega)]
      exact rep_NFT hr
    · rw [habsTr]
      have hgoal : (0 : Nat) :: (c :: a1.fl) ++ [absT a1] = 0 :: c :: (a1.fl ++ [absT a1]) := by
        simp
      rw [hgoal]
      refine chainOK_insert c (a1.fl ++ [absT a1]) (by simp) (rep_chainOK hr) hnd
        hc_chain rNF0 rPFc (by rw [rNFc, hhd_eq]) ?_ ?_ ?_
      · rw [← hhd_eq]
        exact rPFhd
      · intro x hx h0 hcne
        exact rNF x h0 hcne
      · intro x hx
        have hxC : x ∈ a1.fl ++ [absT a1] := List.mem_of_mem_tail hx
        refine rPF x ?_ ?_
        · rw [hhd_eq]
          intro he
          cases hC : a1.fl ++ [absT a1] with
          | nil => simp at hC
          | cons y t =>
            rw [hC] at hx he
            have hynd := List.nodup_cons.mp (by rw [hC] at hndC2; exact hndC2)
            rw [List.headD_cons] at he
            rw [he] at hx
            exact hynd.1 hx
        · intro he
          rw [he] at hxC
          exact hc_chain (List.mem_cons_of_mem _ hxC)
  · -- well-formedness of the freed description
    refine ⟨hw.1, hw.2.1, ?_, ?_, ?_, ?_, ?_⟩
    · rw [habsTr]
      exact hTn
    · have hnadj := hw.2.2.2.1
      rw [hdec] at hnadj
      exact noAdjFree_set L c zc1 false R1 zc1 true hnadj (fun _ => ⟨hprevf, hnextf⟩)
    · exact List.nodup_cons.mpr ⟨hnotfl, hw.2.2.2.2.1⟩
    · intro s hs
      rcases List.mem_cons.mp hs with hs | hs
      · subst hs
        exact ⟨(s, zc1, true),
          List.mem_append.mpr (Or.inr (List.mem_cons_self _ _)), rfl, rfl⟩
      · obtain ⟨p, hp, hps, hpf⟩ := hw.2.2.2.2.2.1 s hs
        rw [hdec] at hp
        refine ⟨p, mem_swap_mid hp ?_, hps, hpf⟩
        intro he
        rw [he] at hpf
        simp at hpf
    · intro p hp hpf
      rcases List.mem_append.mp hp with hx | hx
      · have hpold : p ∈ a1.blocks := by
          rw [hdec]
          exact List.mem_append.mpr (Or.inl hx)
        exact List.mem_cons_of_mem _ (hw.2.2.2.2.2.2 p hpold hpf)
      · rcases List.mem_cons.mp hx with hx | hx
        · rw [hx]
          exact List.mem_cons_self _ _
        · have hpold : p ∈ a1.blocks := by
            rw [hdec]
            exact List.mem_append.mpr (Or.inr (List.mem_cons_of_mem _ hx))
          exact List.mem_cons_of_mem _ (hw.2.2.2.2.2.2 p hpold hpf)
  · -- payload of the other used blocks is untouched
    intro s z hm hne
    have hz1 : 1 ≤ z := (physOK_mem (rep_physOK hr) _ hm).2.1
    have hsafe := chain_safe hr hw hm
    have hs_hd := hsafe _ hhd_mem
    have hs0 : (0 : Nat) < s := by
      have := (physOK_mem (rep_physOK hr) _ hm).1
      simp only at this
      omega
    have hdisj2 := physOK_disjoint (rep_physOK hr) _ hmemc _ hm (by simpa using hne.symm)
    simp only at hdisj2
    have hcs : c < s ∨ s + z ≤ c := by
      rcases hdisj2 with hd | hd
      · left; omega
      · right; omega
    have hp1 : payloadEq h1 q1 s z := by
      rw [hq1]
      exact payloadEq_setPF hz1 (by omega)
    have hp2 : payloadEq q1 q2 s z := by
      rw [hq2]
      exact payloadEq_setNF hz1 (by omega)
    have hp3 : payloadEq q2 q3 s z := by
      rw [hq3]
      exact payloadEq_setPF hz1 (by omega)
    have hp4 : payloadEq q3 q4 s z := by
      rw [hq4]
      exact payloadEq_setNF hz1 (by omega)
    have hp5 : payloadEq q4 hF2 s z := by
      rw [hF2d]
      exact payloadEq_setNB (by omega)
    exact payloadEq_trans (payloadEq_trans (payloadEq_trans
      (payloadEq_trans hp1 hp2) hp3) hp4) hp5

/-!
## The downward-assimilation branch of `umm_free`
-/

/-- The downward-assimilation path of `umm_free`: the physical
predecessor is free, so the freed block is absorbed into it.  The free
list is unchanged; only the predecessor's header and the successor's
back link are written. -/
theorem free_down_rep {h1 : Heap} {a1 : Abs} (hr : Rep h1 a1) (hw : WF a1)
    {c zc1 p zp : Nat} {Lp R1 : List (Nat × Nat × Bool)}
    (hdec : a1.blocks = Lp ++ (p, zp, true) :: (c, zc1, false) :: R1)
    (hnextf : ∀ q ∈ R1.head?, q.2.2 = false) :
    Rep ((umm_assimilate_down h1 c 32768).1)
      ⟨a1.n, Lp ++ (p, zp + zc1, true) :: R1, a1.fl⟩ ∧
    WF ⟨a1.n, Lp ++ (p, zp + zc1, true) :: R1, a1.fl⟩ ∧
    ∀ s z, (s, z, false) ∈ a1.blocks → s ≠ c →
      payloadEq h1 ((umm_assimilate_down h1 c 32768).1) s z := by
  have hlen := rep_len hr
  have hTn : absT a1 < a1.n := hw.2.2.1
  have hn32 : a1.n ≤ 32768 := hw.2.1
  have hmemp : (p, zp, true) ∈ a1.blocks := by
    rw [hdec]
    exact List.mem_append.mpr (Or.inr (List.mem_cons_self _ _))
  have hmemc : (c, zc1, false) ∈ a1.blocks := by
    rw [hdec]
    exact List.mem_append.mpr (Or.inr (List.mem_cons_of_mem _ (List.mem_cons_self _ _)))
  have hbp := block_bounds hr hw hmemp
  have hbc := block_bounds hr hw hmemc
  have hNBc : NBLOCK h1 c = c + zc1 := used_NB hr hmemc
  have hphysFull := rep_physOK hr
  rw [hdec] at hphysFull
  have hsplit := (physOK_append Lp _ 0 1).mp hphysFull
  have hphysL := hsplit.1
  have hbe : blocksEnd 1 Lp = 1 + (Lp.map (fun r => r.2.1)).sum := rfl
  obtain ⟨hppos, hzp1, hnbp, hpbp, hmid2⟩ := hsplit.2
  obtain ⟨hcpos, hzc1p, hnbcv, hPBc, hphysR1⟩ := hmid2
  have hpc : p + zp = c := by omega
  have hpnec : p ≠ c := by omega
  have hstep : (umm_assimilate_down h1 c 32768).1 =
      setPB (setNB h1 p (c + zc1 + 32768)) (c + zc1) p := by
    unfold umm_assimilate_down
    dsimp only
    rw [hPBc, hNBc, orFlag_flag (by omega)]
    rw [NBLOCK_setNB, if_neg (fun hcc => hpnec hcc.1), hNBc]
    simp only [PBLOCK_setNB]
    rw [hPBc]
  set hM := setPB (setNB h1 p (c + zc1 + 32768)) (c + zc1) p with hMdef
  have hlenM : hM.length = h1.length := by
    rw [hMdef]; simp
  have rNB : ∀ j, j ≠ p → NBLOCK hM j = NBLOCK h1 j := by
    intro j hne
    rw [hMdef]
    simp only [NBLOCK_setPB]
    rw [NBLOCK_setNB, if_neg (fun hcc => hne hcc.1.symm)]
  have hplen : p < h1.length := by omega
  have rNBp : NBLOCK hM p = c + zc1 + 32768 := by
    rw [hMdef]
    simp only [NBLOCK_setPB]
    rw [NBLOCK_setNB, if_pos ⟨rfl, hplen⟩]
    exact Nat.mod_eq_of_lt (by omega)
  have rPB : ∀ j, j ≠ c + zc1 → PBLOCK hM j = PBLOCK h1 j := by
    intro j hne
    rw [hMdef]
    rw [PBLOCK_setPB, if_neg (fun hcc => hne hcc.1.symm)]
    simp
  have rPBn : c + zc1 < h1.length → PBLOCK hM (c + zc1) = p := by
    intro hl
    rw [hMdef]
    rw [PBLOCK_setPB, if_pos ⟨rfl, by simpa using hl⟩]
    exact Nat.mod_eq_of_lt (by omega)
  have rNF : ∀ j, NFREE hM j = NFREE h1 j := by
    intro j
    rw [hMdef]
    simp
  have rPF : ∀ j, PFREE hM j = PFREE h1 j := by
    intro j
    rw [hMdef]
    simp
  have hL1 : blocksEnd 1 (Lp ++ (p, zp + zc1, true) :: R1) =
      blocksEnd (blocksEnd 1 Lp + (zp + zc1)) R1 := by
    rw [blocksEnd_append, blocksEnd_cons]
  have hL2 : absT a1 = blocksEnd (blocksEnd 1 Lp + zp + zc1) R1 := by
    rw [absT_blocksEnd, hdec, blocksEnd_append, blocksEnd_cons, blocksEnd_cons]
  have habsT : blocksEnd 1 (Lp ++ (p, zp + zc1, true) :: R1) = absT a1 := by
    rw [hL1, hL2]
    exact congrArg (fun t => blocksEnd t R1) (by omega)
  have habsTr : absT (⟨a1.n, Lp ++ (p, zp + zc1, true) :: R1, a1.fl⟩ : Abs) = absT a1 :=
    habsT
  refine ⟨?_, ?_, ?_⟩
  · rw [hstep]
    refine ⟨?_, ?_, ?_, ?_, ?_, ?_, ?_, ?_, ?_⟩
    · rw [hlenM, hlen]
    · rw [hMdef]
      exact boundedCells_setPB (boundedCells_setNB (rep_bounded hr) _ _) _ _
    · rw [rNB 0 (by omega)]
      exact rep_NB0 hr
    · rw [rPB 0 (by omega)]
      exact rep_PB0 hr
    · refine physOK_merge Lp p zp true c zc1 false R1 true hphysFull
        ?_ ?_ ?_ ?_ ?_ ?_ ?_
      · intro q hq
        obtain ⟨hq1, hq2, hq3, -⟩ := physOK_mem hphysL q hq
        exact rNB q.1 (by omega)
      · intro q hq
        obtain ⟨hq1, hq2, hq3, -⟩ := physOK_mem hphysL q hq
        exact rPB q.1 (by omega)
      · rw [rNBp, if_pos rfl]
        omega
      · exact rPB p (by omega)
      · intro q hq
        obtain ⟨hq1, hq2, hq3, -⟩ := physOK_mem hphysR1 q hq
        exact rNB q.1 (by omega)
      · intro q hq
        cases R1 with
        | nil => exact absurd hq (List.not_mem_nil q)
        | cons r1 R3 =>
          obtain ⟨r1s, r1z, r1f⟩ := r1
          obtain ⟨hr1st, hr1z, -, -, hphysR3⟩ := hphysR1
          obtain ⟨hq1, hq2, hq3, -⟩ := physOK_mem hphysR3 q hq
          exact rPB q.1 (by omega)
      · intro q hq
        cases R1 with
        | nil => exact absurd hq (by simp)
        | cons r1 R3 =>
          obtain ⟨r1s, r1z, r1f⟩ := r1
          have he : (r1s, r1z, r1f) = q := by injection hq
          obtain ⟨hr1st, hr1z, -, -, hphysR3⟩ := hphysR1
          have hmem1 : (r1s, r1z, r1f) ∈ a1.blocks := by
            rw [hdec]
            exact List.mem_append.mpr (Or.inr
              (List.mem_cons_of_mem _ (List.mem_cons_of_mem _ (List.mem_cons_self _ _))))
          have hb1 := block_bounds hr hw hmem1
          rw [← he]
          show PBLOCK hM r1s = p
          have hre : r1s = c + zc1 := by omega
          rw [hre]
          exact rPBn (by omega)
    · rw [habsTr, rNB _ (by omega)]
      exact rep_NBT hr
    · rw [habsTr]
      cases R1 with
      | nil =>
        have h5 := hL2
        rw [blocksEnd_nil] at h5
        have habsn : absT a1 = c + zc1 := by omega
        rw [habsn, rPBn (by omega), lastStart_blocksPrev]
        show p = blocksPrev 0 (Lp ++ (p, zp + zc1, true) :: [])
        rw [blocksPrev_append, blocksPrev_cons, blocksPrev_nil]
      | cons r1 R3 =>
        obtain ⟨r1s, r1z, r1f⟩ := r1
        obtain ⟨hr1st, hr1z, -, -, hphysR3⟩ := hphysR1
        have hmem1 : (r1s, r1z, r1f) ∈ a1.blocks := by
          rw [hdec]
          exact List.mem_append.mpr (Or.inr
            (List.mem_cons_of_mem _ (List.mem_cons_of_mem _ (List.mem_cons_self _ _))))
        have hb1 := block_bounds hr hw hmem1
        rw [rPB _ (by omega), rep_PBT hr]
        have g1 : lastStart a1 = blocksPrev c ((r1s, r1z, r1f) :: R3) := by
          rw [lastStart_blocksPrev, hdec, blocksPrev_append, blocksPrev_cons,
            blocksPrev_cons]
        have g2 : lastStart (⟨a1.n, Lp ++ (p, zp + zc1, true) :: (r1s, r1z, r1f) :: R3,
            a1.fl⟩ : Abs) = blocksPrev p ((r1s, r1z, r1f) :: R3) := by
          rw [lastStart_blocksPrev]
          show blocksPrev 0 (Lp ++ (p, zp + zc1, true) :: (r1s, r1z, r1f) :: R3) =
            blocksPrev p ((r1s, r1z, r1f) :: R3)
          rw [blocksPrev_append, blocksPrev_cons]
        rw [g1, g2]
        exact blocksPrev_irrel _ _ _ (by simp)
    · rw [habsTr, rNF]
      exact rep_NFT hr
    · rw [habsTr]
      exact chainOK_congr2 _ (rep_chainOK hr) (fun x _ => rNF x) (fun x _ => rPF x)
  · refine ⟨hw.1, hw.2.1, ?_, ?_, hw.2.2.2.2.1, ?_, ?_⟩
    · rw [habsTr]
      exact hTn
    · have hnadj := hw.2.2.2.1
      rw [hdec] at hnadj
      refine noAdjFree_merge Lp p zp true c zc1 false R1 (zp + zc1) true hnadj ?_
      intro _
      refine ⟨?_, hnextf⟩
      intro q hq
      have hpair := (noAdjFree_at Lp (p, zp, true) ((c, zc1, false) :: R1) hnadj).1 q hq
      simp only at hpair
      cases hq22 : q.2.2 with
      | false => rfl
      | true => exact absurd ⟨hq22, by trivial⟩ hpair
    · intro s hs
      obtain ⟨pb, hpb, hpbs, hpbf⟩ := hw.2.2.2.2.2.1 s hs
      rw [hdec] at hpb
      rcases List.mem_append.mp hpb with hx | hx
      · exact ⟨pb, List.mem_append.mpr (Or.inl hx), hpbs, hpbf⟩
      · rcases List.mem_cons.mp hx with hx | hx
        · refine ⟨(p, zp + zc1, true),
            List.mem_append.mpr (Or.inr (List.mem_cons_self _ _)), ?_, rfl⟩
          rw [hx] at hpbs
          exact hpbs
        · rcases List.mem_cons.mp hx with hx | hx
          · rw [hx] at hpbf
            simp at hpbf
          · exact ⟨pb, List.mem_append.mpr (Or.inr (List.mem_cons_of_mem _ hx)), hpbs, hpbf⟩
    · intro pb hpb hpbf
      rcases List.mem_append.mp hpb with hx | hx
      · refine hw.2.2.2.2.2.2 pb ?_ hpbf
        rw [hdec]
        exact List.mem_append.mpr (Or.inl hx)
      · rcases List.mem_cons.mp hx with hx | hx
        · have : pb.1 = p := by rw [hx]
          rw [this]
          exact hw.2.2.2.2.2.2 (p, zp, true) hmemp rfl
        · refine hw.2.2.2.2.2.2 pb ?_ hpbf
          rw [hdec]
          exact List.mem_append.mpr (Or.inr
            (List.mem_cons_of_mem _ (List.mem_cons_of_mem _ hx)))
  · intro s z hm hne
    rw [hstep]
    have hz1 : 1 ≤ z := (physOK_mem (rep_physOK hr) _ hm).2.1
    have hsafep : p ≤ s ∨ s + z ≤ p := blocks_start_safe hr hm p zp true hmemp
    have hsafe1 : c + zc1 ≤ s ∨ s + z ≤ c + zc1 := by
      cases R1 with
      | nil =>
        right
        have h5 := hL2
        rw [blocksEnd_nil] at h5
        have hb2 := block_bounds hr hw hm
        omega
      | cons r1 R3 =>
        obtain ⟨r1s, r1z, r1f⟩ := r1
        obtain ⟨hr1st, -, -, -, -⟩ := hphysR1
        have hmem1 : (r1s, r1z, r1f) ∈ a1.blocks := by
          rw [hdec]
          exact List.mem_append.mpr (Or.inr
            (List.mem_cons_of_mem _ (List.mem_cons_of_mem _ (List.mem_cons_self _ _))))
        have := blocks_start_safe hr hm r1s r1z r1f hmem1
        omega
    have hp1 : payloadEq h1 (setNB h1 p (c + zc1 + 32768)) s z :=
      payloadEq_setNB (by omega)
    have hp2 : payloadEq (setNB h1 p (c + zc1 + 32768)) hM s z := by
      rw [hMdef]
      exact payloadEq_setPB (by omega)
    exact payloadEq_trans hp1 hp2

/-!
## `umm_free` on a used block of a represented heap
-/

/-- Freeing a used block of a represented heap: the result is again a
represented, well-formed heap in which the freed cells lie inside a
free block, and no other used block's payload is touched.  This covers
all four paths of `umm_free` (upward assimilation optional, then either
downward assimilation or insertion at the head of the free list). -/
theorem free_rep {h : Heap} {a : Abs} (hr : Rep h a) (hw : WF a)
    {c zc : Nat} {L R : List (Nat × Nat × Bool)}
    (hdec : a.blocks = L ++ (c, zc, false) :: R) :
    (∀ s z, (s, z, false) ∈ a.blocks → s ≠ c → payloadEq h (umm_free_idx h c) s z) ∧
    ∃ a2 : Abs, Rep (umm_free_idx h c) a2 ∧ WF a2 ∧ a2.n = a.n ∧
      ∃ ps zs, (ps, zs, true) ∈ a2.blocks ∧ ps ≤ c ∧ c + zc ≤ ps + zs := by
  obtain ⟨zc1, R1, fl1, hzlez, hrep1, hwf1, habs1, hhead1, hmem1, hpay1⟩ :=
    assimilate_up_rep hr hw hdec
  have hdec1 : (⟨a.n, L ++ (c, zc1, false) :: R1, fl1⟩ : Abs).blocks =
      L ++ (c, zc1, false) :: R1 := rfl
  have hsplit1 := (physOK_append L ((c, zc1, false) :: R1) 0 1).mp (rep_physOK hrep1)
  have hPBc1 : PBLOCK (umm_assimilate_up h c) c = blocksPrev 0 L := hsplit1.2.2.2.2.1
  have hmemc1 : (c, zc1, false) ∈ (⟨a.n, L ++ (c, zc1, false) :: R1, fl1⟩ : Abs).blocks :=
    List.mem_append.mpr (Or.inr (List.mem_cons_self _ _))
  have hbc1 := block_bounds hrep1 hwf1 hmemc1
  rcases List.eq_nil_or_concat L with hL | ⟨Lp, x, hL⟩
  · subst hL
    have hflag2 : hasFlag (NBLOCK (umm_assimilate_up h c)
        (PBLOCK (umm_assimilate_up h c) c)) = false := by
      rw [hPBc1, blocksPrev_nil, rep_NB0 hrep1]
      exact hasFlag_small (by omega)
    have hbr : umm_free_idx h c =
        setNB (setNF (setPF (setNF (setPF (umm_assimilate_up h c)
            (NFREE (umm_assimilate_up h c) 0) c) c
            (NFREE (setPF (umm_assimilate_up h c)
              (NFREE (umm_assimilate_up h c) 0) c) 0)) c 0) 0 c) c
          (orFlag (NBLOCK (setNF (setPF (setNF (setPF (umm_assimilate_up h c)
            (NFREE (umm_assimilate_up h c) 0) c) c
            (NFREE (setPF (umm_assimilate_up h c)
              (NFREE (umm_assimilate_up h c) 0) c) 0)) c 0) 0 c) c) 32768) := by
      unfold umm_free_idx
      dsimp only
      rw [if_neg (by simp [hflag2])]
    obtain ⟨hrep2, hwf2, hpay2⟩ := free_insert_rep hrep1 hwf1 hdec1 hhead1
      (fun q hq => absurd hq (by simp)) hbr
    refine ⟨?_, ⟨a.n, [] ++ (c, zc1, true) :: R1, c :: fl1⟩, hrep2, hwf2, rfl,
      c, zc1, ?_, le_refl c, by omega⟩
    · intro s z hm hne
      exact payloadEq_trans (hpay1 s z hm) (hpay2 s z (hmem1 s z hm hne) hne)
    · exact List.mem_append.mpr (Or.inr (List.mem_cons_self _ _))
  · rw [List.concat_eq_append] at hL
    obtain ⟨p, zp, pf⟩ := x
    subst hL
    have hPBp : PBLOCK (umm_assimilate_up h c) c = p := by
      rw [hPBc1, blocksPrev_append, blocksPrev_cons, blocksPrev_nil]
    have hmemp : (p, zp, pf) ∈
        (⟨a.n, (Lp ++ [(p, zp, pf)]) ++ (c, zc1, false) :: R1, fl1⟩ : Abs).blocks :=
      List.mem_append.mpr (Or.inl
        (List.mem_append.mpr (Or.inr (List.mem_cons_self _ _))))
    have hbp := block_bounds hrep1 hwf1 hmemp
    cases pf with
    | false =>
      have hflag2 : hasFlag (NBLOCK (umm_assimilate_up h c)
          (PBLOCK (umm_assimilate_up h c) c)) = false := by
        rw [hPBp, used_NB hrep1 hmemp]
        exact hasFlag_small (by omega)
      have hbr : umm_free_idx h c =
          setNB (setNF (setPF (setNF (setPF (umm_assimilate_up h c)
              (NFREE (umm_assimilate_up h c) 0) c) c
              (NFREE (setPF (umm_assimilate_up h c)
                (NFREE (umm_assimilate_up h c) 0) c) 0)) c 0) 0 c) c
            (orFlag (NBLOCK (setNF (setPF (setNF (setPF (umm_assimilate_up h c)
              (NFREE (umm_assimilate_up h c) 0) c) c
              (NFREE (setPF (umm_assimilate_up h c)
                (NFREE (umm_assimilate_up h c) 0) c) 0)) c 0) 0 c) c) 32768) := by
        unfold umm_free_idx
        dsimp only
        rw [if_neg (by simp [hflag2])]
      have hprevf : ∀ q ∈ (Lp ++ [(p, zp, false)]).getLast?, q.2.2 = false := by
        intro q hq
        rw [List.getLast?_concat] at hq
        have he : (p, zp, false) = q := by injection hq
        rw [← he]
      obtain ⟨hrep2, hwf2, hpay2⟩ := free_insert_rep hrep1 hwf1 hdec1 hhead1 hprevf hbr
      refine ⟨?_, ⟨a.n, (Lp ++ [(p, zp, false)]) ++ (c, zc1, true) :: R1, c :: fl1⟩,
        hrep2, hwf2, rfl, c, zc1, ?_, le_refl c, by omega⟩
      · intro s z hm hne
        exact payloadEq_trans (hpay1 s z hm) (hpay2 s z (hmem1 s z hm hne) hne)
      · exact List.mem_append.mpr (Or.inr (List.mem_cons_self _ _))
    | true =>
      have hflag2 : hasFlag (NBLOCK (umm_assimilate_up h c)
          (PBLOCK (umm_assimilate_up h c) c)) = true := by
        rw [hPBp, free_NB hrep1 hmemp]
        exact hasFlag_flagged (by omega)
      have hbr : umm_free_idx h c =
          (umm_assimilate_down (umm_assimilate_up h c) c 32768).1 := by
        unfold umm_free_idx
        dsimp only
        rw [if_pos hflag2]
      have hdecD : (⟨a.n, (Lp ++ [(p, zp, true)]) ++ (c, zc1, false) :: R1, fl1⟩ :
          Abs).blocks = Lp ++ (p, zp, true) :: (c, zc1, false) :: R1 := by
        simp
      obtain ⟨hrep2, hwf2, hpay2⟩ := free_down_rep hrep1 hwf1 hdecD hhead1
      have hphys1 := rep_physOK hrep1
      rw [hdecD] at hphys1
      have hsplitD := (physOK_append Lp _ 0 1).mp hphys1
      obtain ⟨hppos, hzp1, -, -, hmidD⟩ := hsplitD.2
      have hcposD := hmidD.1
      have hpc : p + zp = c := by omega
      refine ⟨?_, ⟨a.n, Lp ++ (p, zp + zc1, true) :: R1, fl1⟩, ?_, hwf2, rfl,
        p, zp + zc1, ?_, by omega, by omega⟩
      · intro s z hm hne
        refine payloadEq_trans (hpay1 s z hm) ?_
        rw [hbr]
        exact hpay2 s z (hmem1 s z hm hne) hne
      · rw [hbr]
        exact hrep2
      · exact List.mem_append.mpr (Or.inr (List.mem_cons_self _ _))

/-!
## The best-fit scan
-/

theorem mallocLoop_succ (h : Heap) (b fuel : Nat) (st : LoopSt) :
    mallocLoop h b (fuel + 1) st =
      if NFREE h st.cf ≠ 0 then
        if b ≤ u16sub (blockNoOf (NBLOCK h st.cf)) st.cf ∧
            u16sub (blockNoOf (NBLOCK h st.cf)) st.cf < st.bestSize then
          mallocLoop h b fuel
            ⟨NFREE h st.cf, u16sub (blockNoOf (NBLOCK h st.cf)) st.cf, st.cf,
              u16sub (blockNoOf (NBLOCK h st.cf)) st.cf⟩
        else
          mallocLoop h b fuel
            ⟨NFREE h st.cf, u16sub (blockNoOf (NBLOCK h st.cf)) st.cf, st.bestBlock,
              st.bestSize⟩
      else st := rfl

theorem mallocLoop_run (h : Heap) (b T : Nat) :
    ∀ (l : List (Nat × Nat)) (fuel : Nat) (bs bb bsz : Nat),
      l.length < fuel →
      nfSeq h (l.map Prod.fst ++ [T]) →
      (∀ y ∈ l.map Prod.fst ++ [T], 1 ≤ y) →
      (∀ p ∈ l, u16sub (blockNoOf (NBLOCK h p.1)) p.1 = p.2) →
      mallocLoop h b fuel ⟨(l.map Prod.fst ++ [T]).headD 0, bs, bb, bsz⟩ =
        ⟨T, (l.map Prod.snd).getLastD bs,
          (scanFold b l (bb, bsz)).1, (scanFold b l (bb, bsz)).2⟩ := by
  intro l
  induction l with
  | nil =>
    intro fuel bs bb bsz hfuel hseq hpos hspan
    obtain ⟨fuel, rfl⟩ : ∃ k, fuel = k + 1 := ⟨fuel - 1, by omega⟩
    simp only [List.map_nil, List.nil_append, List.headD_cons]
    have h0 : NFREE h T = 0 := hseq
    rw [mallocLoop_succ]
    simp only [scanFold]
    rw [if_neg (by simp [h0])]
    rfl
  | cons p r ih =>
    intro fuel bs bb bsz hfuel hseq hpos hspan
    obtain ⟨s, z⟩ := p
    obtain ⟨fuel, rfl⟩ : ∃ k, fuel = k + 1 := ⟨fuel - 1, by omega⟩
    simp only [List.map_cons, List.cons_append, List.headD_cons] at hseq ⊢
    have hne : (r.map Prod.fst ++ [T]) ≠ [] := by simp
    obtain ⟨y, tl, hy⟩ : ∃ y tl, r.map Prod.fst ++ [T] = y :: tl :=
      List.exists_cons_of_ne_nil hne
    rw [hy] at hseq
    obtain ⟨hNFs, hseq2⟩ := hseq
    have hy1 : 1 ≤ y := by
      refine hpos y ?_
      simp only [List.map_cons, List.cons_append, hy]
      exact List.mem_cons_of_mem _ (List.mem_cons_self _ _)
    have hNFs0 : NFREE h s ≠ 0 := by omega
    have hzspan : u16sub (blockNoOf (NBLOCK h s)) s = z :=
      hspan (s, z) (List.mem_cons_self _ _)
    rw [mallocLoop_succ]
    simp only [if_pos hNFs0, hzspan]
    have hhead : NFREE h s = (r.map Prod.fst ++ [T]).headD 0 := by
      rw [hy, List.headD_cons, hNFs]
    have ihr := fun bs2 bb2 bsz2 => ih fuel bs2 bb2 bsz2
      (by simp at hfuel ⊢; omega)
      (by rw [hy]; exact hseq2)
      (fun q hq => hpos q (by
        simp only [List.map_cons, List.cons_append]
        exact List.mem_cons_of_mem _ hq))
      (fun q hq => hspan q (List.mem_cons_of_mem _ hq))
    by_cases hcond : b ≤ z ∧ z < bsz
    · rw [if_pos hcond, hhead, ihr z s z]
      simp only [scanFold, if_pos hcond, List.map_cons, List.getLastD_cons]
    · rw [if_neg hcond, hhead, ihr z bb bsz]
      simp only [scanFold, if_neg hcond, List.map_cons, List.getLastD_cons]

/-- Folding `bfStep` from a `some` accumulator never returns `none`. -/
theorem bfStep_foldl_some (b : Nat) :
    ∀ (r : List (Nat × Nat)) (q : Nat × Nat),
      ∃ q2, r.foldl (bfStep b) (some q) = some q2 := by
  intro r
  induction r with
  | nil => exact fun q => ⟨q, rfl⟩
  | cons p r ih =>
    intro q
    simp only [List.foldl_cons]
    have : ∃ q3, bfStep b (some q) p = some q3 := by
      unfold bfStep
      by_cases hb : b ≤ p.2
      · rw [if_pos hb]
        by_cases hlt : p.2 < q.2
        · exact ⟨p, by simp [hlt]⟩
        · exact ⟨q, by simp [hlt]⟩
      · exact ⟨q, by rw [if_neg hb]⟩
    obtain ⟨q3, hq3⟩ := this
    rw [hq3]
    exact ih q3

/-- The loop's fold on `(bestBlock, bestSize)` computes the spec-side
best-fit choice (spans are all below the `0x7FFF` sentinel). -/
theorem scanFold_bfc (b : Nat) :
    ∀ (l : List (Nat × Nat)) (acc : Option (Nat × Nat)) (bb bsz : Nat),
      (match acc with
       | none => bsz = 32767
       | some q => bb = q.1 ∧ bsz = q.2 ∧ q.2 < 32767) →
      (∀ p ∈ l, p.2 < 32767) →
      (match l.foldl (bfStep b) acc with
       | none => scanFold b l (bb, bsz) = (bb, bsz)
       | some q => scanFold b l (bb, bsz) = (q.1, q.2)) := by
  intro l
  induction l with
  | nil =>
    intro acc bb bsz hinv hsp
    cases acc with
    | none => exact rfl
    | some q => exact Prod.ext hinv.1 hinv.2.1
  | cons p r ih =>
    intro acc bb bsz hinv hsp
    obtain ⟨s, z⟩ := p
    have hz : z < 32767 := hsp (s, z) (List.mem_cons_self _ _)
    have hsp2 : ∀ q ∈ r, q.2 < 32767 := fun q hq => hsp q (List.mem_cons_of_mem _ hq)
    simp only [List.foldl_cons]
    by_cases hb : b ≤ z
    · cases acc with
      | none =>
        have hstep : bfStep b none (s, z) = some (s, z) := by simp [bfStep, hb]
        rw [hstep]
        have hcond : b ≤ z ∧ z < bsz := ⟨hb, by omega⟩
        obtain ⟨q2, hq2⟩ := bfStep_foldl_some b r (s, z)
        have IH2 := ih (some (s, z)) s z ⟨rfl, rfl, hz⟩ hsp2
        rw [hq2] at IH2 ⊢
        simp only [scanFold, if_pos hcond]
        exact IH2
      | some q =>
        obtain ⟨hbb, hbsz, hq32⟩ := hinv
        by_cases hlt : z < q.2
        · have hstep : bfStep b (some q) (s, z) = some (s, z) := by
            simp [bfStep, hb, hlt]
          rw [hstep]
          have hcond : b ≤ z ∧ z < bsz := ⟨hb, by omega⟩
          obtain ⟨q2, hq2⟩ := bfStep_foldl_some b r (s, z)
          have IH2 := ih (some (s, z)) s z ⟨rfl, rfl, hz⟩ hsp2
          rw [hq2] at IH2 ⊢
          simp only [scanFold, if_pos hcond]
          exact IH2
        · have hstep : bfStep b (some q) (s, z) = some q := by
            simp [bfStep, hb, hlt]
          rw [hstep]
          have hcond : ¬(b ≤ z ∧ z < bsz) := by omega
          obtain ⟨q2, hq2⟩ := bfStep_foldl_some b r q
          have IH2 := ih (some q) bb bsz ⟨hbb, hbsz, hq32⟩ hsp2
          rw [hq2] at IH2 ⊢
          simp only [scanFold, if_neg hcond]
          exact IH2
    · have hstep : bfStep b acc (s, z) = acc := by simp [bfStep, hb]
      rw [hstep]
      have hcond : ¬(b ≤ z ∧ z < bsz) := by omega
      simp only [scanFold, if_neg hcond]
      exact ih acc bb bsz hinv hsp2

/-- Characterization of the spec-side best-fit fold: if it returns
`none`, nothing qualifies; if it returns `(s, z)`, that pair occurs in
the list, qualifies, strictly beats every earlier qualifying pair, and
is no worse than every later qualifying pair. -/
theorem bfc_go (b : Nat) :
    ∀ (l : List (Nat × Nat)) (acc : Option (Nat × Nat)),
      (match l.foldl (bfStep b) acc with
       | none => acc = none ∧ ∀ q ∈ l, q.2 < b
       | some (s, z) =>
           (acc = some (s, z) ∧ ∀ q ∈ l, b ≤ q.2 → z ≤ q.2) ∨
           (∃ L R, l = L ++ (s, z) :: R ∧ b ≤ z ∧
             (∀ q ∈ L, b ≤ q.2 → z < q.2) ∧ (∀ q ∈ R, b ≤ q.2 → z ≤ q.2) ∧
             (∀ q2, acc = some q2 → z < q2.2))) := by
  intro l
  induction l with
  | nil =>
    intro acc
    cases acc with
    | none => exact ⟨rfl, by simp⟩
    | some q =>
      obtain ⟨qs, qz⟩ := q
      exact Or.inl ⟨rfl, by simp⟩
  | cons p r ih =>
    intro acc
    obtain ⟨ps, pz⟩ := p
    simp only [List.foldl_cons]
    have IH := ih (bfStep b acc (ps, pz))
    rcases hres : r.foldl (bfStep b) (bfStep b acc (ps, pz)) with - | ⟨s, z⟩ <;>
      rw [hres] at IH
    · obtain ⟨hstep0, hall⟩ := IH
      have hacc : acc = none ∧ ¬ b ≤ pz := by
        by_cases hb : b ≤ pz
        · exfalso
          cases acc with
          | none => simp [bfStep, hb] at hstep0
          | some q => by_cases hlt : pz < q.2 <;> simp [bfStep, hb, hlt] at hstep0
        · cases acc with
          | none => exact ⟨rfl, hb⟩
          | some q => simp [bfStep, hb] at hstep0
      refine ⟨hacc.1, ?_⟩
      intro q hq
      rcases List.mem_cons.mp hq with hq | hq
      · rw [hq]; omega
      · exact hall q hq
    · rcases IH with ⟨hstep, hall⟩ | ⟨L, R, hdec, hbz, hL, hR, haccz⟩
      · -- the final best was already the accumulator after the head step
        by_cases hb : b ≤ pz
        · cases acc with
          | none =>
            have he : (ps, pz) = (s, z) := by simpa [bfStep, hb] using hstep
            injection he with e1 e2
            subst e1; subst e2
            exact Or.inr ⟨[], r, rfl, hb, by simp, hall, fun q2 hq2 => by cases hq2⟩
          | some q =>
            obtain ⟨qs, qz⟩ := q
            by_cases hlt : pz < qz
            · have he : (ps, pz) = (s, z) := by simpa [bfStep, hb, hlt] using hstep
              injection he with e1 e2
              subst e1; subst e2
              refine Or.inr ⟨[], r, rfl, hb, by simp, hall, ?_⟩
              rintro q2 hq2
              injection hq2 with hq2
              rw [← hq2]
              exact hlt
            · have he : (qs, qz) = (s, z) := by simpa [bfStep, hb, hlt] using hstep
              injection he with e1 e2
              subst e1; subst e2
              refine Or.inl ⟨rfl, ?_⟩
              intro q hq
              rcases List.mem_cons.mp hq with hq | hq
              · rw [hq]; simp only; omega
              · exact hall q hq
        · have he : acc = some (s, z) := by simpa [bfStep, hb] using hstep
          refine Or.inl ⟨he, ?_⟩
          intro q hq
          rcases List.mem_cons.mp hq with hq | hq
          · rw [hq]; intro hc; simp only at hc; omega
          · exact hall q hq
      · -- the final best was found in the tail
        refine Or.inr ⟨(ps, pz) :: L, R, by simp [hdec], hbz, ?_, hR, ?_⟩
        · intro q hq
          rcases List.mem_cons.mp hq with hq | hq
          · rw [hq]
            intro hbq
            simp only at hbq ⊢
            cases acc with
            | none =>
              have := haccz (ps, pz) (by simp [bfStep, hbq])
              simpa using this
            | some q2 =>
              obtain ⟨qs, qz⟩ := q2
              by_cases hlt : pz < qz
              · have := haccz (ps, pz) (by simp [bfStep, hbq, hlt])
                simpa using this
              · have := haccz (qs, qz) (by simp [bfStep, hbq, hlt])
                simp only at this
                omega
          · exact hL q hq
        · intro q2 hq2
          subst hq2
          by_cases hb : b ≤ pz
          · by_cases hlt : pz < q2.2
            · have := haccz (ps, pz) (by simp [bfStep, hb, hlt])
              simp only at this
              omega
            · exact haccz q2 (by simp [bfStep, hb, hlt])
          · exact haccz q2 (by simp [bfStep, hb])

/-- The scan of `umm_malloc` on a represented heap terminates at the
trailing cell `absT a` and folds `(bestBlock, bestSize)` over the
free-list candidates. -/
theorem mallocScan_run {h : Heap} {a : Abs} (hr : Rep h a) (hw : WF a) (b : Nat) :
    mallocScanSt h b =
      ⟨absT a, ((flSpans a).map Prod.snd).getLastD 0,
        (scanFold b (flSpans a) (NFREE h 0, 32767)).1,
        (scanFold b (flSpans a) (NFREE h 0, 32767)).2⟩ := by
  have hmapfst : (flSpans a).map Prod.fst = a.fl := by
    unfold flSpans
    rw [List.map_map]
    exact List.map_congr_left (fun s _ => rfl) |>.trans (List.map_id a.fl)
  have hseq0 : nfSeq h (0 :: (a.fl ++ [absT a])) :=
    chainOK_nfSeq _ 0 (rep_chainOK hr)
      (by rw [getLastD_append_single]; exact rep_NFT hr)
  have hseq : nfSeq h ((flSpans a).map Prod.fst ++ [absT a]) := by
    rw [hmapfst]; exact nfSeq_tail hseq0
  have hnf0 : NFREE h 0 = ((flSpans a).map Prod.fst ++ [absT a]).headD 0 := by
    rw [hmapfst]
    obtain ⟨y, tl, hy⟩ : ∃ y tl, a.fl ++ [absT a] = y :: tl :=
      List.exists_cons_of_ne_nil (by simp)
    rw [hy, List.headD_cons]
    have := hseq0
    rw [hy] at this
    exact this.1
  have hpos : ∀ y ∈ (flSpans a).map Prod.fst ++ [absT a], 1 ≤ y := by
    rw [hmapfst]
    intro y hy
    rcases List.mem_append.mp hy with hy | hy
    · obtain ⟨z, -, -, hy1, -⟩ := rep_fl_facts hr hw y hy
      exact hy1
    · rw [List.mem_singleton.mp hy]
      exact absT_pos a
  have hspan : ∀ p ∈ flSpans a, u16sub (blockNoOf (NBLOCK h p.1)) p.1 = p.2 := by
    intro p hp
    obtain ⟨s, hs, hps⟩ := List.mem_map.mp hp
    obtain ⟨z, -, hz, -, -, -, -, -, hu⟩ := rep_fl_facts hr hw s hs
    rw [← hps]
    simp only
    rw [hu, hz]
  have hfuel : (flSpans a).length < h.length := by
    have : (flSpans a).length = a.fl.length := List.length_map _ _
    have := fl_length_lt hr hw
    omega
  have hrun := mallocLoop_run h b (absT a) (flSpans a) h.length 0 (NFREE h 0) 32767
    hfuel hseq hpos hspan
  rw [← hnf0] at hrun
  unfold mallocScanSt
  exact hrun

/-- Every free-list candidate's span is below the `0x7FFF` sentinel. -/
theorem flSpans_lt {h : Heap} {a : Abs} (hr : Rep h a) (hw : WF a) :
    ∀ p ∈ flSpans a, p.2 < 32767 := by
  intro p hp
  obtain ⟨s, hs, hps⟩ := List.mem_map.mp hp
  obtain ⟨z, -, hz, hs1, hz1, hT, -⟩ := rep_fl_facts hr hw s hs
  have hTn : absT a < a.n := hw.2.2.1
  have hn : a.n ≤ 32768 := hw.2.1
  rw [← hps]
  simp only [hz]
  omega

/-- Claim C1: on an invariant-satisfying heap, the best-fit search of
`umm_malloc` walks the full free list; if some candidate has span
`≥ b` then `cf` is set to the earliest candidate of minimal sufficient
span (and `bestSize` holds that span); otherwise `bestSize` is still
the `0x7FFF` sentinel, `cf` is the trailing cell, and `NB(cf) & mask`
is 0, which is exactly the condition on which `umm_malloc_core` falls
through to the end-of-heap allocation branch. -/
theorem claim_C1 (h : Heap) (a : Abs) (b : Nat) (hr : Rep h a) (hw : WF a) :
    (∀ s z, bestFitChoice b (flSpans a) = some (s, z) →
      (if (mallocScanSt h b).bestSize ≠ 32767 then (mallocScanSt h b).bestBlock
        else (mallocScanSt h b).cf) = s ∧
      (mallocScanSt h b).bestSize = z ∧
      (∃ L R, flSpans a = L ++ (s, z) :: R ∧ b ≤ z ∧
        (∀ q ∈ L, b ≤ q.2 → z < q.2) ∧ (∀ q ∈ R, b ≤ q.2 → z ≤ q.2)) ∧
      blockNoOf (NBLOCK h s) ≠ 0) ∧
    (bestFitChoice b (flSpans a) = none →
      (∀ q ∈ flSpans a, q.2 < b) ∧
      (mallocScanSt h b).bestSize = 32767 ∧
      (if (mallocScanSt h b).bestSize ≠ 32767 then (mallocScanSt h b).bestBlock
        else (mallocScanSt h b).cf) = absT a ∧
      blockNoOf (NBLOCK h (absT a)) = 0) := by
  have hsp := flSpans_lt hr hw
  have hrun := mallocScan_run hr hw b
  have hbridge := scanFold_bfc b (flSpans a) none (NFREE h 0) 32767 rfl hsp
  have hgo := bfc_go b (flSpans a) none
  constructor
  · intro s z hbfc
    have hbfc2 : (flSpans a).foldl (bfStep b) none = some (s, z) := hbfc
    rw [hbfc2] at hbridge hgo
    rcases hgo with ⟨hbad, -⟩ | ⟨L, R, hdec, hbz, hL, hR, -⟩
    · cases hbad
    · have hmem : (s, z) ∈ flSpans a := by
        rw [hdec]
        exact List.mem_append.mpr (Or.inr (List.mem_cons_self _ _))
      have hz32 : z < 32767 := hsp _ hmem
      have hbsz : (mallocScanSt h b).bestSize = z := by rw [hrun, hbridge]
      have hbb : (mallocScanSt h b).bestBlock = s := by rw [hrun, hbridge]
      refine ⟨?_, hbsz, ⟨L, R, hdec, hbz, hL, hR⟩, ?_⟩
      · rw [if_pos (by omega), hbb]
      · obtain ⟨s0, hs0, hps⟩ := List.mem_map.mp hmem
        have hs0s : s0 = s := congrArg Prod.fst hps
        subst hs0s
        obtain ⟨z0, -, hz0, -, hz01, -, hbn, -⟩ := rep_fl_facts hr hw s0 hs0
        rw [hbn]
        omega
  · intro hbfc
    have hbfc2 : (flSpans a).foldl (bfStep b) none = none := hbfc
    rw [hbfc2] at hbridge hgo
    have hbsz : (mallocScanSt h b).bestSize = 32767 := by rw [hrun, hbridge]
    refine ⟨hgo.2, hbsz, ?_, ?_⟩
    · rw [if_neg (by omega), hrun]
    · rw [rep_NBT hr]
      exact blockNoOf_small (by omega)

/-- Witness for C1 on the concrete state `heapC` with request 1. -/
theorem claim_C1_witness :
    (if (mallocScanSt heapC 1).bestSize ≠ 32767 then (mallocScanSt heapC 1).bestBlock
      else (mallocScanSt heapC 1).cf) = 1 ∧ (mallocScanSt heapC 1).bestSize = 1 := by
  have hc := (claim_C1 heapC absC 1 (by decide) (by decide)).1 1 1 (by decide)
  exact ⟨hc.1, hc.2.1⟩

/-!
## Claim C3 (free list = flagged blocks)
-/

theorem nfChain_run (h : Heap) :
    ∀ (l : List Nat) (x fuel : Nat),
      l.length < fuel → nfSeq h (x :: l) → (∀ y ∈ l, 1 ≤ y) →
      nfChain h fuel x = l := by
  intro l
  induction l with
  | nil =>
    intro x fuel hfuel hseq hpos
    obtain ⟨k, rfl⟩ : ∃ k, fuel = k + 1 := ⟨fuel - 1, by omega⟩
    have h0 : NFREE h x = 0 := hseq
    unfold nfChain
    rw [if_pos h0]
  | cons y r ih =>
    intro x fuel hfuel hseq hpos
    obtain ⟨k, rfl⟩ : ∃ k, fuel = k + 1 := ⟨fuel - 1, by omega⟩
    obtain ⟨h1, h2⟩ := hseq
    have hy1 : 1 ≤ y := hpos y (List.mem_cons_self _ _)
    unfold nfChain
    rw [if_neg (by omega), h1]
    have := ih y k (by simp at hfuel ⊢; omega) h2
      (fun q hq => hpos q (List.mem_cons_of_mem _ hq))
    rw [this]

/-- Claim C3, as stated, is false: in the reachable state `heapA`
(between public operations), the trailing cell 2 is on the free list
(it is `NF`-reachable from the sentinel) but its `NB` does not carry
`FREE_FLAG`. -/
theorem claim_C3_cex :
    Rep heapA absA ∧ WF absA ∧
    nfChain heapA 8 0 = [2] ∧ hasFlag (NBLOCK heapA 2) = false := by
  refine ⟨by decide, by decide, by decide, by decide⟩

/-- Claim C3 (amended): in every state satisfying the structural
invariants, the free list rooted at cell 0 consists of exactly the
`FREE_FLAG`-flagged logical blocks followed by one final unflagged
cell, the trailing marker `absT a` (whose `NB & mask = 0`): every
reachable cell except that final one is flagged, and every flagged
block is on the list. -/
theorem claim_C3 (h : Heap) (a : Abs) (hr : Rep h a) (hw : WF a) :
    nfChain h h.length 0 = a.fl ++ [absT a] ∧
    (∀ s ∈ a.fl, hasFlag (NBLOCK h s) = true) ∧
    hasFlag (NBLOCK h (absT a)) = false ∧
    blockNoOf (NBLOCK h (absT a)) = 0 ∧
    (∀ s z (f : Bool), (s, z, f) ∈ a.blocks → hasFlag (NBLOCK h s) = true →
      s ∈ a.fl) := by
  have hseq0 : nfSeq h (0 :: (a.fl ++ [absT a])) :=
    chainOK_nfSeq _ 0 (rep_chainOK hr)
      (by rw [getLastD_append_single]; exact rep_NFT hr)
  refine ⟨?_, ?_, ?_, ?_, ?_⟩
  · refine nfChain_run h _ 0 h.length ?_ hseq0 ?_
    · have h1 := fl_length_absT hr hw
      have hTn : absT a < a.n := hw.2.2.1
      have hlen : h.length = a.n := hr.1
      simp only [List.length_append, List.length_singleton]
      omega
    · intro y hy
      rcases List.mem_append.mp hy with hy | hy
      · exact (rep_fl_facts hr hw y hy).choose_spec.2.2.1
      · rw [List.mem_singleton.mp hy]
        exact absT_pos a
  · intro s hs
    obtain ⟨z, -, -, -, -, -, -, hfl, -⟩ := rep_fl_facts hr hw s hs
    exact hfl
  · rw [rep_NBT hr]
    exact hasFlag_small (by omega)
  · rw [rep_NBT hr]
    exact blockNoOf_small (by omega)
  · intro s z f hm hflag
    obtain ⟨hge1, hz1, hbound, hnb⟩ := physOK_mem (rep_physOK hr) _ hm
    simp only at hge1 hz1 hbound hnb
    have hTn : absT a < a.n := hw.2.2.1
    have hn : a.n ≤ 32768 := hw.2.1
    have habs : absT a = 1 + (a.blocks.map (fun r => r.2.1)).sum := rfl
    have hlt : s + z < 32768 := by omega
    have hf : hasFlag (NBLOCK h s) = f := by
      cases f with
      | false =>
        have hnb2 : NBLOCK h s = s + z := by simpa using hnb
        rw [hnb2]; exact hasFlag_small hlt
      | true =>
        have hnb2 : NBLOCK h s = s + z + 32768 := by simpa using hnb
        rw [hnb2]; exact hasFlag_flagged hlt
    rw [hflag] at hf
    exact hw.2.2.2.2.2.2 (s, z, f) hm hf.symm

/-- Witness for C3 on the concrete state `heapC`. -/
theorem claim_C3_witness :
    nfChain heapC heapC.length 0 = [1, 3] ∧ hasFlag (NBLOCK heapC 1) = true := by
  have hc := claim_C3 heapC absC (by decide) (by decide)
  exact ⟨hc.1.trans (by decide), hc.2.1 1 (by decide)⟩

/-!
## Symbolic execution of `umm_malloc_core`
-/

/-- Outcome of the scan-and-select phase of `umm_malloc`. -/
theorem mallocSel_spec {h : Heap} {a : Abs} (hr : Rep h a) (hw : WF a) (b : Nat) :
    (∃ s z, bestFitChoice b (flSpans a) = some (s, z) ∧
      (mallocScanSt h b).bestSize = z ∧ (mallocScanSt h b).bestBlock = s ∧
      z < 32767 ∧ s ∈ a.fl ∧ spanAt a s = z ∧ b ≤ z ∧
      blockNoOf (NBLOCK h s) = s + z ∧ s + z ≤ absT a ∧ 1 ≤ s ∧ 1 ≤ z) ∨
    (bestFitChoice b (flSpans a) = none ∧ (mallocScanSt h b).bestSize = 32767 ∧
      (mallocScanSt h b).cf = absT a) := by
  have hsp := flSpans_lt hr hw
  have hrun := mallocScan_run hr hw b
  have hbridge := scanFold_bfc b (flSpans a) none (NFREE h 0) 32767 rfl hsp
  have hgo := bfc_go b (flSpans a) none
  rcases hbfc : bestFitChoice b (flSpans a) with - | ⟨s, z⟩
  · have hbfc2 : (flSpans a).foldl (bfStep b) none = none := hbfc
    rw [hbfc2] at hbridge
    right
    exact ⟨rfl, by rw [hrun, hbridge], by rw [hrun]⟩
  · left
    have hbfc2 : (flSpans a).foldl (bfStep b) none = some (s, z) := hbfc
    rw [hbfc2] at hbridge hgo
    rcases hgo with ⟨hbad, -⟩ | ⟨L, R, hdec, hbz, -, -, -⟩
    · cases hbad
    · have hmem : (s, z) ∈ flSpans a := by
        rw [hdec]
        exact List.mem_append.mpr (Or.inr (List.mem_cons_self _ _))
      obtain ⟨s0, hs0, hps⟩ := List.mem_map.mp hmem
      have hss : s0 = s := congrArg Prod.fst hps
      subst hss
      have hzspan : spanAt a s0 = z := congrArg Prod.snd hps
      obtain ⟨z0, hm0, hz0span, hs1, hz01, hT0, hbn0, -, -⟩ := rep_fl_facts hr hw s0 hs0
      have hz0z : z0 = z := by rw [← hz0span, hzspan]
      subst hz0z
      exact ⟨s0, z0, rfl, by rw [hrun, hbridge], by rw [hrun, hbridge],
        hsp _ hmem, hs0, hzspan, hbz, hbn0, hT0, hs1, hz01⟩

/-- `umm_malloc_core` when the best-fit scan finds a candidate `(s, z)`:
an exact fit unhooks `s` from the free list, otherwise the allocated
region is carved from the tail of the free block. -/
theorem malloc_core_someCase {h : Heap} {a : Abs} (hr : Rep h a) (hw : WF a)
    {size s z : Nat} (hsz : size ≠ 0)
    (hsome : bestFitChoice (umm_blocks size) (flSpans a) = some (s, z)) :
    umm_malloc_core h size =
      if z = umm_blocks size then (umm_disconnect_from_free_list h s, some s)
      else (umm_make_new_block h s (u16sub z (umm_blocks size)) 32768,
        some ((s + u16sub z (umm_blocks size)) % 65536)) := by
  rcases mallocSel_spec hr hw (umm_blocks size) with
    ⟨s2, z2, hb2, hbsz, hbb, hz32, hsfl, hspan, hbz, hbn, hT, hs1, hz1⟩ | ⟨hb2, -, -⟩
  · have he : (s2, z2) = (s, z) := by
      have := hb2.symm.trans hsome
      injection this
    injection he with he1 he2
    subst he1; subst he2
    have hc : ¬ z2 = 32767 := by omega
    have hg : s2 + z2 ≠ 0 := by omega
    unfold umm_malloc_core
    rw [if_neg hsz]
    dsimp only
    rw [hbsz, if_pos hc, if_pos hc, hbb, hbn, if_pos hg]
  · rw [hb2] at hsome
    cases hsome

/-- `umm_malloc_core` when no free-list candidate fits and the heap has
no room either: the request fails with the heap untouched. -/
theorem malloc_core_none_fail {h : Heap} {a : Abs} (hr : Rep h a) (hw : WF a)
    {size : Nat} (hsz : size ≠ 0)
    (hnone : bestFitChoice (umm_blocks size) (flSpans a) = none)
    (hfull : h.length ≤ absT a + umm_blocks size + 1) :
    umm_malloc_core h size = (h, none) := by
  rcases mallocSel_spec hr hw (umm_blocks size) with
    ⟨s2, z2, hb2, -⟩ | ⟨-, hbsz, hcf⟩
  · rw [hnone] at hb2
    cases hb2
  · have hne : ¬ ((32767 : Nat) ≠ 32767) := by omega
    have hg : ¬ (blockNoOf (NBLOCK h (absT a)) ≠ 0) := by
      rw [rep_NBT hr]
      simp [blockNoOf]
    unfold umm_malloc_core
    rw [if_neg hsz]
    dsimp only
    rw [hbsz, if_neg hne, if_neg hne, hcf, if_neg hg, if_pos hfull]

/-- `umm_malloc_core` when no free-list candidate fits but the heap has
room at the end: the end-of-heap extension runs at `cf = absT a`. -/
theorem malloc_core_none_ok {h : Heap} {a : Abs} (hr : Rep h a) (hw : WF a)
    {size : Nat} (hsz : size ≠ 0)
    (hnone : bestFitChoice (umm_blocks size) (flSpans a) = none)
    (hroom : ¬ (h.length ≤ absT a + umm_blocks size + 1)) :
    umm_malloc_core h size =
      (endAlloc h (absT a) (umm_blocks size), some (absT a)) := by
  rcases mallocSel_spec hr hw (umm_blocks size) with
    ⟨s2, z2, hb2, -⟩ | ⟨-, hbsz, hcf⟩
  · rw [hnone] at hb2
    cases hb2
  · have hT1 : ¬ absT a = 0 := by have := absT_pos a; omega
    have hne : ¬ ((32767 : Nat) ≠ 32767) := by omega
    have hg : ¬ (blockNoOf (NBLOCK h (absT a)) ≠ 0) := by
      rw [rep_NBT hr]
      simp [blockNoOf]
    unfold umm_malloc_core
    rw [if_neg hsz]
    dsimp only
    rw [hbsz, if_neg hne, if_neg hne, hcf, if_neg hg, if_neg hroom, if_neg hT1,
      if_neg hT1]

/-- On an all-zero heap the scan exits immediately, and a successful
first allocation always returns cell 1 (the lazy initialization). -/
theorem malloc_core_zeroHeap (n size : Nat) :
    ∀ cf, (umm_malloc_core (zeroHeap n) size).2 = some cf → cf = 1 := by
  intro cf hres
  unfold umm_malloc_core at hres
  by_cases hsz : size = 0
  · rw [if_pos hsz] at hres
    exact absurd hres (by simp)
  · rw [if_neg hsz] at hres
    dsimp only at hres
    have hnf : NFREE (zeroHeap n) 0 = 0 := by simp [NFREE, cell_zeroHeap, cellD]
    have hst : mallocScanSt (zeroHeap n) (umm_blocks size) = ⟨0, 0, 0, 32767⟩ := by
      unfold mallocScanSt
      rw [hnf]
      cases hn : (zeroHeap n).length with
      | zero => rfl
      | succ k =>
        rw [mallocLoop_succ]
        dsimp only
        rw [if_neg (by simp [hnf])]
    rw [hst] at hres
    dsimp only at hres
    have hne : ¬ ((32767 : Nat) ≠ 32767) := by omega
    rw [if_neg hne, if_neg hne] at hres
    have hnb0 : ¬ (blockNoOf (NBLOCK (zeroHeap n) 0) ≠ 0) := by
      simp [NBLOCK, cell_zeroHeap, blockNoOf, cellD]
    rw [if_neg hnb0] at hres
    split at hres
    · exact absurd hres (by simp)
    · rw [if_pos rfl, if_pos rfl] at hres
      have h2 : some 1 = some cf := hres
      injection h2 with h1
      omega

/-- A successful `umm_malloc_core` never returns the sentinel cell. -/
theorem malloc_cf_pos {h : Heap} {a : Abs} (hr : Rep h a) (hw : WF a) (size : Nat) :
    ∀ cf, (umm_malloc_core h size).2 = some cf → 1 ≤ cf := by
  intro cf hres
  by_cases hsz : size = 0
  · unfold umm_malloc_core at hres
    rw [if_pos hsz] at hres
    exact absurd hres (by simp)
  rcases hbfc : bestFitChoice (umm_blocks size) (flSpans a) with - | ⟨s, z⟩
  · by_cases hroom : h.length ≤ absT a + umm_blocks size + 1
    · rw [malloc_core_none_fail hr hw hsz hbfc hroom] at hres
      exact absurd hres (by simp)
    · rw [malloc_core_none_ok hr hw hsz hbfc hroom] at hres
      have h2 : some (absT a) = some cf := hres
      injection h2 with h1
      have := absT_pos a
      omega
  · rcases mallocSel_spec hr hw (umm_blocks size) with
      ⟨s2, z2, hb2, -, -, hz32, -, -, hbz, -, hT, hs1, hz1⟩ | ⟨hb2, -, -⟩
    · have he : (s2, z2) = (s, z) := by
        have := hb2.symm.trans hbfc
        injection this
      injection he with he1 he2
      subst he1; subst he2
      rw [malloc_core_someCase hr hw hsz hbfc] at hres
      have hTn : absT a < a.n := hw.2.2.1
      have hn32 : a.n ≤ 32768 := hw.2.1
      split at hres
      · have h2 : some s2 = some cf := hres
        injection h2 with h1
        omega
      · have hu : u16sub z2 (umm_blocks size) = z2 - umm_blocks size :=
          u16sub_exact (by omega) (by omega)
        rw [hu] at hres
        have hmod : (s2 + (z2 - umm_blocks size)) % 65536 = s2 + (z2 - umm_blocks size) :=
          Nat.mod_eq_of_lt (by omega)
        rw [hmod] at hres
        have h2 : some (s2 + (z2 - umm_blocks size)) = some cf := hres
        injection h2 with h1
        omega
    · rw [hbfc] at hb2
      cases hb2

/-- A failing `umm_malloc_core` returns the heap unchanged, on any
heap: every `none` exit of the code hands back the input heap. -/
theorem malloc_core_none_heap (h : Heap) (size : Nat) :
    (umm_malloc_core h size).2 = none → (umm_malloc_core h size).1 = h := by
  intro hn
  unfold umm_malloc_core at hn ⊢
  by_cases hsz : size = 0
  · rw [if_pos hsz]
  · rw [if_neg hsz] at hn ⊢
    dsimp only at hn ⊢
    split_ifs at hn ⊢ <;> first | rfl | simp at hn

/-- `umm_malloc_core` never returns a heap whose used-block payloads
differ from the input heap's: every pre-state used block keeps its
payload through every path of the allocator. -/
theorem malloc_payload {h : Heap} {a : Abs} (hr : Rep h a) (hw : WF a) (size : Nat) :
    ∀ s z, (s, z, false) ∈ a.blocks → payloadEq h (umm_malloc_core h size).1 s z := by
  intro s z hm
  have hz1 : 1 ≤ z := (physOK_mem (rep_physOK hr) _ hm).2.1
  have hlen := rep_len hr
  have hTn : absT a < a.n := hw.2.2.1
  have hn32 : a.n ≤ 32768 := hw.2.1
  have hbm := block_bounds hr hw hm
  by_cases hsz : size = 0
  · subst hsz
    have he : umm_malloc_core h 0 = (h, none) := by
      unfold umm_malloc_core
      rw [if_pos rfl]
    rw [he]
    exact payloadEq_refl h s z
  rcases hbfc : bestFitChoice (umm_blocks size) (flSpans a) with _ | ⟨sb, zb⟩
  · by_cases hroom : h.length ≤ absT a + umm_blocks size + 1
    · rw [malloc_core_none_fail hr hw hsz hbfc hroom]
      exact payloadEq_refl h s z
    · rw [malloc_core_none_ok hr hw hsz hbfc hroom]
      -- the end-of-heap extension writes only at the free-list tail's
      -- predecessor, at the trailing cell, and beyond it
      have hch := rep_chainOK hr
      have hshT : (0 : Nat) :: a.fl ++ [absT a] = (0 :: a.fl) ++ absT a :: [] := by
        simp
      rw [hshT] at hch
      obtain ⟨hprev, -, -⟩ := chainOK_at (0 :: a.fl) (absT a) [] hch
      obtain ⟨-, hPFT⟩ := hprev (by simp)
      have hpv_mem : PFREE h (absT a) ∈ 0 :: a.fl ++ [absT a] := by
        rw [hPFT]
        rcases getLastD_mem (0 :: a.fl) 0 with hcon | hmem
        · cases hcon
        · rcases List.mem_cons.mp hmem with hx | hx
          · rw [hx]
            exact List.mem_cons_self _ _
          · exact List.mem_cons_of_mem _ (List.mem_append.mpr (Or.inl hx))
      have hs1 := chain_safe hr hw hm _ hpv_mem
      have hsT : s + z ≤ absT a := by omega
      have heq : endAlloc h (absT a) (umm_blocks size) =
          setPB (setNB (setCell (setNF h (PFREE h (absT a)) (absT a + umm_blocks size))
              (absT a + umm_blocks size)
              (cell (setNF h (PFREE h (absT a)) (absT a + umm_blocks size)) (absT a)))
            (absT a) (absT a + umm_blocks size)) (absT a + umm_blocks size) (absT a) := rfl
      rw [heq]
      have hp1 : payloadEq h (setNF h (PFREE h (absT a)) (absT a + umm_blocks size)) s z :=
        payloadEq_setNF hz1 (by omega)
      have hp2 : payloadEq (setNF h (PFREE h (absT a)) (absT a + umm_blocks size))
          (setCell (setNF h (PFREE h (absT a)) (absT a + umm_blocks size))
            (absT a + umm_blocks size)
            (cell (setNF h (PFREE h (absT a)) (absT a + umm_blocks size)) (absT a))) s z :=
        payloadEq_setCell hz1 (by omega)
      have hp3 : payloadEq (setCell (setNF h (PFREE h (absT a)) (absT a + umm_blocks size))
            (absT a + umm_blocks size)
            (cell (setNF h (PFREE h (absT a)) (absT a + umm_blocks size)) (absT a)))
          (setNB (setCell (setNF h (PFREE h (absT a)) (absT a + umm_blocks size))
            (absT a + umm_blocks size)
            (cell (setNF h (PFREE h (absT a)) (absT a + umm_blocks size)) (absT a)))
            (absT a) (absT a + umm_blocks size)) s z :=
        payloadEq_setNB (by omega)
      have hp4 : payloadEq (setNB (setCell (setNF h (PFREE h (absT a))
            (absT a + umm_blocks size)) (absT a + umm_blocks size)
            (cell (setNF h (PFREE h (absT a)) (absT a + umm_blocks size)) (absT a)))
            (absT a) (absT a + umm_blocks size))
          (setPB (setNB (setCell (setNF h (PFREE h (absT a)) (absT a + umm_blocks size))
              (absT a + umm_blocks size)
              (cell (setNF h (PFREE h (absT a)) (absT a + umm_blocks size)) (absT a)))
            (absT a) (absT a + umm_blocks size)) (absT a + umm_blocks size) (absT a)) s z :=
        payloadEq_setPB (by omega)
      exact payloadEq_trans (payloadEq_trans (payloadEq_trans hp1 hp2) hp3) hp4
  · rcases mallocSel_spec hr hw (umm_blocks size) with
      ⟨s2, z2, hb2, -, -, hz32, hsfl, hspan, hbz, hbn, hT2, hsb1, hzb1⟩ | ⟨hb2, -, -⟩
    · have he : (s2, z2) = (sb, zb) := by
        have := hb2.symm.trans hbfc
        injection this
      injection he with he1 he2
      subst he1
      subst he2
      rw [malloc_core_someCase hr hw hsz hbfc]
      have hmemb : (s2, z2, true) ∈ a.blocks := by
        obtain ⟨z3, hm3, hsp3, -⟩ := rep_fl_facts hr hw s2 hsfl
        have : z3 = z2 := by rw [← hsp3, hspan]
        rw [← this]
        exact hm3
      by_cases hex : z2 = umm_blocks size
      · rw [if_pos hex]
        exact disconnect_payload hr hw hsfl s z hm
      · rw [if_neg hex]
        -- the split path carves the tail of the free block at `s2`
        have hku : u16sub z2 (umm_blocks size) = z2 - umm_blocks size :=
          u16sub_exact (by omega) (by omega)
        have hkb : 1 ≤ z2 - umm_blocks size ∧ z2 - umm_blocks size ≤ z2 := by omega
        have hNBsb : NBLOCK h s2 = s2 + z2 + 32768 := free_NB hr hmemb
        have hsafe_sb : s2 ≤ s ∨ s + z ≤ s2 := blocks_start_safe hr hm s2 z2 true hmemb
        have hsafe_end : s2 + z2 ≤ s ∨ s + z ≤ s2 + z2 :=
          block_end_start_safe hr hw hmemb hm
        have hsafe_in : ∀ k, 1 ≤ k → k ≤ z2 → s2 + k ≤ s ∨ s + z ≤ s2 + k := by
          intro k hk1 hk2
          by_cases hkz : k = z2
          · subst hkz
            omega
          · have hne : s2 ≠ s := by
              intro hee
              subst hee
              have := (physOK_start_inj (rep_physOK hr) hmemb hm).2
              cases this
            have hd := physOK_disjoint (rep_physOK hr) _ hmemb _ hm (by simpa using hne)
            simp only at hd
            omega
        rw [hku]
        have heq2 : umm_make_new_block h s2 (z2 - umm_blocks size) 32768 =
            setNB (setPB (setPB (setNB h (s2 + (z2 - umm_blocks size))
                (blockNoOf (NBLOCK h s2))) (s2 + (z2 - umm_blocks size)) s2)
              (blockNoOf (NBLOCK (setPB (setNB h (s2 + (z2 - umm_blocks size))
                (blockNoOf (NBLOCK h s2))) (s2 + (z2 - umm_blocks size)) s2) s2))
              (s2 + (z2 - umm_blocks size))) s2
            (orFlag (s2 + (z2 - umm_blocks size)) 32768) := rfl
        rw [heq2]
        have hv3 : NBLOCK (setPB (setNB h (s2 + (z2 - umm_blocks size))
            (blockNoOf (NBLOCK h s2))) (s2 + (z2 - umm_blocks size)) s2) s2 =
            NBLOCK h s2 := by
          simp only [NBLOCK_setPB]
          rw [NBLOCK_setNB, if_neg (fun hcc => by omega)]
        have hv4 : blockNoOf (NBLOCK h s2) = s2 + z2 := by
          rw [hNBsb]
          exact blockNoOf_flagged (by omega)
        have hp1 : payloadEq h (setNB h (s2 + (z2 - umm_blocks size))
            (blockNoOf (NBLOCK h s2))) s z :=
          payloadEq_setNB (by
            have := hsafe_in (z2 - umm_blocks size) hkb.1 hkb.2
            omega)
        have hp2 : payloadEq (setNB h (s2 + (z2 - umm_blocks size))
              (blockNoOf (NBLOCK h s2)))
            (setPB (setNB h (s2 + (z2 - umm_blocks size)) (blockNoOf (NBLOCK h s2)))
              (s2 + (z2 - umm_blocks size)) s2) s z :=
          payloadEq_setPB (by
            have := hsafe_in (z2 - umm_blocks size) hkb.1 hkb.2
            omega)
        have hp3 : payloadEq (setPB (setNB h (s2 + (z2 - umm_blocks size))
              (blockNoOf (NBLOCK h s2))) (s2 + (z2 - umm_blocks size)) s2)
            (setPB (setPB (setNB h (s2 + (z2 - umm_blocks size))
              (blockNoOf (NBLOCK h s2))) (s2 + (z2 - umm_blocks size)) s2)
              (blockNoOf (NBLOCK (setPB (setNB h (s2 + (z2 - umm_blocks size))
                (blockNoOf (NBLOCK h s2))) (s2 + (z2 - umm_blocks size)) s2) s2))
              (s2 + (z2 - umm_blocks size))) s z := by
          rw [hv3, hv4]
          exact payloadEq_setPB (by omega)
        have hp4 : payloadEq (setPB (setPB (setNB h (s2 + (z2 - umm_blocks size))
              (blockNoOf (NBLOCK h s2))) (s2 + (z2 - umm_blocks size)) s2)
              (blockNoOf (NBLOCK (setPB (setNB h (s2 + (z2 - umm_blocks size))
                (blockNoOf (NBLOCK h s2))) (s2 + (z2 - umm_blocks size)) s2) s2))
              (s2 + (z2 - umm_blocks size)))
            (setNB (setPB (setPB (setNB h (s2 + (z2 - umm_blocks size))
                (blockNoOf (NBLOCK h s2))) (s2 + (z2 - umm_blocks size)) s2)
              (blockNoOf (NBLOCK (setPB (setNB h (s2 + (z2 - umm_blocks size))
                (blockNoOf (NBLOCK h s2))) (s2 + (z2 - umm_blocks size)) s2) s2))
              (s2 + (z2 - umm_blocks size))) s2
            (orFlag (s2 + (z2 - umm_blocks size)) 32768)) s z :=
          payloadEq_setNB (by omega)
        exact payloadEq_trans (payloadEq_trans (payloadEq_trans hp1 hp2) hp3) hp4
    · rw [hbfc] at hb2
      cases hb2

/-!
## Claim C4 (returned pointer: body of first cell, alignment, sentinel)
-/

/-- Claim C4, as stated, is false in its alignment part: the heap base
is only guaranteed 32-bit (4-byte) aligned by the source, so with the
heap at byte address 8 (a valid 4-aligned base), the successful
allocation returns pointer 20, which is not 8-byte aligned. -/
theorem claim_C4_cex :
    (umm_malloc 8 (zeroHeap 8) 4).2 = 20 ∧ 8 % 4 = 0 ∧ ¬ (8 ∣ 20) := by
  refine ⟨by decide, by decide, by decide⟩

/-- Claim C4 (amended): every successful alloc returns the address of
the body of the first cell `cf` of the allocated block
(`base + 8*cf + 4`), with `cf ≥ 1`, so the pointer never refers to
sentinel cell 0; it is 4-byte aligned whenever the heap base is 4-byte
aligned (the source only guarantees 32-bit alignment of the heap, so
8-byte alignment does not hold in general). -/
theorem claim_C4 (h : Heap) (a : Abs) (base size : Nat)
    (hok : (Rep h a ∧ WF a) ∨ (∃ n, h = zeroHeap n)) :
    (umm_malloc base h size).2 ≠ 0 →
    ∃ cf, 1 ≤ cf ∧ (umm_malloc base h size).2 = dataAddr base cf ∧
      (base % 4 = 0 → (umm_malloc base h size).2 % 4 = 0) ∧
      (umm_malloc base h size).2 ≠ dataAddr base 0 := by
  intro hne
  unfold umm_malloc at hne ⊢
  dsimp only at hne ⊢
  rcases hcore : (umm_malloc_core h size).2 with _ | cf
  · rw [hcore] at hne
    exact absurd rfl hne
  · dsimp only at hne ⊢
    have hcf1 : 1 ≤ cf := by
      rcases hok with ⟨hr, hw⟩ | ⟨n, hzn⟩
      · exact malloc_cf_pos hr hw size cf hcore
      · subst hzn
        rw [malloc_core_zeroHeap n size cf hcore]
    refine ⟨cf, hcf1, rfl, ?_, ?_⟩
    · intro hb4
      unfold dataAddr
      omega
    · unfold dataAddr
      omega

/-- Witness for C4: the first allocation on the zero 8-cell heap based
at address 8. -/
theorem claim_C4_witness :
    (umm_malloc 8 (zeroHeap 8) 4).2 ≠ 0 ∧
    ∃ cf, 1 ≤ cf ∧ (umm_malloc 8 (zeroHeap 8) 4).2 = dataAddr 8 cf ∧
      (8 % 4 = 0 → (umm_malloc 8 (zeroHeap 8) 4).2 % 4 = 0) ∧
      (umm_malloc 8 (zeroHeap 8) 4).2 ≠ dataAddr 8 0 :=
  ⟨by decide, claim_C4 (zeroHeap 8) ⟨8, [], []⟩ 8 4 (Or.inr ⟨8, rfl⟩) (by decide)⟩

/-!
## Claim C9 (early return of the info walk)
-/

theorem infoLoop_succ (base : Nat) (h : Heap) (ptr fuel b : Nat) (acc : HeapInfo) :
    infoLoop base h ptr (fuel + 1) b acc =
      if blockNoOf (NBLOCK h b) ≠ 0 then
        let z := blockNoOf (NBLOCK h b) - b
        let acc1 := { acc with totalEntries := acc.totalEntries + 1,
                               totalBlocks := acc.totalBlocks + z }
        if hasFlag (NBLOCK h b) then
          let acc2 := { acc1 with freeEntries := acc1.freeEntries + 1,
                                  freeBlocks := acc1.freeBlocks + z }
          if ptr = base + 8 * b then (acc2, b, true)
          else infoLoop base h ptr fuel (blockNoOf (NBLOCK h b)) acc2
        else
          let acc2 := { acc1 with usedEntries := acc1.usedEntries + 1,
                                  usedBlocks := acc1.usedBlocks + z }
          infoLoop base h ptr fuel (blockNoOf (NBLOCK h b)) acc2
      else (acc, b, false) := rfl

theorem length_le_spansum :
    ∀ l : List (Nat × Nat × Bool), (∀ q ∈ l, 1 ≤ q.2.1) →
      l.length ≤ (l.map (fun q => q.2.1)).sum := by
  intro l
  induction l with
  | nil => intro _; simp
  | cons q r ih =>
    intro hall
    have h1 := hall q (List.mem_cons_self _ _)
    have h2 := ih (fun p hp => hall p (List.mem_cons_of_mem _ hp))
    simp only [List.length_cons, List.map_cons, List.sum_cons]
    omega

/-- The `umm_info` walk over a physical suffix: with no free-block
address match it accumulates every block and stops at `T`; with a
match it stops at the first matching block, accumulating exactly the
prefix through it. -/
theorem infoLoop_run (base : Nat) (h : Heap) (ptr T : Nat)
    (hT : blockNoOf (NBLOCK h T) = 0) :
    ∀ (l : List (Nat × Nat × Bool)) (p s fuel : Nat) (acc : HeapInfo),
      physOK h p s l →
      (∀ q ∈ l, q.1 + q.2.1 < 32768) →
      s + (l.map (fun q => q.2.1)).sum = T →
      l.length < fuel →
      (l.find? (fun q => q.2.2 && decide (ptr = base + 8 * q.1)) = none →
        infoLoop base h ptr fuel s acc = (l.foldl infoStep acc, T, false)) ∧
      (∀ q0, l.find? (fun q => q.2.2 && decide (ptr = base + 8 * q.1)) = some q0 →
        ∃ L R, l = L ++ q0 :: R ∧
          infoLoop base h ptr fuel s acc =
            ((L ++ [q0]).foldl infoStep acc, q0.1, true)) := by
  intro l
  induction l with
  | nil =>
    intro p s fuel acc hphys hbound hend hfuel
    obtain ⟨k, rfl⟩ : ∃ k, fuel = k + 1 := ⟨fuel - 1, by omega⟩
    have hsT : s = T := by simpa using hend
    subst hsT
    constructor
    · intro _
      rw [infoLoop_succ, if_neg (by omega)]
      rfl
    · intro q0 hq0
      cases hq0
  | cons q r ih =>
    intro p s fuel acc hphys hbound hend hfuel
    obtain ⟨k, rfl⟩ : ∃ k, fuel = k + 1 := ⟨fuel - 1, by omega⟩
    obtain ⟨st, z, f⟩ := q
    obtain ⟨hst, hz1, hnb, hpb, hrest⟩ := hphys
    subst hst
    have hb : st + z < 32768 := hbound (st, z, f) (List.mem_cons_self _ _)
    obtain ⟨hbn1, hbn2⟩ : blockNoOf (NBLOCK h st) = st + z ∧ hasFlag (NBLOCK h st) = f :=
      nb_split hnb hb
    have hbound2 : ∀ q ∈ r, q.1 + q.2.1 < 32768 :=
      fun q hq => hbound q (List.mem_cons_of_mem _ hq)
    have hend2 : (st + z) + (r.map (fun q => q.2.1)).sum = T := by
      simp only [List.map_cons, List.sum_cons] at hend
      omega
    have hfuel2 : r.length < k := by
      simp only [List.length_cons] at hfuel
      omega
    rw [infoLoop_succ, hbn1, if_pos (by omega : st + z ≠ 0), hbn2]
    dsimp only
    rw [Nat.add_sub_cancel_left]
    cases f with
    | false =>
      have hfind : List.find?
          (fun q => q.2.2 && decide (ptr = base + 8 * q.1)) ((st, z, false) :: r) =
          List.find? (fun q => q.2.2 && decide (ptr = base + 8 * q.1)) r :=
        List.find?_cons_of_neg _ (by simp)
      rw [hfind]
      have hrec := ih st (st + z) k (infoStep acc (st, z, false)) hrest hbound2 hend2 hfuel2
      constructor
      · intro hnone
        exact hrec.1 hnone
      · intro q0 hq0
        obtain ⟨L, R, hdec, heq⟩ := hrec.2 q0 hq0
        exact ⟨(st, z, false) :: L, R, by rw [hdec, List.cons_append], heq⟩
    | true =>
      by_cases hmatch : ptr = base + 8 * st
      · rw [if_pos hmatch]
        have hfind : List.find?
            (fun q => q.2.2 && decide (ptr = base + 8 * q.1)) ((st, z, true) :: r) =
            some (st, z, true) :=
          List.find?_cons_of_pos _ (by simp [hmatch])
        rw [hfind]
        constructor
        · intro hnone
          cases hnone
        · intro q0 hq0
          have hq0e : q0 = (st, z, true) := by
            injection hq0 with h1
            exact h1.symm
          subst hq0e
          exact ⟨[], r, rfl, rfl⟩
      · rw [if_neg hmatch]
        have hfind : List.find?
            (fun q => q.2.2 && decide (ptr = base + 8 * q.1)) ((st, z, true) :: r) =
            List.find? (fun q => q.2.2 && decide (ptr = base + 8 * q.1)) r :=
          List.find?_cons_of_neg _ (by simp [hmatch])
        rw [hfind]
        have hrec := ih st (st + z) k (infoStep acc (st, z, true)) hrest hbound2 hend2 hfuel2
        constructor
        · intro hnone
          exact hrec.1 hnone
        · intro q0 hq0
          obtain ⟨L, R, hdec, heq⟩ := hrec.2 q0 hq0
          exact ⟨(st, z, true) :: L, R, by rw [hdec, List.cons_append], heq⟩

/-- Claim C9: if `umm_info` is called with a pointer that equals the
header address of a free block met during the walk (the first such
block, per `find?`), it returns that pointer from inside the walk, and
the populated record counts exactly the blocks walked up to and
including that free block; the rest of the heap, including the
trailing free region, is not counted. -/
theorem claim_C9 (h : Heap) (a : Abs) (hr : Rep h a) (hw : WF a)
    (base ptr : Nat) (force : Bool) (q0 : Nat × Nat × Bool)
    (hfind : a.blocks.find? (fun q => q.2.2 && decide (ptr = base + 8 * q.1)) = some q0) :
    ∃ L R, a.blocks = L ++ q0 :: R ∧
      umm_info base h ptr force = (infoCount (L ++ [q0]), ptr) := by
  have hT : blockNoOf (NBLOCK h (absT a)) = 0 := by
    rw [rep_NBT hr]
    rfl
  have habs : absT a = 1 + (a.blocks.map (fun q => q.2.1)).sum := rfl
  have hTn : absT a < a.n := hw.2.2.1
  have hn32 : a.n ≤ 32768 := hw.2.1
  have hlen : h.length = a.n := hr.1
  have hbound : ∀ q ∈ a.blocks, q.1 + q.2.1 < 32768 := by
    intro q hq
    have h4 := (physOK_mem (rep_physOK hr) q hq).2.2.1
    omega
  have hend : 1 + (a.blocks.map (fun q => q.2.1)).sum = absT a := rfl
  have hfuel : a.blocks.length < h.length := by
    have hsum := length_le_spansum a.blocks
      (fun q hq => (physOK_mem (rep_physOK hr) q hq).2.1)
    omega
  obtain ⟨L, R, hdec, heq⟩ := (infoLoop_run base h ptr (absT a) hT a.blocks 0 1
    h.length emptyInfo (rep_physOK hr) hbound hend hfuel).2 q0 hfind
  refine ⟨L, R, hdec, ?_⟩
  unfold umm_info
  rw [rep_NB0 hr]
  dsimp only
  have h1 : blockNoOf 1 = 1 := rfl
  rw [h1, heq, if_pos rfl]
  rfl

/-- Witness for C9 on `heapC`: the free block at cell 1 has header
address 16, and the walk stops there counting only that block. -/
theorem claim_C9_witness :
    (umm_info 8 heapC 16 false).2 = 16 ∧
    (umm_info 8 heapC 16 false).1 = infoCount [(1, 1, true)] := by
  obtain ⟨L, R, hdec, heq⟩ := claim_C9 heapC absC (by decide) (by decide) 8 16 false
    (1, 1, true) (by decide)
  exact ⟨by rw [heq], by decide⟩

/-!
## Claim C10 (alloc and free do not touch other used blocks' payloads)
-/

/-- Claim C10: on a heap satisfying the structural invariants, for
every used (allocated) block other than the block being allocated or
freed, alloc and free leave all of that block's payload bytes
unchanged: the body words of its first cell and every byte of its
subsequent cells are identical before and after the operation (for
alloc this holds for every pre-state used block, since the block
handed out is carved from free or trailing space). -/
theorem claim_C10 (h : Heap) (a : Abs) (size c : Nat) (hr : Rep h a) (hw : WF a) :
    (∀ s z, (s, z, false) ∈ a.blocks → payloadEq h (umm_malloc_core h size).1 s z) ∧
    (∀ s z zc, (s, z, false) ∈ a.blocks → (c, zc, false) ∈ a.blocks → s ≠ c →
      payloadEq h (umm_free_idx h c) s z) := by
  refine ⟨malloc_payload hr hw size, ?_⟩
  intro s z zc hs hc hne
  obtain ⟨L, R, hdec⟩ := List.append_of_mem hc
  exact (free_rep hr hw hdec).1 s z hs hne

/-- Witness for C10 on the concrete state `heapB` (used blocks at
cells 1 and 2): a further `umm_malloc(4)` and a free of cell 1 both
leave the other used block's payload unchanged. -/
theorem claim_C10_witness :
    payloadEq heapB (umm_malloc_core heapB 4).1 1 1 ∧
    payloadEq heapB (umm_free_idx heapB 1) 2 1 :=
  ⟨(claim_C10 heapB absB 4 1 (by decide) (by decide)).1 1 1 (by decide),
   (claim_C10 heapB absB 4 1 (by decide) (by decide)).2 2 1 1 (by decide) (by decide)
     (by decide)⟩

/-!
## Claim C7 (realloc grow path with failing internal alloc)
-/

/-- Claim C7: when `umm_realloc(ptr, size)` with non-null `ptr` and
`size > 0` reaches the grow path (after the upward assimilation the
block's span is still smaller than the requested block count and the
in-place downward branch is not taken) and the internal alloc fails,
realloc returns null with the heap exactly as the upward assimilation
left it: the caller's block is still a valid used block starting at
`c` (possibly grown), its original payload bytes are preserved, and a
subsequent `umm_free(ptr)` of the same pointer succeeds, producing
again an invariant-satisfying heap in which the freed cells lie inside
a free block. -/
theorem claim_C7 (base size : Nat) (h : Heap) (a : Abs) (c zc : Nat)
    (L R : List (Nat × Nat × Bool))
    (hr : Rep h a) (hw : WF a)
    (hdec : a.blocks = L ++ (c, zc, false) :: R)
    (hsz : size ≠ 0)
    (hnodown : ¬(hasFlag (NBLOCK (umm_assimilate_up h c)
        (PBLOCK (umm_assimilate_up h c) c)) = true ∧
      (umm_blocks size : Int) ≤ (NBLOCK (umm_assimilate_up h c) c : Int) -
        (PBLOCK (umm_assimilate_up h c) c : Int)))
    (hgrow : u16sub (NBLOCK (umm_assimilate_up h c) c) c < umm_blocks size)
    (hfail : (umm_malloc_core (umm_assimilate_up h c) size).2 = none) :
    umm_realloc base h (dataAddr base c) size = (umm_assimilate_up h c, 0) ∧
    payloadEq h (umm_assimilate_up h c) c zc ∧
    ∃ a1 : Abs, Rep (umm_assimilate_up h c) a1 ∧ WF a1 ∧ a1.n = a.n ∧
      (∃ zc1, zc ≤ zc1 ∧ (c, zc1, false) ∈ a1.blocks) ∧
      umm_free base (umm_assimilate_up h c) (dataAddr base c) =
        umm_free_idx (umm_assimilate_up h c) c ∧
      ∃ a2 : Abs, Rep (umm_free_idx (umm_assimilate_up h c) c) a2 ∧ WF a2 ∧
        a2.n = a.n ∧
        ∃ ps zs, (ps, zs, true) ∈ a2.blocks ∧ ps ≤ c ∧ c + zc ≤ ps + zs := by
  obtain ⟨zc1, R1, fl1, hzlez, hrep1, hwf1, habs1, hhead1, hmem1, hpay1⟩ :=
    assimilate_up_rep hr hw hdec
  have hlen := rep_len hr
  have hTn : absT a < a.n := hw.2.2.1
  have hn32 : a.n ≤ 32768 := hw.2.1
  have hmemc : (c, zc, false) ∈ a.blocks := by
    rw [hdec]
    exact List.mem_append.mpr (Or.inr (List.mem_cons_self _ _))
  have hbc := block_bounds hr hw hmemc
  have hNBc : NBLOCK h c = c + zc := used_NB hr hmemc
  have hmemc1 : (c, zc1, false) ∈ (⟨a.n, L ++ (c, zc1, false) :: R1, fl1⟩ : Abs).blocks :=
    List.mem_append.mpr (Or.inr (List.mem_cons_self _ _))
  have hbc1 := block_bounds hrep1 hwf1 hmemc1
  have hNBc1 : NBLOCK (umm_assimilate_up h c) c = c + zc1 := used_NB hrep1 hmemc1
  have habsTn1 : absT (⟨a.n, L ++ (c, zc1, false) :: R1, fl1⟩ : Abs) < a.n := hwf1.2.2.1
  have hbs1 : u16sub (NBLOCK (umm_assimilate_up h c) c) c = zc1 := by
    rw [hNBc1, u16sub_exact (by omega) (by omega)]
    omega
  have hgrow2 : zc1 < umm_blocks size := by
    rw [hbs1] at hgrow
    exact hgrow
  have hbs0 : u16sub (NBLOCK h c) c = zc := by
    rw [hNBc, u16sub_exact (by omega) (by omega)]
    omega
  have hc65 : c < 65536 := by omega
  have hconv : ((dataAddr base c - base) / 8) % 65536 = c := by
    unfold dataAddr
    omega
  have hptr : dataAddr base c ≠ 0 := by
    unfold dataAddr
    omega
  have hms2 : umm_malloc_core (umm_assimilate_up h c) size =
      (umm_assimilate_up h c, none) :=
    Prod.ext (malloc_core_none_heap _ _ hfail) hfail
  have hre : umm_realloc base h (dataAddr base c) size = (umm_assimilate_up h c, 0) := by
    unfold umm_realloc
    rw [if_neg hptr, if_neg hsz]
    dsimp only
    rw [hconv, hbs0]
    rw [if_neg (show ¬ zc = umm_blocks size by omega)]
    rw [if_neg hnodown]
    rw [hbs1]
    rw [if_neg (show ¬ zc1 = umm_blocks size by omega)]
    rw [if_neg (show ¬ umm_blocks size < zc1 by omega)]
    rw [hms2]
  have hfr : umm_free base (umm_assimilate_up h c) (dataAddr base c) =
      umm_free_idx (umm_assimilate_up h c) c := by
    unfold umm_free
    rw [if_neg hptr, hconv]
  obtain ⟨-, a2, hrep2, hwf2, hn2, ps, zs, hmem2, hps, hzs⟩ :=
    free_rep hrep1 hwf1 (rfl :
      (⟨a.n, L ++ (c, zc1, false) :: R1, fl1⟩ : Abs).blocks = L ++ (c, zc1, false) :: R1)
  refine ⟨hre, hpay1 c zc hmemc, ⟨a.n, L ++ (c, zc1, false) :: R1, fl1⟩,
    hrep1, hwf1, rfl, ⟨zc1, hzlez, hmemc1⟩, hfr, a2, hrep2, hwf2, hn2, ps, zs,
    hmem2, hps, by omega⟩

/-- Witness for C7: on the concrete state `heapA` (one used block at
cell 1, heap based at byte address 8), `umm_realloc(20, 51)` reaches
the grow path, its internal alloc fails, and it returns null with the
heap unchanged. -/
theorem claim_C7_witness :
    umm_realloc 8 heapA (dataAddr 8 1) 51 = (umm_assimilate_up heapA 1, 0) ∧
    payloadEq heapA (umm_assimilate_up heapA 1) 1 1 := by
  have hc := claim_C7 8 51 heapA absA 1 1 [] [] (by decide) (by decide) (by decide)
    (by decide) (by decide) (by decide) (by decide)
  exact ⟨hc.1, hc.2.1⟩

/-!
## Claim C5 (block-count computation)
-/

/-- Claim C5, as stated, is false for sizes whose block count overflows
16 bits: at `size = 524277` the formula `2 + (size-1-4)/8` yields
`65536`, but `umm_blocks` stores it in an `unsigned short int` and
returns 0. -/
theorem claim_C5_cex :
    umm_blocks 524277 = 0 ∧ 2 + (524277 - 1 - 4) / 8 = 65536 ∧
      umm_blocks 524277 ≠ 2 + (524277 - 1 - 4) / 8 := by
  refine ⟨by decide, by decide, by decide⟩

/-- Claim C5 (amended): for `0 < size ≤ 4` the result is 1; for
`size > 4` the result is `ceil((size-4)/8) + 1` and equals
`2 + (size-1-4)/8`, both taken modulo 2^16 (exactly those values
whenever they are below 2^16). -/
theorem claim_C5 (size : Nat) :
    (0 < size → size ≤ 4 → umm_blocks size = 1) ∧
    (4 < size →
      umm_blocks size = ((size - 4 + 7) / 8 + 1) % 65536 ∧
      umm_blocks size = (2 + (size - 1 - 4) / 8) % 65536 ∧
      (2 + (size - 1 - 4) / 8 < 65536 → umm_blocks size = 2 + (size - 1 - 4) / 8)) := by
  constructor
  · intro _ hle
    unfold umm_blocks
    rw [if_pos hle]
  · intro hgt
    unfold umm_blocks
    rw [if_neg (by omega)]
    refine ⟨by omega, by omega, fun hlt => by omega⟩

/-- Witness for C5 at concrete sizes 3 and 13. -/
theorem claim_C5_witness : umm_blocks 3 = 1 ∧ umm_blocks 13 = (2 + (13 - 1 - 4) / 8) % 65536 :=
  ⟨(claim_C5 3).1 (by decide) (by decide), ((claim_C5 13).2 (by decide)).2.1⟩

/-!
## Claim C6 (info on the all-zero heap)
-/

/-- Claim C6, as stated, is false: on the all-zero 8-cell heap the walk
exits immediately at `blockNo = 0` and the trailing update adds
`UMM_NUMBLOCKS - 0 = 8` cells, so `freeBlocks = 8`, not 7. -/
theorem claim_C6_cex :
    (umm_info 8 (zeroHeap 8) 0 false).1.freeBlocks = 8 ∧
      (umm_info 8 (zeroHeap 8) 0 false).1.freeBlocks ≠ 7 := by
  refine ⟨by decide, by decide⟩

/-- Claim C6 (amended): on an 8-cell all-zero heap, `info(null, false)`
reports `totalEntries = 0`, `usedBlocks = 0`, and `freeBlocks = 8`
(the walk never runs, and the final accounting counts all `N` cells
from the sentinel onward as free). -/
theorem claim_C6 (base : Nat) (force : Bool) :
    (umm_info base (zeroHeap 8) 0 force).1.totalEntries = 0 ∧
    (umm_info base (zeroHeap 8) 0 force).1.freeBlocks = 8 ∧
    (umm_info base (zeroHeap 8) 0 force).1.usedBlocks = 0 ∧
    (umm_info base (zeroHeap 8) 0 force).2 = 0 := by
  refine ⟨rfl, rfl, rfl, rfl⟩

/-!
## Claim C8 (16-bit wrap of the block count)
-/

/-- Claim C8: the block count is truncated to 16 bits, so any size
whose true block count reaches 2^16 wraps around; concretely, on the
zero 8-cell heap a request of 524285 bytes (which needs 65537 cells)
wraps to a block count of 1 and `umm_malloc` returns the non-null
pointer to cell 1, a block of span 1. -/
theorem claim_C8 :
    (∀ size : Nat, 4 < size → 65536 ≤ 2 + (size - 5) / 8 →
      umm_blocks size = (2 + (size - 5) / 8) % 65536 ∧
      umm_blocks size < 2 + (size - 5) / 8) ∧
    (umm_blocks 524285 = 1 ∧ 2 + (524285 - 5) / 8 = 65537 ∧
      (umm_malloc_core (zeroHeap 8) 524285).2 = some 1 ∧
      NBLOCK (umm_malloc_core (zeroHeap 8) 524285).1 1 = 2) := by
  constructor
  · intro size hgt hbig
    unfold umm_blocks
    rw [if_neg (by omega)]
    exact ⟨rfl, by omega⟩
  · refine ⟨by decide, by decide, by decide, by decide⟩

/-- Witness for C8's universally quantified part at `size = 524277`. -/
theorem claim_C8_witness :
    umm_blocks 524277 = (2 + (524277 - 5) / 8) % 65536 ∧
      umm_blocks 524277 < 2 + (524277 - 5) / 8 :=
  claim_C8.1 524277 (by decide) (by decide)

/-!
## Claim C2 (no two adjacent free blocks)
-/

/-- Claim C2 fails on the code: from the invariant-satisfying state
`heapA` (one used block at cell 1), `umm_realloc(ptr, 524277)` wraps
the block count to 0, carves a zero-span block, frees it, and leaves
cell 1 with `NB = 32769`: a FREE-flagged block whose physical successor
(itself) is also that free block, so the walk finds two adjacent free
blocks.  The code's own commentary asserts this can never happen, so
this is a code bug (missing overflow check in `umm_blocks`). -/
theorem claim_C2_bug :
    Rep heapA absA ∧ WF absA ∧ noTwoAdjacentFree heapA = true ∧
    (umm_realloc 8 heapA 20 524277).2 = 20 ∧
    NBLOCK (umm_realloc 8 heapA 20 524277).1 1 = 32769 ∧
    noTwoAdjacentFree (umm_realloc 8 heapA 20 524277).1 = false := by
  refine ⟨by decide, by decide, by decide, by decide, by decide, by decide⟩

end Umm
